import Mathlib

/-!
# A shallow embedding of the `sysr-q/lua` scanner

Go strings are byte sequences: a source text is a `List Nat` of bytes (values
below 256), a position (`token.Pos`) is an `Int` byte offset, and a rune is an
`Int` (`eof = -1`).  A Go run-time panic (slice bounds out of range, the
registry's `panic`) is the `none` of `Option`.  The unbuffered channel `items`
is the list of Items sent so far, in order.
-/

namespace Lua

/-! ## Package `token` -/

/-- The token kinds of `token/tokens.go`, in declaration order (`iota`). -/
inductive Token
  | EOF | Error | Space
  | FunctionName | TableBegin | TableEnd
  | Comma | StatementEnd
  | If | Else | ElseIf | For | Function | End | While | Break | Do | Goto | In
  | Local | Until | Then | Repeat | Return
  | OpenParen | CloseParen
  | Comment
  | Nil | StringLiteral | NumberLiteral | BooleanLiteral
  | Identifier
  | AssignmentOperator | AdditionOperator | SubtractionOperator | DivisionOperator
  | MultOperator | ConcatenationOperator | VarargsOperator | LengthOperator
  | ObjectOperator | MethodOperator | ComparisonOperator | EqualityOperator
  | NotEqualityOperator
  | NotOperator | AndOperator | OrOperator
  | TableLookupOperatorLeft | TableLookupOperatorRight | BitwiseShiftOperator
  | BitwiseAndOperator | BitwiseXorOperator | BitwiseOrOperator | BitwiseNotOperator
  | Require
  deriving DecidableEq, Repr

/-- The bytes of an ASCII string constant of the source. -/
def ascii (s : String) : List Nat := s.toList.map Char.toNat

/-- Item of `token/stream.go`: kind, starting byte offset, raw text. -/
structure Item where
  Typ : Token
  Begin : Int
  Val : List Nat
  deriving DecidableEq, Repr

/-- TokenMap of `token/tokens.go`, as an association list in source order. -/
def TokenMap : List (List Nat × Token) :=
  [ (ascii "\x7b", .TableBegin), (ascii "\x7d", .TableEnd),
    (ascii ",", .Comma), (ascii ";", .StatementEnd),
    (ascii "if", .If), (ascii "else", .Else), (ascii "elseif", .ElseIf),
    (ascii "for", .For), (ascii "function", .Function), (ascii "end", .End),
    (ascii "while", .While), (ascii "break", .Break), (ascii "do", .Do),
    (ascii "goto", .Goto), (ascii "in", .In), (ascii "local", .Local),
    (ascii "until", .Until), (ascii "then", .Then), (ascii "repeat", .Repeat),
    (ascii "return", .Return),
    (ascii "(", .OpenParen), (ascii ")", .CloseParen),
    (ascii "--", .Comment), (ascii "--[[", .Comment), (ascii "--]]", .Comment),
    (ascii "nil", .Nil), (ascii "true", .BooleanLiteral), (ascii "false", .BooleanLiteral),
    (ascii "=", .AssignmentOperator), (ascii "+", .AdditionOperator),
    (ascii "-", .SubtractionOperator), (ascii "/", .DivisionOperator),
    (ascii "//", .DivisionOperator), (ascii "*", .MultOperator),
    (ascii "%", .MultOperator), (ascii "..", .ConcatenationOperator),
    (ascii "...", .VarargsOperator), (ascii "#", .LengthOperator),
    (ascii ".", .ObjectOperator), (ascii ":", .MethodOperator),
    (ascii ">=", .ComparisonOperator), (ascii ">", .ComparisonOperator),
    (ascii "<=", .ComparisonOperator), (ascii "<", .ComparisonOperator),
    (ascii "==", .EqualityOperator), (ascii "~=", .NotEqualityOperator),
    (ascii "not", .NotOperator), (ascii "and", .AndOperator), (ascii "or", .OrOperator),
    (ascii "[", .TableLookupOperatorLeft), (ascii "]", .TableLookupOperatorRight),
    (ascii "<<", .BitwiseShiftOperator), (ascii ">>", .BitwiseShiftOperator),
    (ascii "&", .BitwiseAndOperator), (ascii "^", .BitwiseXorOperator),
    (ascii "|", .BitwiseOrOperator), (ascii "~", .BitwiseNotOperator),
    (ascii "require", .Require) ]

/-- The map index expression `TokenMap[tokenString]`: the zero value `EOF` for a
missing key. -/
def tokenMapGet (tokenString : List Nat) : Token :=
  match TokenMap.find? (fun e => e.1 == tokenString) with
  | some e => e.2
  | none => .EOF

/-- Go's `<` on strings: byte-wise lexicographic order. -/
def strLt : List Nat → List Nat → Bool
  | [], [] => false
  | [], _ :: _ => true
  | _ :: _, [] => false
  | a :: as, b :: bs => a < b || (a == b && strLt as bs)

/-- Insertion of one string into a list sorted in descending order. -/
def insertDesc (x : List Nat) : List (List Nat) → List (List Nat)
  | [] => [x]
  | y :: ys => if strLt x y then y :: insertDesc x ys else x :: y :: ys

/-- The effect of `sort.Sort(sort.Reverse(sort.StringSlice(l)))`; the keys of a
map are distinct, so the sorted result does not depend on the algorithm. -/
def sortDesc : List (List Nat) → List (List Nat)
  | [] => []
  | x :: xs => insertDesc x (sortDesc xs)

/-- TokenList of `token/tokens.go` (`init`): the keys of TokenMap sorted in
descending order. -/
def TokenList : List (List Nat) := sortDesc (TokenMap.map Prod.fst)

/-! ## Library functions used by the scanner -/

/-- The rune `utf8.RuneError`. -/
def RuneError : Int := 0xFFFD

/-- A UTF-8 continuation byte in `[lo, hi]`. -/
def inRange (lo hi b : Nat) : Bool := decide (lo ≤ b) && decide (b ≤ hi)

/-- The tail of `utf8.DecodeRuneInString` for a lead byte `s0` of a sequence of
`sz` bytes whose second byte must lie in `[lo, hi]`. -/
def decodeMulti (s0 sz lo hi : Nat) (rest : List Nat) : Int × Nat :=
  if rest.length + 1 < sz then (RuneError, 1) else
  match rest with
  | [] => (RuneError, 1)
  | s1 :: r1 =>
    if !inRange lo hi s1 then (RuneError, 1)
    else if sz ≤ 2 then (((s0 % 32) * 64 + s1 % 64 : Nat), 2)
    else match r1 with
      | [] => (RuneError, 1)
      | s2 :: r2 =>
        if !inRange 0x80 0xBF s2 then (RuneError, 1)
        else if sz ≤ 3 then (((s0 % 16) * 4096 + (s1 % 64) * 64 + s2 % 64 : Nat), 3)
        else match r2 with
          | [] => (RuneError, 1)
          | s3 :: _ =>
            if !inRange 0x80 0xBF s3 then (RuneError, 1)
            else (((s0 % 8) * 262144 + (s1 % 64) * 4096 + (s2 % 64) * 64 + s3 % 64 : Nat), 4)

/-- Go's `utf8.DecodeRuneInString`: the first rune of `s` and its width in bytes;
`(RuneError, 0)` on the empty string and `(RuneError, 1)` on an invalid
encoding. -/
def decodeRune : List Nat → Int × Nat
  | [] => (RuneError, 0)
  | s0 :: rest =>
    if s0 < 0x80 then ((s0 : Nat), 1)
    else if s0 < 0xC2 then (RuneError, 1)
    else if s0 < 0xE0 then decodeMulti s0 2 0x80 0xBF rest
    else if s0 = 0xE0 then decodeMulti s0 3 0xA0 0xBF rest
    else if s0 = 0xED then decodeMulti s0 3 0x80 0x9F rest
    else if s0 < 0xF0 then decodeMulti s0 3 0x80 0xBF rest
    else if s0 = 0xF0 then decodeMulti s0 4 0x90 0xBF rest
    else if s0 < 0xF4 then decodeMulti s0 4 0x80 0xBF rest
    else if s0 = 0xF4 then decodeMulti s0 4 0x80 0x8F rest
    else (RuneError, 1)

/-- The ranges of Go's `unicode.White_Space` table above Latin-1. -/
def whiteSpaceRanges : List (Int × Int) :=
  [(0x1680, 0x1680), (0x2000, 0x200A), (0x2028, 0x2029), (0x202F, 0x202F),
   (0x205F, 0x205F), (0x3000, 0x3000)]

/-- The ranges of Go's `unicode.Digit` table (category Nd) above Latin-1, as of
Unicode 16.0.  The table belongs to Go's library, not to this repository, and
grows with the Unicode version a Go release is built on.  No theorem of this
file depends on which ranges the table holds, except for the one rune U+0663 of
the C18 counterexample, an Arabic-Indic digit in every version; runes up to
`0xFF` are decided by `unicode.IsDigit` without the table. -/
def digitRanges : List (Int × Int) :=
  [(0x0660, 0x0669), (0x06F0, 0x06F9), (0x07C0, 0x07C9), (0x0966, 0x096F),
   (0x09E6, 0x09EF), (0x0A66, 0x0A6F), (0x0AE6, 0x0AEF), (0x0B66, 0x0B6F),
   (0x0BE6, 0x0BEF), (0x0C66, 0x0C6F), (0x0CE6, 0x0CEF), (0x0D66, 0x0D6F),
   (0x0DE6, 0x0DEF), (0x0E50, 0x0E59), (0x0ED0, 0x0ED9), (0x0F20, 0x0F29),
   (0x1040, 0x1049), (0x1090, 0x1099), (0x17E0, 0x17E9), (0x1810, 0x1819),
   (0x1946, 0x194F), (0x19D0, 0x19D9), (0x1A80, 0x1A89), (0x1A90, 0x1A99),
   (0x1B50, 0x1B59), (0x1BB0, 0x1BB9), (0x1C40, 0x1C49), (0x1C50, 0x1C59),
   (0xA620, 0xA629), (0xA8D0, 0xA8D9), (0xA900, 0xA909), (0xA9D0, 0xA9D9),
   (0xA9F0, 0xA9F9), (0xAA50, 0xAA59), (0xABF0, 0xABF9), (0xFF10, 0xFF19),
   (0x104A0, 0x104A9), (0x10D30, 0x10D39), (0x10D40, 0x10D49), (0x11066, 0x1106F),
   (0x110F0, 0x110F9),
   (0x11136, 0x1113F), (0x111D0, 0x111D9), (0x112F0, 0x112F9), (0x11450, 0x11459),
   (0x114D0, 0x114D9), (0x11650, 0x11659), (0x116C0, 0x116C9), (0x116D0, 0x116E3),
   (0x11730, 0x11739), (0x118E0, 0x118E9), (0x11950, 0x11959), (0x11BF0, 0x11BF9),
   (0x11C50, 0x11C59), (0x11D50, 0x11D59), (0x11DA0, 0x11DA9), (0x11F50, 0x11F59),
   (0x16130, 0x16139), (0x16A60, 0x16A69), (0x16AC0, 0x16AC9), (0x16B50, 0x16B59),
   (0x16D70, 0x16D79), (0x1CCF0, 0x1CCF9), (0x1D7CE, 0x1D7FF), (0x1E140, 0x1E149),
   (0x1E2F0, 0x1E2F9), (0x1E4F0, 0x1E4F9), (0x1E5F1, 0x1E5FA), (0x1E950, 0x1E959),
   (0x1FBF0, 0x1FBF9)]

/-- Membership of a rune in a range table. -/
def inRanges (t : List (Int × Int)) (r : Int) : Bool :=
  t.any (fun p => decide (p.1 ≤ r) && decide (r ≤ p.2))

/-- Go's `unicode.IsDigit`: the Latin-1 fast path, then the table. -/
def unicodeIsDigit (r : Int) : Bool :=
  if r ≤ 0xFF then decide (0x30 ≤ r) && decide (r ≤ 0x39) else inRanges digitRanges r

/-- Go's `unicode.IsSpace`: the Latin-1 fast path (taken when `uint32(r)` is at
most `0xFF`, so not for a negative rune), then the table. -/
def unicodeIsSpace (r : Int) : Bool :=
  if 0 ≤ r ∧ r ≤ 0xFF then
    r == 0x09 || r == 0x0A || r == 0x0B || r == 0x0C || r == 0x0D || r == 0x20
      || r == 0x85 || r == 0xA0
  else inRanges whiteSpaceRanges r

/-- The test `strings.IndexRune(valid, r) >= 0` for an ASCII string `valid`: a
rune is found exactly when it equals one of the bytes of `valid` (`eof`,
`RuneError` and runes of two or more bytes do not occur in an ASCII string). -/
def containsRune (valid : List Nat) (r : Int) : Bool :=
  valid.any (fun b => (b : Int) == r)

/-- The ASCII part of `strings.ToLower`, on one byte. -/
def lowerByte (b : Nat) : Nat := if 0x41 ≤ b ∧ b ≤ 0x5A then b + 32 else b

/-- The test `strings.HasPrefix(strings.ToLower(potentialToken), tokenString)` as
`lexText` uses it, where `tokenString` is ASCII and `potentialToken` has at most
as many bytes.  On ASCII bytes `ToLower` maps `A-Z` to `a-z`.  A rune of two or
more bytes (or an invalid byte, which `ToLower` replaces by the three bytes of
`RuneError`) yields at most one ASCII byte for at least two input bytes, or
non-ASCII bytes, so a `potentialToken` holding a non-ASCII byte never lowers to a
string having the ASCII `tokenString` as a prefix. -/
def lowerHasPrefix (potentialToken tokenString : List Nat) : Bool :=
  potentialToken.all (fun b => decide (b < 0x80)) &&
    tokenString.isPrefixOf (potentialToken.map lowerByte)

/-- The slice expression `s[lo:]`: panics unless `0 ≤ lo ≤ len(s)`. -/
def sliceFrom (s : List Nat) (lo : Int) : Option (List Nat) :=
  if 0 ≤ lo ∧ lo ≤ s.length then some (s.drop lo.toNat) else none

/-- The slice expression `s[lo:hi]`: panics unless `0 ≤ lo ≤ hi ≤ len(s)`. -/
def slice (s : List Nat) (lo hi : Int) : Option (List Nat) :=
  if 0 ≤ lo ∧ lo ≤ hi ∧ hi ≤ s.length then some ((s.take hi.toNat).drop lo.toNat) else none

/-- Go's `strings.Index(s, "\n")`: the offset of the first newline, `-1` if none. -/
def indexNewline : List Nat → Int
  | [] => -1
  | b :: rest => if b = 0x0A then 0 else
      let i := indexNewline rest
      if i < 0 then -1 else i + 1

/-! ## Package `lexer` -/

/-- The rune constant `eof`. -/
def eof : Int := -1

/-- The constant `alphabet` of `lexers.go`. -/
def alphabet : List Nat := ascii "abcdefghijklymnopqrstuvwxyzABCDEFGHIJKLYMNOPQRSTUVWXYZ"

/-- The constant `digits` of `lexers.go`. -/
def digits : List Nat := ascii "01234567890"

/-- The constant `underscore` of `lexers.go`. -/
def underscore : List Nat := ascii "_"

/-- The scanner state of `lexer.go`.  The fields `name` (error reports only) and
`lastPos` (written by the consumer's `Next`) are never read by the state
machine and are left out; `items` lists what has been sent on the channel. -/
structure Lexer where
  input : List Nat
  pos : Int
  start : Int
  width : Int
  items : List Item
  deriving DecidableEq, Repr

/-- Method `next`: the next rune of the input, `eof` at the end. -/
def next (l : Lexer) : Option (Int × Lexer) :=
  if l.pos ≥ l.input.length then some (eof, { l with width := 0 })
  else match sliceFrom l.input l.pos with
    | none => none
    | some s =>
      let rw := decodeRune s
      some (rw.1, { l with width := rw.2, pos := l.pos + rw.2 })

/-- Method `backup`: step back one rune. -/
def backup (l : Lexer) : Lexer := { l with pos := l.pos - l.width }

/-- Method `peek`: `next` followed by `backup`. -/
def peek (l : Lexer) : Option (Int × Lexer) :=
  match next l with
  | none => none
  | some (r, l1) => some (r, backup l1)

/-- Method `emit`: send the pending span as an Item of kind `t`. -/
def emit (l : Lexer) (t : Token) : Option Lexer :=
  match slice l.input l.start l.pos with
  | none => none
  | some v => some { l with items := l.items ++ [⟨t, l.start, v⟩], start := l.pos }

/-- Method `ignore`: skip the pending input. -/
def ignore (l : Lexer) : Lexer := { l with start := l.pos }

/-- Function `isSpace`. -/
def isSpace (r : Int) : Bool := unicodeIsSpace r

/-- The loop `for isSpace(r) { r = l.next() }` of `skipSpace`.  Every iteration
consumes at least one byte, so a clock longer than the remaining input never
runs out. -/
def skipSpaceLoop : Nat → Int → Lexer → Option (Int × Lexer)
  | 0, r, l => some (r, l)
  | clock + 1, r, l =>
    if isSpace r then
      match next l with
      | none => none
      | some (r1, l1) => skipSpaceLoop clock r1 l1
    else some (r, l)

/-- Method `skipSpace`. -/
def skipSpace (l : Lexer) : Option Lexer :=
  match next l with
  | none => none
  | some (r, l1) =>
    match skipSpaceLoop (l.input.length + 1) r l1 with
    | none => none
    | some (_, l2) => some (ignore (backup l2))

/-- Method `accept`: consume the next rune if it is in the valid set. -/
def accept (valid : List Nat) (l : Lexer) : Option (Bool × Lexer) :=
  match next l with
  | none => none
  | some (r, l1) => if containsRune valid r then some (true, l1) else some (false, backup l1)

/-- The loop of `acceptRun`: the runes accepted so far and the state after the
first `next` that returned a rune outside the valid set (before `backup`). -/
def acceptRunLoop (valid : List Nat) : Nat → Nat → Lexer → Option (Nat × Lexer)
  | 0, runLength, l => some (runLength, l)
  | clock + 1, runLength, l =>
    match next l with
    | none => none
    | some (r, l1) =>
      if containsRune valid r then acceptRunLoop valid clock (runLength + 1) l1
      else some (runLength, l1)

/-- Method `acceptRun`: consume a run of runes of the valid set and return its
length.  The clock exceeds the number of remaining bytes. -/
def acceptRun (valid : List Nat) (l : Lexer) : Option (Nat × Lexer) :=
  match acceptRunLoop valid (l.input.length + 1) 0 l with
  | none => none
  | some (n, l1) => some (n, backup l1)

/-- The regular expression `^[a-zA-Z]` on one byte. -/
def isLetter (b : Nat) : Bool :=
  (decide (0x61 ≤ b) && decide (b ≤ 0x7A)) || (decide (0x41 ≤ b) && decide (b ≤ 0x5A))

/-- A byte matched by `[a-zA-Z0-9]`. -/
def isAlnum (b : Nat) : Bool := isLetter b || (decide (0x30 ≤ b) && decide (b ≤ 0x39))

/-- Function `isNonAlphaOperator`: the regular expression `^[^a-zA-Z0-9]*$`. -/
def isNonAlphaOperator (s : List Nat) : Bool := s.all (fun b => !isAlnum b)

/-- The map `keywordMap` built by `init`: the kinds of the keys of TokenMap that
match `^[a-zA-Z]+`. -/
def keywordMap : List Token :=
  (TokenMap.filter (fun e => match e.1 with
    | [] => false
    | b :: _ => isLetter b)).map Prod.snd

/-- Function `IsKeyword`. -/
def IsKeyword (i : Token) (tokenString : List Nat) : Bool :=
  keywordMap.contains i && !isNonAlphaOperator tokenString

/-- The state functions, and the control points inside the unbounded `for`
loops of the literal and comment states (one step per loop iteration).
`halted` is the `nil` state; `panicked` is a run-time panic of the goroutine. -/
inductive State
  | lexText | lexNumberLiteral | lexBlockComment | lexLineComment
  | lexSingleQuotedStringLiteral | lexDoubleQuotedStringLiteral
  | lexDoubleBracketStringLiteral
  | blockCommentLoop (equalsRun : Nat)
  | singleQuotedLoop
  | doubleQuotedLoop
  | doubleBracketLoop (equalsRun : Nat)
  | halted
  | panicked
  deriving DecidableEq, Repr

/-- Method `errorf` with a constant message: send an Error Item, return `nil`. -/
def errorf (l : Lexer) (msg : String) : Lexer × State :=
  ({ l with items := l.items ++ [⟨.Error, l.start, ascii msg⟩] }, .halted)

/-- The result of the `for ... range token.TokenList` loop of `lexText`. -/
inductive Matched
  | emitted (l : Lexer)
  | fallThrough (l : Lexer)
  deriving DecidableEq, Repr

/-- The `for ... range token.TokenList` loop of `lexText` over the remaining
candidates. -/
def matchTokens : List (List Nat) → Lexer → Option Matched
  | [], l => some (.fallThrough l)
  | tokenString :: more, l =>
    let t := tokenMapGet tokenString
    match sliceFrom l.input l.pos with
    | none => none
    | some rest =>
      let potentialToken :=
        if rest.length > tokenString.length then rest.take tokenString.length else rest
      if lowerHasPrefix potentialToken tokenString then
        let l1 := { l with pos := l.pos + tokenString.length }
        if IsKeyword t tokenString then
          match accept (alphabet ++ underscore ++ digits) l1 with
          | none => none
          | some (true, l2) =>
            let l3 := backup l2
            some (.fallThrough { l3 with pos := l3.pos - tokenString.length })
          | some (false, l2) => (emit l2 t).map Matched.emitted
        else (emit l1 t).map Matched.emitted
      else matchTokens more l

/-- The dispatch of `lexText` after the number, comment and end-of-input tests. -/
def lexTextTail (l : Lexer) : Option (Lexer × State) :=
  match peek l with
  | none => none
  | some (r1, l1) =>
    if r1 = 0x27 then some (l1, .lexSingleQuotedStringLiteral) else
    match peek l1 with
    | none => none
    | some (r2, l2) =>
      if r2 = 0x22 then some (l2, .lexDoubleQuotedStringLiteral) else
      match peek l2 with
      | none => none
      | some (r3, l3) =>
        if r3 = 0x5B then some (l3, .lexDoubleBracketStringLiteral) else
        match matchTokens TokenList l3 with
        | none => none
        | some (.emitted l4) => some (l4, .lexText)
        | some (.fallThrough l4) =>
          match acceptRun (alphabet ++ underscore ++ digits) l4 with
          | none => none
          | some (_, l5) => (emit l5 .Identifier).map (fun l6 => (l6, State.lexText))

/-- The comment and end-of-input tests of `lexText`. -/
def lexTextComments (l : Lexer) : Option (Lexer × State) :=
  match sliceFrom l.input l.pos with
  | none => none
  | some rest =>
    if (ascii "--[").isPrefixOf rest then some (l, .lexBlockComment)
    else if (ascii "--").isPrefixOf rest then some (l, .lexLineComment)
    else match peek l with
      | none => none
      | some (r, l1) =>
        if r = eof then (emit l1 .EOF).map (fun l2 => (l2, State.halted))
        else lexTextTail l1

/-- State function `lexText`. -/
def lexText (l : Lexer) : Option (Lexer × State) :=
  match skipSpace l with
  | none => none
  | some l1 =>
    match peek l1 with
    | none => none
    | some (r, l2) =>
      if unicodeIsDigit r then some (l2, .lexNumberLiteral)
      else if r = 0x2E then
        match next l2 with
        | none => none
        | some (_, l3) =>
          match peek l3 with
          | none => none
          | some (r2, l4) =>
            let l5 := backup l4
            if unicodeIsDigit r2 then some (l5, .lexNumberLiteral)
            else lexTextComments l5
      else lexTextComments l2

/-- State function `lexNumberLiteral`. -/
def lexNumberLiteral (l : Lexer) : Option (Lexer × State) :=
  match accept (ascii "0") l with
  | none => none
  | some (z, l1) =>
    match (if z then accept (ascii "xX") l1 else some (false, l1)) with
    | none => none
    | some (true, l2) =>
      match acceptRun (digits ++ ascii "abcdefABCDEF") l2 with
      | none => none
      | some (_, l3) => (emit l3 .NumberLiteral).map (fun l4 => (l4, State.lexText))
    | some (false, l2) =>
      match acceptRun digits l2 with
      | none => none
      | some (_, l3) =>
        match accept (ascii ".") l3 with
        | none => none
        | some (dot, l4) =>
          match (if dot then (acceptRun digits l4).map Prod.snd else some l4) with
          | none => none
          | some l5 =>
            match accept (ascii "eE") l5 with
            | none => none
            | some (e, l6) =>
              match (if e then (acceptRun digits l6).map Prod.snd else some l6) with
              | none => none
              | some l7 => (emit l7 .NumberLiteral).map (fun l8 => (l8, State.lexText))

/-- State function `lexBlockComment`, up to the entry of its `for` loop. -/
def lexBlockComment (l : Lexer) : Option (Lexer × State) :=
  match acceptRun (ascii "-") l with
  | none => none
  | some (_, l1) =>
    match next l1 with
    | none => none
    | some (_, l2) =>
      match acceptRun (ascii "=") l2 with
      | none => none
      | some (equalsRun, l3) =>
        match accept (ascii "[") l3 with
        | none => none
        | some (false, l4) => some (errorf l4 "didn't find another opening bracket")
        | some (true, l4) => some (l4, .blockCommentLoop equalsRun)

/-- One iteration of the `for` loop shared by `lexBlockComment` and
`lexDoubleBracketStringLiteral`: `close` is what the state does after the
closing bracket (`l.ignore()`, or `l.emit(token.StringLiteral)`), `again` is
the loop's own control point. -/
def bracketIteration (equalsRun : Nat) (again : State) (close : Lexer → Option Lexer)
    (l : Lexer) : Option (Lexer × State) :=
  match next l with
  | none => none
  | some (r, l1) =>
    if r = 0x5C then (next l1).map (fun p => (p.2, again))
    else if r = 0x5D then
      match acceptRun (ascii "=") l1 with
      | none => none
      | some (n, l2) =>
        if n ≠ equalsRun then some (l2, again)
        else match accept (ascii "]") l2 with
          | none => none
          | some (false, l3) => some (errorf l3 "didn't find closing bracket")
          | some (true, l3) => (close l3).map (fun l4 => (l4, State.lexText))
    else some (l1, again)

/-- State function `lexLineComment`. -/
def lexLineComment (l : Lexer) : Option (Lexer × State) :=
  match sliceFrom l.input l.pos with
  | none => none
  | some rest =>
    let lineLength := indexNewline rest
    let lineLength := if lineLength = 0 then (rest.length : Int) else lineLength
    some (ignore { l with pos := l.pos + lineLength }, .lexText)

/-- One iteration of the `for` loop of a quoted-string state with quote rune
`q`; `again` is the loop's own control point. -/
def quotedIteration (q : Int) (again : State) (l : Lexer) : Option (Lexer × State) :=
  match next l with
  | none => none
  | some (r, l1) =>
    if r = 0x5C then (next l1).map (fun p => (p.2, again))
    else if r = q then (emit l1 .StringLiteral).map (fun l2 => (l2, State.lexText))
    else some (l1, again)

/-- State function `lexSingleQuotedStringLiteral`, up to the entry of its loop. -/
def lexSingleQuotedStringLiteral (l : Lexer) : Option (Lexer × State) :=
  (next l).map (fun p => (p.2, State.singleQuotedLoop))

/-- State function `lexDoubleQuotedStringLiteral`, up to the entry of its loop. -/
def lexDoubleQuotedStringLiteral (l : Lexer) : Option (Lexer × State) :=
  (next l).map (fun p => (p.2, State.doubleQuotedLoop))

/-- State function `lexDoubleBracketStringLiteral`, up to the entry of its loop. -/
def lexDoubleBracketStringLiteral (l : Lexer) : Option (Lexer × State) :=
  match next l with
  | none => none
  | some (_, l1) =>
    match acceptRun (ascii "=") l1 with
    | none => none
    | some (equalsRun, l2) =>
      match accept (ascii "[") l2 with
      | none => none
      | some (false, l3) => some (errorf l3 "didn't find another opening bracket")
      | some (true, l3) =>
        (accept (ascii "\n") l3).map (fun p => (p.2, State.doubleBracketLoop equalsRun))

/-- The code run from one control point to the next. -/
def stateFn : State → Lexer → Option (Lexer × State)
  | .lexText, l => lexText l
  | .lexNumberLiteral, l => lexNumberLiteral l
  | .lexBlockComment, l => lexBlockComment l
  | .lexLineComment, l => lexLineComment l
  | .lexSingleQuotedStringLiteral, l => lexSingleQuotedStringLiteral l
  | .lexDoubleQuotedStringLiteral, l => lexDoubleQuotedStringLiteral l
  | .lexDoubleBracketStringLiteral, l => lexDoubleBracketStringLiteral l
  | .blockCommentLoop n, l =>
      bracketIteration n (.blockCommentLoop n) (fun l1 => some (ignore l1)) l
  | .singleQuotedLoop, l => quotedIteration 0x27 .singleQuotedLoop l
  | .doubleQuotedLoop, l => quotedIteration 0x22 .doubleQuotedLoop l
  | .doubleBracketLoop n, l =>
      bracketIteration n (.doubleBracketLoop n) (fun l1 => emit l1 .StringLiteral) l
  | .halted, l => some (l, .halted)
  | .panicked, l => some (l, .panicked)

/-- A configuration of the state machine of `run`. -/
structure Config where
  l : Lexer
  state : State
  deriving DecidableEq, Repr

/-- One step of the state machine: `l.state = l.state(l)`, or one iteration of an
inner `for` loop.  A halted or panicked machine stays as it is. -/
def step (c : Config) : Config :=
  match stateFn c.state c.l with
  | none => ⟨c.l, .panicked⟩
  | some (l1, s1) => ⟨l1, s1⟩

/-- The configuration `NewLexer(name, input)` starts `run` in. -/
def NewLexer (input : List Nat) : Config := ⟨⟨input, 0, 0, 0, []⟩, .lexText⟩

/-- The configuration after `n` steps. -/
def run : Nat → Config → Config
  | 0, c => c
  | n + 1, c => run n (step c)

/-- The scanner halts on `input` having sent exactly `items`. -/
def Yields (input : List Nat) (items : List Item) : Prop :=
  ∃ n, (run n (NewLexer input)).state = .halted ∧ (run n (NewLexer input)).l.items = items

/-! ## Proof devices -/

/-- The scanner state whose input is `pre ++ rest` with the cursor between the
two parts. -/
def L (pre rest : List Nat) (start width : Int) (items : List Item) : Lexer :=
  ⟨pre ++ rest, (pre.length : Int), start, width, items⟩

/-- What `next` returns on the remaining input `rest`: the rune and its width. -/
def runeAt (rest : List Nat) : Int × Nat :=
  match rest with
  | [] => (eof, 0)
  | _ :: _ => decodeRune rest

/-- The first candidate of `ts` that `lexText` finds to match the remaining input
`rest` (the `potentialToken` of a candidate is `rest` cut to its length). -/
def firstMatch (ts : List (List Nat)) (rest : List Nat) : Option (List Nat) :=
  ts.find? (fun t => lowerHasPrefix (rest.take t.length) t)

/-- An ASCII letter, digit or underscore: a byte of a word. -/
def isWordByte (b : Nat) : Bool := isAlnum b || b == 0x5F

/-- The kind claimed for a word `w`: the kind of the purely alphabetic key of
TokenMap equal to the lower-cased `w` if there is one, Identifier otherwise. -/
def wordKind (w : List Nat) : Token :=
  match TokenMap.find? (fun e => e.1 == w.map lowerByte && e.1.all isLetter) with
  | some e => e.2
  | none => .Identifier

/-- The opening long bracket of level `n`: `[`, `n` times `=`, `[`. -/
def opening (n : Nat) : List Nat := 0x5B :: (List.replicate n 0x3D ++ [0x5B])

/-- The closing long bracket of level `n`: `]`, `n` times `=`, `]`. -/
def closing (n : Nat) : List Nat := 0x5D :: (List.replicate n 0x3D ++ [0x5D])

/-- The length of the run of `=` at the head of a string. -/
def equalsRunLength : List Nat → Nat
  | [] => 0
  | b :: rest => if b = 0x3D then equalsRunLength rest + 1 else 0

/-- A long-bracket body of level `n` without a backslash in which no `]` is
followed by a run of exactly `n` characters `=`. -/
def plainBody (n : Nat) : List Nat → Bool
  | [] => true
  | b :: rest =>
    b != 0x5C && (b != 0x5D || equalsRunLength rest != n) && plainBody n rest

/-- A quoted-string body for the quote byte `q`: a concatenation of units, each
unit one byte other than `q` and backslash, or a backslash followed by any one
byte. -/
def unitsBody (q : Nat) : List Nat → Bool
  | [] => true
  | [b] => b != q && b != 0x5C
  | b :: c :: rest =>
    if b = 0x5C then unitsBody q rest else b != q && unitsBody q (c :: rest)

/-- A text without an unescaped occurrence of the quote byte `q`: read from the
left, a backslash escapes the byte after it, and no other byte is `q`. -/
def noUnescapedQuote (q : Nat) : List Nat → Bool
  | [] => true
  | [b] => b != q
  | b :: c :: rest =>
    if b = 0x5C then noUnescapedQuote q rest else b != q && noUnescapedQuote q (c :: rest)

/-- An Item that ends the stream: EOF or Error. -/
def terminal (i : Item) : Bool := i.Typ == .EOF || i.Typ == .Error

/-- Two scanner states with the same input and the same Items sent. -/
def Same (l l1 : Lexer) : Prop := l1.input = l.input ∧ l1.items = l.items

/-- What one step may do to the Items: it keeps the input and either halts after
sending exactly one terminal Item, or goes on (neither halted nor panicked) after
sending Items none of which is terminal. -/
def Outcome (l l1 : Lexer) (st1 : State) : Prop :=
  l1.input = l.input ∧
    ((st1 = .halted ∧ ∃ i : Item, terminal i = true ∧ l1.items = l.items ++ [i]) ∨
      (st1 ≠ .halted ∧ st1 ≠ .panicked ∧
        ∃ new : List Item, l1.items = l.items ++ new ∧ ∀ i ∈ new, terminal i = false))

/-- An ASCII decimal digit, `[0-9]`. -/
def isDigitByte (b : Nat) : Bool := decide (0x30 ≤ b) && decide (b ≤ 0x39)

/-- An ASCII hexadecimal digit, `[0-9a-fA-F]`. -/
def isHexByte (b : Nat) : Bool :=
  isDigitByte b || (decide (0x61 ≤ b) && decide (b ≤ 0x66)) ||
    (decide (0x41 ≤ b) && decide (b ≤ 0x46))

/-- The optional fraction of a decimal literal: nothing, or `.` and digits. -/
def isFraction : List Nat → Bool
  | [] => true
  | b :: ds => b == 0x2E && ds.all isDigitByte

/-- The optional exponent of a decimal literal: nothing, or `e`/`E` and digits. -/
def isExponent : List Nat → Bool
  | [] => true
  | b :: ds => (b == 0x65 || b == 0x45) && ds.all isDigitByte

/-- The part of `lexNumberLiteral` after the comment `is decimal?`. -/
def lexNumberDecimal (l2 : Lexer) : Option (Lexer × State) :=
  match acceptRun digits l2 with
  | none => none
  | some (_, l3) =>
    match accept (ascii ".") l3 with
    | none => none
    | some (dot, l4) =>
      match (if dot then (acceptRun digits l4).map Prod.snd else some l4) with
      | none => none
      | some l5 =>
        match accept (ascii "eE") l5 with
        | none => none
        | some (e, l6) =>
          match (if e then (acceptRun digits l6).map Prod.snd else some l6) with
          | none => none
          | some l7 => (emit l7 .NumberLiteral).map (fun l8 => (l8, State.lexText))

/-- A remaining input at which `lexText` applies none of its rules and finds no
word character: the rune at the cursor lies in the Latin-1 range (at most
`0xFF`, where `unicode.IsDigit` and `unicode.IsSpace` do not consult their
tables), is not white space, not a digit, not `.`, not the end of input, not a
quote or `[`, the input does not start with `--` or with any candidate of
TokenList, and the rune is not an ASCII letter, digit or underscore. -/
def unrecognised (rest : List Nat) : Bool :=
  decide ((runeAt rest).1 ≤ 0xFF) &&
    !isSpace (runeAt rest).1 && !unicodeIsDigit (runeAt rest).1 &&
    (runeAt rest).1 != 0x2E && (runeAt rest).1 != eof && (runeAt rest).1 != 0x27 &&
    (runeAt rest).1 != 0x22 && (runeAt rest).1 != 0x5B && !(ascii "--").isPrefixOf rest &&
    (firstMatch TokenList rest).isNone &&
    !containsRune (alphabet ++ underscore ++ digits) (runeAt rest).1

/-! ## The registry of `token/types.go` and `token/tokens.go` -/

/-- The integer value of a kind (`iota`): its position in the declaration. -/
def Token.int (t : Token) : Nat := t.toCtorIdx

/-- Constant `InvalidType`, declared `Type = 1 << iota` with `iota = 0`. -/
def InvalidType : Nat := 1 <<< 0

/-- Constant `KeywordType`: the expression `1 << iota` repeated, `iota = 1`. -/
def KeywordType : Nat := 1 <<< 1

/-- Constant `LiteralType`: `1 << iota`, `iota = 2`. -/
def LiteralType : Nat := 1 <<< 2

/-- Constant `MarkerType`: `1 << iota`, `iota = 3`. -/
def MarkerType : Nat := 1 <<< 3

/-- Constant `OperatorType`: `1 << iota`, `iota = 4`. -/
def OperatorType : Nat := 1 <<< 4

/-- Constant `IdentifierType`: `1 << iota`, `iota = 5`. -/
def IdentifierType : Nat := 1 <<< 5

/-- Constant `Significant`, declared with an expression of its own. -/
def Significant : Nat := KeywordType ||| LiteralType ||| MarkerType ||| IdentifierType

/-- Constant `CommentType`.  It is declared without an expression, and in a Go
constant block an omitted expression list stands for the textual repetition of
the first preceding non-empty one: here that of `Significant`, which does not
mention `iota`. -/
def CommentType : Nat := KeywordType ||| LiteralType ||| MarkerType ||| IdentifierType

/-- Constant `WhitespaceType`: again the expression of `Significant` repeated. -/
def WhitespaceType : Nat := KeywordType ||| LiteralType ||| MarkerType ||| IdentifierType

/-- The map `tokenTypes`, as an association list in source order (the entry of
ComparisonOperator is commented out in the source). -/
def tokenTypes : List (Token × Nat) :=
  [ (.EOF, InvalidType), (.Error, InvalidType), (.Space, WhitespaceType),
    (.FunctionName, IdentifierType), (.TableBegin, MarkerType), (.TableEnd, MarkerType),
    (.Comma, MarkerType), (.StatementEnd, MarkerType),
    (.If, KeywordType), (.Else, KeywordType), (.ElseIf, KeywordType), (.For, KeywordType),
    (.Function, KeywordType), (.End, KeywordType), (.While, KeywordType),
    (.Break, KeywordType), (.Do, KeywordType), (.Goto, KeywordType), (.In, KeywordType),
    (.Local, KeywordType), (.Until, KeywordType), (.Then, KeywordType),
    (.Repeat, KeywordType), (.Return, KeywordType),
    (.OpenParen, MarkerType), (.CloseParen, MarkerType),
    (.Comment, CommentType),
    (.Nil, IdentifierType), (.StringLiteral, LiteralType), (.NumberLiteral, LiteralType),
    (.BooleanLiteral, LiteralType),
    (.Identifier, IdentifierType),
    (.AssignmentOperator, OperatorType), (.AdditionOperator, OperatorType),
    (.SubtractionOperator, OperatorType), (.DivisionOperator, OperatorType),
    (.MultOperator, OperatorType), (.ConcatenationOperator, OperatorType),
    (.VarargsOperator, OperatorType), (.LengthOperator, OperatorType),
    (.ObjectOperator, OperatorType), (.MethodOperator, OperatorType),
    (.EqualityOperator, OperatorType), (.NotEqualityOperator, OperatorType),
    (.NotOperator, OperatorType), (.AndOperator, OperatorType), (.OrOperator, OperatorType),
    (.TableLookupOperatorLeft, MarkerType), (.TableLookupOperatorRight, MarkerType),
    (.BitwiseShiftOperator, OperatorType), (.BitwiseAndOperator, OperatorType),
    (.BitwiseXorOperator, OperatorType), (.BitwiseOrOperator, OperatorType),
    (.BitwiseNotOperator, OperatorType),
    (.Require, KeywordType) ]

/-- Method `Token.Type`: the entry of `tokenTypes`; `none` is the panic
"token without type". -/
def Token.TypeOf (i : Token) : Option Nat :=
  (tokenTypes.find? (fun e => e.1 == i)).map Prod.snd

/-- Method `Token.IsType`: `i.Type()&t != 0`. -/
def Token.IsType (i : Token) (t : Nat) : Option Bool :=
  i.TypeOf.map (fun ty => ty &&& t != 0)

/-- The eight category constants named by the specification. -/
def categories : List Nat :=
  [InvalidType, KeywordType, LiteralType, MarkerType, OperatorType, IdentifierType,
    CommentType, WhitespaceType]

/-- The keyed slice literal `tokens`, as an association list in source order
(the entry of ComparisonOperator is commented out, and Error has none). -/
def tokens : List (Token × List Nat) :=
  [ (.EOF, ascii "EOF"), (.Space, ascii "space"),
    (.FunctionName, ascii "function name"), (.TableBegin, ascii "table begin"),
    (.TableEnd, ascii "table end"),
    (.Comma, ascii "comma"), (.StatementEnd, ascii ";"),
    (.If, ascii "if"), (.Else, ascii "else"), (.ElseIf, ascii "elseif"), (.For, ascii "for"),
    (.Function, ascii "function"), (.End, ascii "end"), (.While, ascii "while"),
    (.Break, ascii "break"), (.Do, ascii "do"), (.Goto, ascii "goto"), (.In, ascii "in"),
    (.Local, ascii "local"), (.Until, ascii "until"), (.Then, ascii "then"),
    (.Repeat, ascii "repeat"), (.Return, ascii "return"),
    (.OpenParen, ascii "open-paren"), (.CloseParen, ascii "close-paren"),
    (.Comment, ascii "comment"),
    (.Nil, ascii "nil"), (.StringLiteral, ascii "string-literal"),
    (.NumberLiteral, ascii "number-literal"), (.BooleanLiteral, ascii "bool-literal"),
    (.Identifier, ascii "identifier"),
    (.AssignmentOperator, ascii "="), (.AdditionOperator, ascii "+"),
    (.SubtractionOperator, ascii "-"), (.DivisionOperator, ascii "/|//"),
    (.MultOperator, ascii "*%"), (.ConcatenationOperator, ascii ".."),
    (.VarargsOperator, ascii "..."), (.LengthOperator, ascii "#"),
    (.ObjectOperator, ascii "."), (.MethodOperator, ascii ":"),
    (.EqualityOperator, ascii "=="), (.NotEqualityOperator, ascii "~="),
    (.NotOperator, ascii "not"), (.AndOperator, ascii "and"), (.OrOperator, ascii "or"),
    (.TableLookupOperatorLeft, ascii "["), (.TableLookupOperatorRight, ascii "]"),
    (.BitwiseShiftOperator, ascii "<<>>"), (.BitwiseAndOperator, ascii "&"),
    (.BitwiseXorOperator, ascii "^"), (.BitwiseOrOperator, ascii "|"),
    (.BitwiseNotOperator, ascii "~"),
    (.Require, ascii "require") ]

/-- The index expression `tokens[i]` for a declared kind `i`: the slice literal
has the length of its largest key (Require) plus one and holds the empty string
at every index without a key. -/
def tokensAt (i : Token) : List Nat :=
  match tokens.find? (fun e => e.1 == i) with
  | some e => e.2
  | none => []

/-- Go's `strconv.Itoa` on a natural number. -/
def itoa (n : Nat) : List Nat := (Nat.toDigits 10 n).map Char.toNat

/-- Method `Token.String`. -/
def Token.String (i : Token) : List Nat :=
  if (tokensAt i).length = 0 then itoa i.int else tokensAt i

/-- The table `lowerhex` of `strconv`: the hexadecimal digit of a value below 16. -/
def lowerhex (n : Nat) : Nat := if n < 10 then 0x30 + n else 0x61 + (n - 10)

/-- What `strconv.Quote` (the verb `%q`) writes for one ASCII byte (a byte below
`0x80`): `"` and the backslash are escaped with a backslash, the other printable
bytes stand for themselves, the control characters `\a \b \f \n \r \t \v` have
their letter escapes, and the remaining ones (the other bytes below `0x20`, and
`0x7F`) are written `\x` and two hexadecimal digits. -/
def quoteByte (b : Nat) : List Nat :=
  if b = 0x22 ∨ b = 0x5C then [0x5C, b]
  else if 0x20 ≤ b ∧ b < 0x7F then [b]
  else if b = 0x07 then [0x5C, 0x61]
  else if b = 0x08 then [0x5C, 0x62]
  else if b = 0x0C then [0x5C, 0x66]
  else if b = 0x0A then [0x5C, 0x6E]
  else if b = 0x0D then [0x5C, 0x72]
  else if b = 0x09 then [0x5C, 0x74]
  else if b = 0x0B then [0x5C, 0x76]
  else [0x5C, 0x78, lowerhex (b / 16), lowerhex (b % 16)]

/-- Go's `strconv.Quote` on an ASCII text.  A text holding a byte of `0x80` or
beyond is outside this model, which has no value for it (`none`): there Go
decodes UTF-8 and consults the library's table of printable runes. -/
def quoteASCII (s : List Nat) : Option (List Nat) :=
  if s.all (fun b => decide (b < 0x80)) then some ([0x22] ++ s.flatMap quoteByte ++ [0x22])
  else none

/-- Method `Item.String`: `fmt.Sprintf("%v:%q", i.Typ, i.Val)` after the two
cases of the `switch`.  The argument `quote` stands for the verb `%q` of Go's
package fmt, a function of the library. -/
def Item.String (quote : List Nat → List Nat) (i : Item) : List Nat :=
  if i.Typ = .EOF then ascii "EOF"
  else if i.Typ = .Error then i.Val
  else i.Typ.String ++ ascii ":" ++ quote i.Val

/-! ## The stream of `token/stream.go` -/

/-- Type `ItemList`. -/
structure ItemList where
  Items : List Item
  Pos : Int
  deriving DecidableEq, Repr

/-- Function `NewList`. -/
def NewList (t : List Item) : ItemList := ⟨t, 0⟩

/-- The zero value `Item{}`. -/
def Item.zero : Item := ⟨.EOF, 0, []⟩

/-- Method `ItemList.Next`; `none` is the panic of an index out of range. -/
def ItemList.Next (s : ItemList) : Option (Item × ItemList) :=
  if s.Pos + 1 = s.Items.length then some (Item.zero, s)
  else
    let s1 : ItemList := { s with Pos := s.Pos + 1 }
    if 0 ≤ s1.Pos then (s1.Items.get? s1.Pos.toNat).map (fun i => (i, s1)) else none

/-- The Items returned by `k` successive calls of `Next`, and the list after
them. -/
def nextCalls : Nat → ItemList → Option (List Item × ItemList)
  | 0, s => some ([], s)
  | k + 1, s =>
    match s.Next with
    | none => none
    | some (i, s1) => (nextCalls k s1).map (fun r => (i :: r.1, r.2))

/-! ## The candidate loop as the specification words it -/

/-- Modelled from the spec: the candidate loop of Dispatch in which a keyword-like
candidate followed by an ASCII letter, digit or underscore is undone and the loop
continues with the next candidate ("undo the consumption and continue to the
next candidate"), where `matchTokens`, the loop of the code, stops with `break`.
Everything else is as in `matchTokens`. -/
def matchTokensSpec : List (List Nat) → Lexer → Option Matched
  | [], l => some (.fallThrough l)
  | tokenString :: more, l =>
    let t := tokenMapGet tokenString
    match sliceFrom l.input l.pos with
    | none => none
    | some rest =>
      let potentialToken :=
        if rest.length > tokenString.length then rest.take tokenString.length else rest
      if lowerHasPrefix potentialToken tokenString then
        let l1 := { l with pos := l.pos + tokenString.length }
        if IsKeyword t tokenString then
          match accept (alphabet ++ underscore ++ digits) l1 with
          | none => none
          | some (true, l2) =>
            let l3 := backup l2
            matchTokensSpec more { l3 with pos := l3.pos - tokenString.length }
          | some (false, l2) => (emit l2 t).map Matched.emitted
        else (emit l1 t).map Matched.emitted
      else matchTokensSpec more l

/-- The byte of `t` at index `n` is an ASCII letter, digit or underscore. -/
def wordAt (t : List Nat) (n : Nat) : Bool :=
  match t.get? n with
  | some c => isWordByte c
  | none => false

/-- A property of a candidate list: after a keyword-like candidate `t`, no later
candidate extends `t`, and every later candidate that is a prefix of `t` is
keyword-like too and is followed in `t` by a letter, digit or underscore. -/
def laterPrefixesBlocked : List (List Nat) → Bool
  | [] => true
  | t :: more =>
    (!IsKeyword (tokenMapGet t) t ||
      more.all (fun u => !t.isPrefixOf u &&
        (!u.isPrefixOf t || (IsKeyword (tokenMapGet u) u && wordAt t u.length)))) &&
    laterPrefixesBlocked more

/-- What one step may send: the Items of `l1` are those of `l` followed by
Items none of which has the kind TableLookupOperatorLeft. -/
def Sends (l l1 : Lexer) : Prop :=
  ∃ new : List Item, l1.items = l.items ++ new ∧
    ∀ i ∈ new, i.Typ ≠ .TableLookupOperatorLeft

/-! ## The UTF-8 decoder -/

theorem decodeMulti_width (s0 sz lo hi : Nat) (rest : List Nat) :
    1 ≤ (decodeMulti s0 sz lo hi rest).2 ∧ (decodeMulti s0 sz lo hi rest).2 ≤ rest.length + 1 := by
  unfold decodeMulti
  rcases rest with _ | ⟨s1, _ | ⟨s2, _ | ⟨s3, r3⟩⟩⟩ <;> simp <;> split_ifs <;> simp

theorem decodeMulti_cont (s0 sz lo hi : Nat) (rest : List Nat) (hlo : 0x80 ≤ lo) :
    ∀ c ∈ rest.take ((decodeMulti s0 sz lo hi rest).2 - 1), 0x80 ≤ c := by
  unfold decodeMulti inRange
  rcases rest with _ | ⟨s1, _ | ⟨s2, _ | ⟨s3, r3⟩⟩⟩ <;> simp <;> split_ifs <;> simp <;> omega

theorem decodeRune_width_le (s : List Nat) : (decodeRune s).2 ≤ s.length := by
  cases s with
  | nil => simp [decodeRune]
  | cons b rest =>
    simp only [decodeRune, List.length_cons]
    split_ifs <;> first | simp | exact (decodeMulti_width _ _ _ _ _).2

theorem decodeRune_width_pos (b : Nat) (rest : List Nat) : 1 ≤ (decodeRune (b :: rest)).2 := by
  simp only [decodeRune]
  split_ifs <;> first | simp | exact (decodeMulti_width _ _ _ _ _).1

theorem decodeRune_cont (b : Nat) (rest : List Nat) :
    ∀ c ∈ rest.take ((decodeRune (b :: rest)).2 - 1), 0x80 ≤ c := by
  simp only [decodeRune]
  split_ifs <;> first | simp | (apply decodeMulti_cont; omega)

theorem decodeRune_ascii (b : Nat) (rest : List Nat) (h : b < 0x80) :
    decodeRune (b :: rest) = ((b : Int), 1) := by
  simp [decodeRune, h]

theorem decodeMulti_rune (s0 sz lo hi : Nat) (rest : List Nat)
    (h : sz = 2 ∧ 2 ≤ s0 % 32 ∨ sz = 3 ∧ (1 ≤ s0 % 16 ∨ 0xA0 ≤ lo ∧ hi ≤ 0xBF) ∨ sz = 4 ∧ (1 ≤ s0 % 8 ∨ 0x90 ≤ lo ∧ hi ≤ 0xBF)) :
    0x80 ≤ (decodeMulti s0 sz lo hi rest).1 := by
  unfold decodeMulti inRange RuneError
  rcases rest with _ | ⟨s1, _ | ⟨s2, _ | ⟨s3, r3⟩⟩⟩ <;> simp <;> split_ifs <;> simp <;> omega

theorem decodeRune_high (b : Nat) (rest : List Nat) (h : 0x80 ≤ b) :
    0x80 ≤ (decodeRune (b :: rest)).1 := by
  simp only [decodeRune]
  split_ifs <;> first | omega | simp [RuneError] | (apply decodeMulti_rune; omega)

/-! ## The primitives of the scanner on a located state -/

theorem runeAt_width_le (rest : List Nat) : (runeAt rest).2 ≤ rest.length := by
  cases rest with
  | nil => simp [runeAt]
  | cons b r => exact decodeRune_width_le _

theorem runeAt_ascii (b : Nat) (rest : List Nat) (h : b < 0x80) :
    runeAt (b :: rest) = ((b : Int), 1) := by
  simp [runeAt, decodeRune_ascii b rest h]

theorem runeAt_nil : runeAt [] = (eof, 0) := rfl

theorem sliceFrom_append (pre rest : List Nat) :
    sliceFrom (pre ++ rest) (pre.length : Int) = some rest := by
  simp [sliceFrom]

theorem next_L (pre rest : List Nat) (s w : Int) (it : List Item) :
    next (L pre rest s w it) =
      some ((runeAt rest).1,
        L (pre ++ rest.take (runeAt rest).2) (rest.drop (runeAt rest).2) s (runeAt rest).2 it) := by
  cases rest with
  | nil => simp [next, L, runeAt]
  | cons b r =>
    have hk := decodeRune_width_le (b :: r)
    simp only [next, L, List.length_append, List.length_cons, runeAt]
    rw [if_neg (by push_cast; omega)]
    have := sliceFrom_append pre (b :: r)
    simp only [List.length_cons] at hk
    simp [this, List.length_take, Nat.min_eq_left hk]

theorem backup_L (pre x rest : List Nat) (s : Int) (it : List Item) :
    backup (L (pre ++ x) rest s (x.length : Int) it) = L pre (x ++ rest) s (x.length : Int) it := by
  simp [backup, L]

theorem peek_L (pre rest : List Nat) (s w : Int) (it : List Item) :
    peek (L pre rest s w it) = some ((runeAt rest).1, L pre rest s (runeAt rest).2 it) := by
  have hk := runeAt_width_le rest
  simp only [peek, next_L]
  have := backup_L pre (rest.take (runeAt rest).2) (rest.drop (runeAt rest).2) s it
  simp only [List.length_take, Nat.min_eq_left hk, List.take_append_drop] at this
  simp [this]

theorem accept_L (valid pre rest : List Nat) (s w : Int) (it : List Item) :
    accept valid (L pre rest s w it) =
      some (if containsRune valid (runeAt rest).1 then
          (true, L (pre ++ rest.take (runeAt rest).2) (rest.drop (runeAt rest).2) s
            (runeAt rest).2 it)
        else (false, L pre rest s (runeAt rest).2 it)) := by
  have hk := runeAt_width_le rest
  simp only [accept, next_L]
  have := backup_L pre (rest.take (runeAt rest).2) (rest.drop (runeAt rest).2) s it
  simp only [List.length_take, Nat.min_eq_left hk, List.take_append_drop] at this
  split_ifs <;> simp [this]

theorem emit_L (p v rest : List Nat) (w : Int) (it : List Item) (t : Token) :
    emit (L (p ++ v) rest (p.length : Int) w it) t =
      some (L (p ++ v) rest ((p ++ v).length : Int) w (it ++ [⟨t, (p.length : Int), v⟩])) := by
  have h1 : ((p.length : Int) + (v.length : Int)).toNat = p.length + v.length := by omega
  have h2 : List.take (p.length + v.length) (p ++ (v ++ rest)) = p ++ v := by
    rw [← List.append_assoc, ← List.length_append, List.take_left]
  simp [emit, L, slice, h1, h2]

theorem ignore_L (pre rest : List Nat) (s w : Int) (it : List Item) :
    ignore (L pre rest s w it) = L pre rest (pre.length : Int) w it := by
  simp [ignore, L]

/-! ## Runs of accepted runes and of white space -/

theorem containsRune_natCast (valid : List Nat) (b : Nat) :
    containsRune valid (b : Int) = decide (b ∈ valid) := by
  rw [Bool.eq_iff_iff]
  simp [containsRune]

theorem containsRune_eof (valid : List Nat) : containsRune valid eof = false := by
  simp only [containsRune, eof, List.any_eq_false, beq_iff_eq]
  intro b _ h
  omega

theorem acceptRunLoop_L (valid : List Nat) (rest : List Nat) (s : Int) (it : List Item)
    (hrest : containsRune valid (runeAt rest).1 = false) :
    ∀ (run : List Nat) (clock n : Nat) (pre : List Nat) (w : Int),
      (∀ b ∈ run, b < 0x80 ∧ b ∈ valid) → run.length < clock →
      acceptRunLoop valid clock n (L pre (run ++ rest) s w it) =
        some (n + run.length,
          L (pre ++ run ++ rest.take (runeAt rest).2) (rest.drop (runeAt rest).2) s
            (runeAt rest).2 it) := by
  intro run
  induction run with
  | nil =>
    intro clock n pre w _ hc
    obtain ⟨c, rfl⟩ : ∃ c, clock = c + 1 := ⟨clock - 1, by simp at hc; omega⟩
    simp [acceptRunLoop, next_L, hrest]
  | cons b run ih =>
    intro clock n pre w hrun hc
    obtain ⟨c, rfl⟩ : ∃ c, clock = c + 1 := ⟨clock - 1, by simp at hc; omega⟩
    have hb := hrun b (List.mem_cons_self _ _)
    have hr : runeAt (b :: (run ++ rest)) = ((b : Int), 1) := runeAt_ascii _ _ hb.1
    simp only [acceptRunLoop, List.cons_append, next_L, hr, containsRune_natCast, hb.2,
      decide_True, if_true, List.take_succ_cons, List.take_zero, List.drop_succ_cons,
      List.drop_zero]
    rw [ih c (n + 1) (pre ++ [b]) _ (fun x hx => hrun x (List.mem_cons_of_mem _ hx))
      (by simp at hc; omega)]
    simp [Nat.add_assoc, Nat.add_comm 1]

theorem acceptRun_L (valid run rest pre : List Nat) (s w : Int) (it : List Item)
    (hrun : ∀ b ∈ run, b < 0x80 ∧ b ∈ valid)
    (hrest : containsRune valid (runeAt rest).1 = false) :
    acceptRun valid (L pre (run ++ rest) s w it) =
      some (run.length, L (pre ++ run) rest s (runeAt rest).2 it) := by
  have hk := runeAt_width_le rest
  have h := acceptRunLoop_L valid rest s it hrest run ((pre ++ (run ++ rest)).length + 1) 0 pre w
    hrun (by simp; omega)
  have hb := backup_L (pre ++ run) (rest.take (runeAt rest).2) (rest.drop (runeAt rest).2) s it
  simp only [List.length_take, Nat.min_eq_left hk, List.take_append_drop] at hb
  simp only [acceptRun]
  rw [show (L pre (run ++ rest) s w it).input.length = (pre ++ (run ++ rest)).length from rfl, h]
  simp only [hb, Nat.zero_add]

theorem skipSpaceLoop_L (rest : List Nat) (s : Int) (it : List Item)
    (hrest : isSpace (runeAt rest).1 = false) :
    ∀ (sp : List Nat) (clock : Nat) (pre : List Nat) (w : Int),
      (∀ b ∈ sp, b < 0x80 ∧ isSpace (b : Int) = true) → sp.length < clock →
      (match next (L pre (sp ++ rest) s w it) with
        | none => none
        | some (r, l1) => skipSpaceLoop clock r l1) =
        some ((runeAt rest).1,
          L (pre ++ sp ++ rest.take (runeAt rest).2) (rest.drop (runeAt rest).2) s
            (runeAt rest).2 it) := by
  intro sp
  induction sp with
  | nil =>
    intro clock pre w _ hc
    obtain ⟨c, rfl⟩ : ∃ c, clock = c + 1 := ⟨clock - 1, by simp at hc; omega⟩
    simp [skipSpaceLoop, next_L, hrest]
  | cons b sp ih =>
    intro clock pre w hsp hc
    obtain ⟨c, rfl⟩ : ∃ c, clock = c + 1 := ⟨clock - 1, by simp at hc; omega⟩
    have hb := hsp b (List.mem_cons_self _ _)
    have hr : runeAt (b :: (sp ++ rest)) = ((b : Int), 1) := runeAt_ascii _ _ hb.1
    have := ih c (pre ++ [b]) ((1 : Nat) : Int) (fun x hx => hsp x (List.mem_cons_of_mem _ hx))
      (by simp at hc; omega)
    rw [List.cons_append, next_L, hr]
    dsimp only
    rw [skipSpaceLoop, if_pos hb.2]
    simp only [List.take_succ_cons, List.take_zero, List.drop_succ_cons, List.drop_zero]
    rw [this]
    simp

theorem skipSpace_L (sp rest pre : List Nat) (s w : Int) (it : List Item)
    (hsp : ∀ b ∈ sp, b < 0x80 ∧ isSpace (b : Int) = true)
    (hrest : isSpace (runeAt rest).1 = false) :
    skipSpace (L pre (sp ++ rest) s w it) =
      some (L (pre ++ sp) rest ((pre ++ sp).length : Int) (runeAt rest).2 it) := by
  have hk := runeAt_width_le rest
  have h := skipSpaceLoop_L rest s it hrest sp ((pre ++ (sp ++ rest)).length + 1) pre w
    hsp (by simp; omega)
  have hb := backup_L (pre ++ sp) (rest.take (runeAt rest).2) (rest.drop (runeAt rest).2) s it
  simp only [List.length_take, Nat.min_eq_left hk, List.take_append_drop] at hb
  simp only [skipSpace]
  rw [show (L pre (sp ++ rest) s w it).input.length = (pre ++ (sp ++ rest)).length from rfl]
  revert h
  cases next (L pre (sp ++ rest) s w it) with
  | none => simp
  | some p =>
    obtain ⟨r, l1⟩ := p
    intro h
    simp only at h ⊢
    rw [h]
    simp only [hb, ignore_L]

/-! ## The dispatch state on a located state -/

theorem sliceFrom_L (pre rest : List Nat) (s w : Int) (it : List Item) :
    sliceFrom (L pre rest s w it).input (L pre rest s w it).pos = some rest :=
  sliceFrom_append pre rest

theorem unbreak_L (pre x rest : List Nat) (s w : Int) (it : List Item) :
    { L (pre ++ x) rest s w it with pos := (L (pre ++ x) rest s w it).pos - (x.length : Int) } =
      L pre (x ++ rest) s w it := by
  simp [L]

theorem advance_L (pre rest : List Nat) (s w : Int) (it : List Item) (n : Nat)
    (hn : n ≤ rest.length) :
    { L pre rest s w it with pos := (L pre rest s w it).pos + (n : Int) } =
      L (pre ++ rest.take n) (rest.drop n) s w it := by
  simp [L, Nat.min_eq_left hn]

theorem lowerHasPrefix_length {p t : List Nat} (h : lowerHasPrefix p t = true) :
    t.length ≤ p.length := by
  simp only [lowerHasPrefix, Bool.and_eq_true, List.isPrefixOf_iff_prefix] at h
  simpa using h.2.length_le

theorem matchTokens_L (pre rest : List Nat) (s w : Int) (it : List Item) :
    ∀ ts : List (List Nat), matchTokens ts (L pre rest s w it) =
      match firstMatch ts rest with
      | none => some (.fallThrough (L pre rest s w it))
      | some t =>
        if IsKeyword (tokenMapGet t) t then
          if containsRune (alphabet ++ underscore ++ digits) (runeAt (rest.drop t.length)).1 then
            some (.fallThrough (L pre rest s (runeAt (rest.drop t.length)).2 it))
          else
            (emit (L (pre ++ rest.take t.length) (rest.drop t.length) s
              (runeAt (rest.drop t.length)).2 it) (tokenMapGet t)).map Matched.emitted
        else
          (emit (L (pre ++ rest.take t.length) (rest.drop t.length) s w it)
            (tokenMapGet t)).map Matched.emitted := by
  intro ts
  induction ts with
  | nil => simp [matchTokens, firstMatch]
  | cons t more ih =>
    have hpt : (if rest.length > t.length then rest.take t.length else rest) = rest.take t.length := by
      split_ifs with h
      · rfl
      · rw [List.take_of_length_le (by omega)]
    simp only [matchTokens, sliceFrom_L, hpt, firstMatch, List.find?_cons]
    by_cases hm : lowerHasPrefix (rest.take t.length) t = true
    · have hlen : t.length ≤ rest.length := by
        have := lowerHasPrefix_length hm
        simp only [List.length_take] at this
        omega
      simp only [hm, if_true, advance_L pre rest s w it t.length hlen]
      by_cases hk : IsKeyword (tokenMapGet t) t = true
      · simp only [hk, if_true, accept_L]
        by_cases hc : containsRune (alphabet ++ underscore ++ digits)
            (runeAt (rest.drop t.length)).1 = true
        · have hw := runeAt_width_le (rest.drop t.length)
          have hb := backup_L (pre ++ rest.take t.length)
            ((rest.drop t.length).take (runeAt (rest.drop t.length)).2)
            ((rest.drop t.length).drop (runeAt (rest.drop t.length)).2) s it
          simp only [List.length_take, Nat.min_eq_left hw, List.take_append_drop] at hb
          have hu := unbreak_L pre (rest.take t.length) (rest.drop t.length) s
            (runeAt (rest.drop t.length)).2 it
          simp only [List.length_take, Nat.min_eq_left hlen, List.take_append_drop] at hu
          simp only [hc, if_true, hb, hu]
        · simp only [hc]
          rfl
      · simp only [hk]
        rfl
    · simp only [hm]
      exact ih


theorem lexTextTail_L (pre rest : List Nat) (s w : Int) (it : List Item) :
    lexTextTail (L pre rest s w it) =
      if (runeAt rest).1 = 0x27 then
        some (L pre rest s (runeAt rest).2 it, .lexSingleQuotedStringLiteral)
      else if (runeAt rest).1 = 0x22 then
        some (L pre rest s (runeAt rest).2 it, .lexDoubleQuotedStringLiteral)
      else if (runeAt rest).1 = 0x5B then
        some (L pre rest s (runeAt rest).2 it, .lexDoubleBracketStringLiteral)
      else
        match matchTokens TokenList (L pre rest s (runeAt rest).2 it) with
        | none => none
        | some (.emitted l4) => some (l4, .lexText)
        | some (.fallThrough l4) =>
          match acceptRun (alphabet ++ underscore ++ digits) l4 with
          | none => none
          | some (_, l5) => (emit l5 .Identifier).map (fun l6 => (l6, State.lexText)) := by
  simp only [lexTextTail, peek_L]

theorem lexTextComments_L (pre rest : List Nat) (s w : Int) (it : List Item) :
    lexTextComments (L pre rest s w it) =
      if (ascii "--[").isPrefixOf rest then some (L pre rest s w it, .lexBlockComment)
      else if (ascii "--").isPrefixOf rest then some (L pre rest s w it, .lexLineComment)
      else if (runeAt rest).1 = eof then
        (emit (L pre rest s (runeAt rest).2 it) .EOF).map (fun l2 => (l2, State.halted))
      else lexTextTail (L pre rest s (runeAt rest).2 it) := by
  simp only [lexTextComments, sliceFrom_L, peek_L]

theorem lexText_L_digit (sp rest pre : List Nat) (s w : Int) (it : List Item)
    (hsp : ∀ b ∈ sp, b < 0x80 ∧ isSpace (b : Int) = true)
    (hrest : isSpace (runeAt rest).1 = false)
    (hd : unicodeIsDigit (runeAt rest).1 = true) :
    lexText (L pre (sp ++ rest) s w it) =
      some (L (pre ++ sp) rest ((pre ++ sp).length : Int) (runeAt rest).2 it,
        .lexNumberLiteral) := by
  simp only [lexText, skipSpace_L sp rest pre s w it hsp hrest, peek_L, hd, if_true]

theorem lexText_L_other (sp rest pre : List Nat) (s w : Int) (it : List Item)
    (hsp : ∀ b ∈ sp, b < 0x80 ∧ isSpace (b : Int) = true)
    (hrest : isSpace (runeAt rest).1 = false)
    (hd : unicodeIsDigit (runeAt rest).1 = false)
    (hdot : (runeAt rest).1 ≠ 0x2E) :
    lexText (L pre (sp ++ rest) s w it) =
      lexTextComments (L (pre ++ sp) rest ((pre ++ sp).length : Int) (runeAt rest).2 it) := by
  simp only [lexText, skipSpace_L sp rest pre s w it hsp hrest, peek_L, hd, if_neg hdot]
  simp

theorem lexText_L_dot (sp rest pre : List Nat) (b : Nat) (s w : Int) (it : List Item)
    (hsp : ∀ b ∈ sp, b < 0x80 ∧ isSpace (b : Int) = true) (hb : b < 0x80) :
    lexText (L pre (sp ++ 0x2E :: b :: rest) s w it) =
      if unicodeIsDigit (b : Int) then
        some (L (pre ++ sp) (0x2E :: b :: rest) ((pre ++ sp).length : Int) 1 it,
          .lexNumberLiteral)
      else lexTextComments (L (pre ++ sp) (0x2E :: b :: rest) ((pre ++ sp).length : Int) 1 it) := by
  have h1 : runeAt (0x2E :: b :: rest) = (((0x2E : Nat) : Int), 1) :=
    runeAt_ascii 0x2E _ (by norm_num)
  have h2 : runeAt (b :: rest) = ((b : Int), 1) := runeAt_ascii _ _ hb
  have hb1 := backup_L (pre ++ sp) [0x2E] (b :: rest) ((pre ++ sp).length : Int) it
  rw [lexText, skipSpace_L sp _ pre s w it hsp (by rw [h1]; decide)]
  simp only [peek_L, next_L, h1, h2, List.take_succ_cons, List.take_zero, List.drop_succ_cons,
    List.drop_zero]
  simp only [List.length_singleton, List.singleton_append] at hb1
  rw [if_neg (by decide), if_pos (by norm_num), hb1]
  simp

theorem lexText_L_eof (sp pre : List Nat) (s w : Int) (it : List Item)
    (hsp : ∀ b ∈ sp, b < 0x80 ∧ isSpace (b : Int) = true) :
    lexText (L pre sp s w it) =
      some (L (pre ++ sp) [] ((pre ++ sp).length : Int) 0
        (it ++ [⟨.EOF, ((pre ++ sp).length : Int), []⟩]), .halted) := by
  have h := lexText_L_other sp [] pre s w it hsp (by decide) (by decide) (by decide)
  have he := emit_L (pre ++ sp) [] [] 0 it .EOF
  simp only [List.append_nil] at h he
  rw [h, lexTextComments_L]
  simp only [runeAt_nil, Nat.cast_zero, he]
  rfl

/-! ## The candidate list -/

theorem strLt_irrefl : ∀ a : List Nat, strLt a a = false
  | [] => rfl
  | a :: as => by simp [strLt, strLt_irrefl as]

theorem strLt_asymm : ∀ a b : List Nat, strLt a b = true → strLt b a = false
  | [], [], h => by simp [strLt] at h
  | [], _ :: _, _ => by simp [strLt]
  | _ :: _, [], h => by simp [strLt] at h
  | a :: as, b :: bs, h => by
    simp only [strLt, Bool.or_eq_true, decide_eq_true_eq, Bool.and_eq_true, beq_iff_eq] at h
    simp only [strLt, Bool.or_eq_false_iff, decide_eq_false_iff_not, Bool.and_eq_false_imp,
      beq_iff_eq]
    rcases h with h | ⟨rfl, h⟩
    · exact ⟨by omega, fun e => by omega⟩
    · exact ⟨by omega, fun _ => strLt_asymm as bs h⟩

theorem strLt_of_proper : ∀ a b : List Nat, a <+: b → a.length < b.length → strLt a b = true
  | [], [], _, h => by simp at h
  | [], _ :: _, _, _ => by simp [strLt]
  | _ :: _, [], h, _ => by simp at h
  | a :: as, b :: bs, h, hl => by
    rw [List.cons_prefix_cons] at h
    obtain ⟨rfl, h⟩ := h
    simp [strLt, strLt_of_proper as bs h (by simpa using hl)]

theorem find?_pairwise {α : Type} (R : α → α → Prop) (p : α → Bool) :
    ∀ (l : List α) (f k : α), l.Pairwise R → l.find? p = some f → k ∈ l → p k = true →
      k = f ∨ R f k
  | [], _, _, _, h, _, _ => by simp at h
  | x :: xs, f, k, hp, h, hk, hpk => by
    rw [List.pairwise_cons] at hp
    rw [List.find?_cons] at h
    by_cases hx : p x = true
    · simp only [hx, Option.some.injEq] at h
      subst h
      rcases List.mem_cons.1 hk with rfl | hk
      · exact Or.inl rfl
      · exact Or.inr (hp.1 k hk)
    · simp only [hx] at h
      rcases List.mem_cons.1 hk with rfl | hk
      · exact absurd hpk hx
      · exact find?_pairwise R p xs f k hp.2 h hk hpk

theorem insertDesc_perm (x : List Nat) : ∀ l : List (List Nat), (insertDesc x l).Perm (x :: l)
  | [] => List.Perm.refl _
  | y :: ys => by
    simp only [insertDesc]
    split_ifs
    · exact ((insertDesc_perm x ys).cons y).trans (List.Perm.swap x y ys)
    · exact List.Perm.refl _

theorem sortDesc_perm : ∀ l : List (List Nat), (sortDesc l).Perm l
  | [] => List.Perm.refl _
  | x :: xs => (insertDesc_perm x (sortDesc xs)).trans ((sortDesc_perm xs).cons x)

theorem TokenList_perm : TokenList.Perm (TokenMap.map Prod.fst) := sortDesc_perm _

theorem TokenList_sorted : TokenList.Pairwise (fun a b => strLt b a = true) := by decide!

theorem TokenMap_keys_nodup : (TokenMap.map Prod.fst).Nodup := by decide!

/-! ## Claims -/

/-- C3: TokenList holds every key of TokenMap exactly once, in strictly descending
byte order, and for every string `s` the first entry of TokenList that is a
prefix of `s` is the longest key of TokenMap that is a prefix of `s`. -/
theorem C3_first_match_is_longest :
    TokenList.Perm (TokenMap.map Prod.fst) ∧ (TokenMap.map Prod.fst).Nodup ∧
    TokenList.Pairwise (fun a b => strLt b a = true) ∧
    ∀ s : List Nat,
      match TokenList.find? (fun t => t.isPrefixOf s) with
      | none => ∀ k ∈ TokenMap.map Prod.fst, k.isPrefixOf s = false
      | some f => f ∈ TokenMap.map Prod.fst ∧ f.isPrefixOf s = true ∧
          ∀ k ∈ TokenMap.map Prod.fst, k.isPrefixOf s = true → k.length ≤ f.length := by
  refine ⟨TokenList_perm, TokenMap_keys_nodup, TokenList_sorted, fun s => ?_⟩
  cases hf : TokenList.find? (fun t => t.isPrefixOf s) with
  | none =>
    intro k hk
    have := List.find?_eq_none.1 hf k (TokenList_perm.mem_iff.2 hk)
    exact Bool.eq_false_iff.2 (by simpa using this)
  | some f =>
    have hfs : f.isPrefixOf s = true := by simpa using List.find?_some hf
    refine ⟨TokenList_perm.mem_iff.1 (List.mem_of_find?_eq_some hf), hfs, fun k hk hks => ?_⟩
    rcases find?_pairwise _ _ TokenList f k TokenList_sorted hf (TokenList_perm.mem_iff.2 hk) hks
      with rfl | hlt
    · exact le_rfl
    · by_contra hlen
      have hpre : f <+: k :=
        List.prefix_of_prefix_length_le ( List.isPrefixOf_iff_prefix.1 hfs)
          ( List.isPrefixOf_iff_prefix.1 hks) (by omega)
      have := strLt_asymm _ _ (strLt_of_proper f k hpre (by omega))
      simp [hlt] at this

/-! ## Words -/

theorem mem_wordChars (c : Nat) :
    c ∈ alphabet ++ underscore ++ digits ↔ isWordByte c = true := by
  by_cases h : c < 128
  · have : ∀ c < 128, (decide (c ∈ alphabet ++ underscore ++ digits)) = isWordByte c := by
      decide!
    have := this c h
    rw [← this]
    simp
  · have h1 : isWordByte c = false := by
      simp only [isWordByte, isAlnum, isLetter, Bool.or_eq_false_iff, Bool.and_eq_false_iff,
        decide_eq_false_iff_not, beq_eq_false_iff_ne]
      omega
    have h2 : ∀ x ∈ alphabet ++ underscore ++ digits, x < 128 := by decide!
    constructor
    · intro hc
      exact absurd (h2 c hc) h
    · intro hc
      simp [h1] at hc

theorem wordByte_lt (c : Nat) (h : isWordByte c = true) : c < 0x80 := by
  simp only [isWordByte, isAlnum, isLetter, Bool.or_eq_true, Bool.and_eq_true,
    decide_eq_true_eq, beq_iff_eq] at h
  omega

theorem wordByte_lower (c : Nat) (h : isWordByte c = true) : isWordByte (lowerByte c) = true := by
  simp only [isWordByte, isAlnum, isLetter, Bool.or_eq_true, Bool.and_eq_true,
    decide_eq_true_eq, beq_iff_eq, lowerByte] at h ⊢
  split_ifs <;> omega

theorem TokenList_word :
    TokenList.all (fun t => match t with
      | [] => false
      | c :: _ => !isWordByte c || (t.all isLetter && IsKeyword (tokenMapGet t) t)) = true := by
  decide!


theorem runeAt_word (b : Nat) (w : List Nat) (hb : isWordByte b = true) :
    runeAt (b :: w) = ((b : Int), 1) := runeAt_ascii b w (wordByte_lt b hb)

theorem lowerHasPrefix_self (w : List Nat) (hw : ∀ c ∈ w, c < 0x80) :
    lowerHasPrefix (w.take (w.map lowerByte).length) (w.map lowerByte) = true := by
  simp only [lowerHasPrefix, List.length_map, List.take_length, Bool.and_eq_true,
    List.all_eq_true, decide_eq_true_eq, List.isPrefixOf_iff_prefix]
  exact ⟨hw, List.prefix_refl _⟩

theorem lowerHasPrefix_pre {w t : List Nat} (h : lowerHasPrefix (w.take t.length) t = true) :
    t <+: w.map lowerByte := by
  simp only [lowerHasPrefix, Bool.and_eq_true, List.isPrefixOf_iff_prefix] at h
  exact h.2.trans (( List.take_prefix _ _).map _)

/-- The candidate loop on a word: either the whole word is a keyword-like
candidate, which is emitted, or the loop falls through with the cursor where
it was. -/
theorem matchTokens_word (p : List Nat) (b : Nat) (w : List Nat) (wd : Int) (it : List Item)
    (hw : ∀ c ∈ b :: w, isWordByte c = true) :
    (matchTokens TokenList (L p (b :: w) (p.length : Int) wd it) =
        some (.emitted (L (p ++ b :: w) [] ((p ++ b :: w).length : Int) 0
          (it ++ [⟨tokenMapGet ((b :: w).map lowerByte), (p.length : Int), b :: w⟩]))) ∧
      wordKind (b :: w) = tokenMapGet ((b :: w).map lowerByte)) ∨
    ((∃ wd1 : Int, matchTokens TokenList (L p (b :: w) (p.length : Int) wd it) =
        some (.fallThrough (L p (b :: w) (p.length : Int) wd1 it))) ∧
      wordKind (b :: w) = .Identifier) := by
  have hlt : ∀ c ∈ b :: w, c < 0x80 := fun c hc => wordByte_lt c (hw c hc)
  -- a key equal to the lower-cased word is a candidate matching the whole word
  have hkey : ∀ e ∈ TokenMap, e.1 = (b :: w).map lowerByte →
      e.1 ∈ TokenList ∧ lowerHasPrefix ((b :: w).take e.1.length) e.1 = true := by
    intro e he hk
    refine ⟨TokenList_perm.mem_iff.2 (List.mem_map_of_mem _ he), ?_⟩
    rw [hk]
    exact lowerHasPrefix_self _ hlt
  rw [matchTokens_L]
  cases hf : firstMatch TokenList (b :: w) with
  | none =>
    refine Or.inr ⟨⟨wd, rfl⟩, ?_⟩
    have hnone : TokenMap.find? (fun e => e.1 == (b :: w).map lowerByte && e.1.all isLetter)
        = none := by
      rw [List.find?_eq_none]
      intro e he hp
      simp only [Bool.and_eq_true, beq_iff_eq] at hp
      have := hkey e he hp.1
      have hn := List.find?_eq_none.1 hf e.1 this.1
      exact hn this.2
    simp only [wordKind, hnone]
  | some t =>
    have htm : lowerHasPrefix ((b :: w).take t.length) t = true := by
      simpa using List.find?_some hf
    have htl : t ∈ TokenList := List.mem_of_find?_eq_some hf
    have hpre : t <+: (b :: w).map lowerByte := lowerHasPrefix_pre htm
    have hlen : t.length ≤ (b :: w).length := by simpa using hpre.length_le
    have htab := List.all_eq_true.1 TokenList_word t htl
    obtain ⟨c, t', rfl⟩ : ∃ c t', t = c :: t' := by
      cases t with
      | nil => simp at htab
      | cons c t' => exact ⟨c, t', rfl⟩
    have hc : c = lowerByte b := by
      have := hpre
      rw [List.map_cons, List.cons_prefix_cons] at this
      exact this.1
    have hcw : isWordByte c = true := hc ▸ wordByte_lower b (hw b (List.mem_cons_self _ _))
    simp only [hcw, Bool.not_true, Bool.false_or, Bool.and_eq_true] at htab
    obtain ⟨hallL, hkw⟩ := htab
    simp only [hkw, if_true]
    by_cases hfull : (c :: t').length = (b :: w).length
    · -- the candidate is the whole word
      have heq : (b :: w).map lowerByte = c :: t' :=
        (hpre.eq_of_length (by simpa using hfull)).symm
      have hdrop : (b :: w).drop (c :: t').length = [] := by
        rw [hfull]; exact List.drop_length _
      have htake : (b :: w).take (c :: t').length = b :: w := by
        rw [hfull]; exact List.take_length _
      refine Or.inl ⟨?_, ?_⟩
      · rw [hdrop, htake, runeAt_nil, if_neg (by simp [containsRune_eof]), heq]
        have := emit_L p (b :: w) [] 0 it (tokenMapGet (c :: t'))
        simp only [Nat.cast_zero]
        rw [this]
        rfl
      · have hfun : (fun e : List Nat × Token =>
            e.1 == (b :: w).map lowerByte && e.1.all isLetter) =
            (fun e => e.1 == (c :: t')) := by
          funext e
          rw [heq]
          by_cases he : e.1 = c :: t'
          · simp [he, hallL]
          · simp [he]
        simp only [wordKind, tokenMapGet, hfun]
        rw [heq]
        cases hfind : TokenMap.find? (fun e => e.1 == (c :: t')) with
        | none =>
          obtain ⟨e, he, hek⟩ := List.mem_map.1 (TokenList_perm.mem_iff.1 htl)
          have := List.find?_eq_none.1 hfind e he
          simp [hek] at this
        | some e => rfl
    · -- the candidate is a proper prefix of the word: the next byte is a word byte
      have hlt2 : (c :: t').length < (b :: w).length := lt_of_le_of_ne hlen hfull
      obtain ⟨x, xs, hx⟩ : ∃ x xs, (b :: w).drop (c :: t').length = x :: xs := by
        cases hd : (b :: w).drop (c :: t').length with
        | nil =>
          have := congrArg List.length hd
          simp only [List.length_drop, List.length_nil] at this
          omega
        | cons x xs => exact ⟨x, xs, rfl⟩
      have hxw : isWordByte x = true :=
        hw x (List.mem_of_mem_drop (hx ▸ List.mem_cons_self x xs))
      have hcr : containsRune (alphabet ++ underscore ++ digits)
          (runeAt ((b :: w).drop (c :: t').length)).1 = true := by
        rw [hx, runeAt_word x xs hxw, containsRune_natCast]
        simpa using (mem_wordChars x).2 hxw
      refine Or.inr ⟨⟨_, by rw [if_pos hcr]⟩, ?_⟩
      have hnone : TokenMap.find? (fun e => e.1 == (b :: w).map lowerByte && e.1.all isLetter)
          = none := by
        rw [List.find?_eq_none]
        intro e he hp
        simp only [Bool.and_eq_true, beq_iff_eq] at hp
        have hk := hkey e he hp.1
        rcases find?_pairwise (fun a b => strLt b a = true) _ TokenList (c :: t') e.1
          TokenList_sorted hf hk.1 hk.2 with h | h
        · have := congrArg List.length h
          rw [hp.1] at this
          simp only [List.length_map] at this
          omega
        · have hpp : (c :: t') <+: e.1 := hp.1 ▸ hpre
          have := strLt_asymm _ _ (strLt_of_proper _ _ hpp (by
            rw [hp.1, List.length_map]; exact hlt2))
          simp [h] at this
      simp only [wordKind, hnone]


theorem wordByte_facts : ∀ b < 128, isWordByte b = true →
    isSpace (b : Int) = false ∧ unicodeIsDigit (b : Int) = (decide (0x30 ≤ b) && decide (b ≤ 0x39)) ∧
    (b : Int) ≠ 0x2E ∧ (b : Int) ≠ eof ∧ (b : Int) ≠ 0x27 ∧ (b : Int) ≠ 0x22 ∧
    (b : Int) ≠ 0x5B ∧ b ≠ 0x2D := by
  decide!

theorem lexText_eof (p : List Nat) (s w : Int) (it : List Item) :
    lexText (L p [] s w it) =
      some (L p [] (p.length : Int) 0 (it ++ [⟨.EOF, (p.length : Int), []⟩]), .halted) := by
  have := lexText_L_eof [] p s w it (by simp)
  simpa using this

/-- The dispatch state on a word that ends the input and does not start with a
digit: one Item spanning the word, of the kind `wordKind`. -/
theorem lexText_word (p : List Nat) (b : Nat) (w : List Nat) (wd : Int) (it : List Item)
    (hw : ∀ c ∈ b :: w, isWordByte c = true) (hb : ¬ (0x30 ≤ b ∧ b ≤ 0x39)) :
    lexText (L p (b :: w) (p.length : Int) wd it) =
      some (L (p ++ b :: w) [] ((p ++ b :: w).length : Int) 0
        (it ++ [⟨wordKind (b :: w), (p.length : Int), b :: w⟩]), .lexText) := by
  have hbw := hw b (List.mem_cons_self _ _)
  have hr := runeAt_word b w hbw
  obtain ⟨f1, f2, f3, f4, f5, f6, f7, f8⟩ := wordByte_facts b (wordByte_lt b hbw) hbw
  have hd : unicodeIsDigit (b : Int) = false := by
    rw [f2]; simp only [Bool.and_eq_false_iff, decide_eq_false_iff_not]; omega
  have h1 := lexText_L_other [] (b :: w) p (p.length : Int) wd it (by simp)
    (by rw [hr]; exact f1) (by rw [hr]; exact hd) (by rw [hr]; exact f3)
  simp only [List.nil_append, List.append_nil] at h1
  have hp1 : (ascii "--[").isPrefixOf (b :: w) = false := by
    simp [ascii, List.isPrefixOf, Ne.symm f8]
  have hp2 : (ascii "--").isPrefixOf (b :: w) = false := by
    simp [ascii, List.isPrefixOf, Ne.symm f8]
  rw [h1, lexTextComments_L, hp1, hp2, hr]
  simp only [Bool.false_eq_true, if_false, if_neg f4, lexTextTail_L, hr, if_neg f5, if_neg f6,
    if_neg f7]
  have hrun := acceptRun_L (alphabet ++ underscore ++ digits) (b :: w) [] p (p.length : Int)
  simp only [List.append_nil, runeAt_nil, containsRune_eof] at hrun
  have hem := emit_L p (b :: w) [] 0 it .Identifier
  rcases matchTokens_word p b w ((1 : Nat) : Int) it hw with ⟨hm, hk⟩ | ⟨⟨wd1, hm⟩, hk⟩
  · rw [hm, hk]
  · rw [hm, hk]
    simp only
    rw [hrun wd1 it (fun c hc => ⟨wordByte_lt c (hw c hc), (mem_wordChars c).2 (hw c hc)⟩) trivial]
    simp only [Nat.cast_zero]
    rw [hem]
    rfl


theorem NewLexer_eq (input : List Nat) : NewLexer input = ⟨L [] input 0 0 [], .lexText⟩ := rfl

theorem step_of_stateFn (st : State) {l l1 : Lexer} {st1 : State}
    (h : stateFn st l = some (l1, st1)) : step ⟨l, st⟩ = ⟨l1, st1⟩ := by
  simp [step, h]

theorem run_succ (n : Nat) (c : Config) : run (n + 1) c = run n (step c) := rfl

theorem run_add (m n : Nat) (c : Config) : run (m + n) c = run n (run m c) := by
  induction m generalizing c with
  | zero => simp [run]
  | succ m ih => rw [Nat.add_right_comm, run_succ, ih, run_succ]

theorem TokenMap_key_unique {e1 e2 : List Nat × Token} (h1 : e1 ∈ TokenMap) (h2 : e2 ∈ TokenMap)
    (h : e1.1 = e2.1) : e1.2 = e2.2 := by
  have := List.inj_on_of_nodup_map TokenMap_keys_nodup h1 h2 h
  rw [this]

theorem wordKind_spec (w : List Nat) :
    (∀ e ∈ TokenMap, e.1 = w.map lowerByte → e.1.all isLetter = true → wordKind w = e.2) ∧
    ((∀ e ∈ TokenMap, e.1 = w.map lowerByte → e.1.all isLetter = false) →
      wordKind w = .Identifier) := by
  constructor
  · intro e he hk ha
    unfold wordKind
    cases hf : TokenMap.find? (fun e => e.1 == w.map lowerByte && e.1.all isLetter) with
    | none =>
      have := List.find?_eq_none.1 hf e he
      exact absurd (by rw [Bool.and_eq_true, beq_iff_eq]; exact ⟨hk, ha⟩) this
    | some e1 =>
      have h1 := List.find?_some hf
      simp only [Bool.and_eq_true, beq_iff_eq] at h1
      exact TokenMap_key_unique (List.mem_of_find?_eq_some hf) he (h1.1.trans hk.symm)
  · intro h
    unfold wordKind
    cases hf : TokenMap.find? (fun e => e.1 == w.map lowerByte && e.1.all isLetter) with
    | none => rfl
    | some e1 =>
      have h1 := List.find?_some hf
      simp only [Bool.and_eq_true, beq_iff_eq] at h1
      have := h e1 (List.mem_of_find?_eq_some hf) h1.1
      simp [h1.2] at this

/-- C2: a non-empty input made only of ASCII letters, digits and underscores that
does not start with a digit yields exactly two Items: one Item with Begin 0
whose text is the whole input, then EOF.  The kind of the first Item is that of
the purely alphabetic key of TokenMap equal to the lower-cased input when there
is one, and Identifier otherwise. -/
theorem C2_word_maximal_munch (b : Nat) (w : List Nat)
    (hw : ∀ c ∈ b :: w, isWordByte c = true) (hb : ¬ (0x30 ≤ b ∧ b ≤ 0x39)) :
    Yields (b :: w)
        [⟨wordKind (b :: w), 0, b :: w⟩, ⟨.EOF, ((b :: w).length : Int), []⟩] ∧
      (∀ e ∈ TokenMap, e.1 = (b :: w).map lowerByte → e.1.all isLetter = true →
        wordKind (b :: w) = e.2) ∧
      ((∀ e ∈ TokenMap, e.1 = (b :: w).map lowerByte → e.1.all isLetter = false) →
        wordKind (b :: w) = .Identifier) := by
  refine ⟨⟨2, ?_⟩, wordKind_spec (b :: w)⟩
  have h1 := lexText_word [] b w 0 [] hw hb
  have h2 := lexText_eof (b :: w) ((b :: w).length : Int) 0
    [⟨wordKind (b :: w), 0, b :: w⟩]
  simp only [List.nil_append, List.length_nil, Nat.cast_zero] at h1
  have hs1 : step ⟨L [] (b :: w) 0 0 [], .lexText⟩ = _ := step_of_stateFn .lexText h1
  have hs2 := step_of_stateFn .lexText h2
  rw [NewLexer_eq, run_succ, hs1, run_succ, hs2]
  exact ⟨rfl, rfl⟩

theorem C2_word_maximal_munch_witness :
    Yields (ascii "ifx") [⟨.Identifier, 0, ascii "ifx"⟩, ⟨.EOF, 3, []⟩] :=
  (C2_word_maximal_munch 0x69 (ascii "fx") (by decide) (by decide)).1

/-! ## Long brackets -/

theorem containsRune_runeAt_cons (valid : List Nat) (hv : ∀ v ∈ valid, v < 0x80) (b : Nat)
    (r : List Nat) : containsRune valid (runeAt (b :: r)).1 = decide (b ∈ valid) := by
  by_cases hb : b < 0x80
  · rw [runeAt_ascii b r hb, containsRune_natCast]
  · have h1 : 0x80 ≤ (runeAt (b :: r)).1 := decodeRune_high b r (by omega)
    have h2 : b ∉ valid := fun h => hb (hv b h)
    rw [Bool.eq_iff_iff]
    simp only [containsRune, List.any_eq_true, beq_iff_eq, decide_eq_true_eq, h2, iff_false,
      not_exists, not_and]
    intro v hvm hveq
    have := hv v hvm
    omega

theorem run_step (st : State) {l l1 : Lexer} {st1 : State} (k : Nat)
    (h : stateFn st l = some (l1, st1)) : run (k + 1) ⟨l, st⟩ = run k ⟨l1, st1⟩ := by
  rw [run_succ, step_of_stateFn st h]

theorem equalsRunLength_split : ∀ rest : List Nat,
    rest = List.replicate (equalsRunLength rest) 0x3D ++ rest.drop (equalsRunLength rest) ∧
      ∀ b r, rest.drop (equalsRunLength rest) = b :: r → b ≠ 0x3D
  | [] => by simp [equalsRunLength]
  | b :: rest => by
    by_cases hb : b = 0x3D
    · have ih := equalsRunLength_split rest
      simp only [equalsRunLength, hb, if_true, List.replicate_succ, List.cons_append,
        List.drop_succ_cons, List.cons.injEq, true_and]
      exact ⟨ih.1, ih.2⟩
    · simp only [equalsRunLength, hb, if_false, List.replicate_zero, List.nil_append,
        List.drop_zero, List.cons.injEq, true_and, and_imp]
      intro c r hc _
      exact hc ▸ hb

theorem plainBody_drop (n : Nat) : ∀ (k : Nat) (x : List Nat),
    plainBody n x = true → plainBody n (x.drop k) = true
  | 0, x, h => by simpa using h
  | k + 1, [], _ => by simp [plainBody]
  | k + 1, b :: x, h => by
    simp only [plainBody, Bool.and_eq_true] at h
    simpa using plainBody_drop n k x h.2


theorem runeAt_5D (r : List Nat) : runeAt (0x5D :: r) = (((0x5D : Nat) : Int), 1) :=
  runeAt_ascii 0x5D r (by norm_num)

theorem bracketIteration_close (n : Nat) (st : State) (close : Lexer → Option Lexer)
    (pre tail : List Nat) (s w : Int) (it : List Item) :
    bracketIteration n st close (L pre (closing n ++ tail) s w it) =
      (close (L (pre ++ closing n) tail s ((1 : Nat) : Int) it)).map
        (fun l4 => (l4, State.lexText)) := by
  have hrun := acceptRun_L (ascii "=") (List.replicate n 0x3D) (0x5D :: tail) (pre ++ [0x5D]) s
    ((1 : Nat) : Int) it (by intro b hb; rw [List.eq_of_mem_replicate hb]; decide)
    (by rw [runeAt_5D]; decide)
  have hc : containsRune (ascii "]") (((0x5D : Nat) : Int)) = true := by decide
  simp only [bracketIteration, closing, List.cons_append, List.append_assoc, next_L, runeAt_5D,
    List.take_succ_cons, List.take_zero, List.drop_succ_cons, List.drop_zero,
    List.singleton_append, List.nil_append]
  rw [if_neg (by decide), if_pos (by decide), hrun]
  simp only [List.length_replicate, ne_eq, not_true_eq_false, if_false, accept_L, runeAt_5D, hc,
    if_true, List.take_succ_cons, List.take_zero, List.drop_succ_cons, List.drop_zero,
    List.append_assoc, List.singleton_append, List.cons_append, List.nil_append]


theorem ascii_eq_mem (b : Nat) : b ∈ ascii "=" ↔ b = 0x3D := by
  simp [ascii]

theorem runeAt_width_body (b : Nat) (x t : List Nat) (stop : Nat) (hstop : stop < 0x80) :
    (runeAt (b :: (x ++ stop :: t))).2 ≤ (b :: x).length ∧ 1 ≤ (runeAt (b :: (x ++ stop :: t))).2 := by
  have hc := decodeRune_cont b (x ++ stop :: t)
  have hp := decodeRune_width_pos b (x ++ stop :: t)
  refine ⟨?_, hp⟩
  by_contra hlt
  simp only [runeAt, List.length_cons, not_le] at hlt
  have hmem : stop ∈ (x ++ stop :: t).take ((decodeRune (b :: (x ++ stop :: t))).2 - 1) := by
    rw [List.take_append_eq_append_take]
    apply List.mem_append_right
    have : (decodeRune (b :: (x ++ stop :: t))).2 - 1 - x.length =
        ((decodeRune (b :: (x ++ stop :: t))).2 - 1 - x.length - 1) + 1 := by omega
    rw [this, List.take_succ_cons]
    exact List.mem_cons_self _ _
  have := hc stop hmem
  omega

theorem bracketIteration_body (n : Nat) (st : State) (close : Lexer → Option Lexer)
    (pre : List Nat) (b : Nat) (x t : List Nat) (s w : Int) (it : List Item)
    (hx : plainBody n (b :: x) = true) :
    ∃ (pre1 x1 : List Nat) (w1 : Int), x1.length < (b :: x).length ∧ plainBody n x1 = true ∧
      pre1 ++ x1 = pre ++ b :: x ∧
      bracketIteration n st close (L pre (b :: x ++ 0x5D :: t) s w it) =
        some (L pre1 (x1 ++ 0x5D :: t) s w1 it, st) := by
  simp only [plainBody, Bool.and_eq_true, bne_iff_ne, ne_eq, Bool.or_eq_true] at hx
  obtain ⟨⟨hb5C, hb5D⟩, hx'⟩ := hx
  by_cases hb : b = 0x5D
  · subst hb
    have hr : equalsRunLength x ≠ n := by simpa using hb5D
    obtain ⟨hsplit, hhead⟩ := equalsRunLength_split x
    have hrest : containsRune (ascii "=")
        (runeAt (x.drop (equalsRunLength x) ++ 0x5D :: t)).1 = false := by
      cases hd : x.drop (equalsRunLength x) with
      | nil =>
        rw [List.nil_append, containsRune_runeAt_cons _ (by decide)]
        decide
      | cons c r =>
        rw [List.cons_append, containsRune_runeAt_cons _ (by decide)]
        simpa [ascii_eq_mem] using hhead c r hd
    have hrun := acceptRun_L (ascii "=") (List.replicate (equalsRunLength x) 0x3D)
      (x.drop (equalsRunLength x) ++ 0x5D :: t) (pre ++ [0x5D]) s ((1 : Nat) : Int) it
      (by intro c hc; rw [List.eq_of_mem_replicate hc]; decide) hrest
    rw [← List.append_assoc, ← hsplit] at hrun
    refine ⟨pre ++ [0x5D] ++ List.replicate (equalsRunLength x) 0x3D,
      x.drop (equalsRunLength x),
      ((runeAt (x.drop (equalsRunLength x) ++ 0x5D :: t)).2 : Int), ?_,
      plainBody_drop n _ x hx', ?_, ?_⟩
    · simp only [List.length_drop, List.length_cons]; omega
    · rw [List.append_assoc, List.append_assoc, ← hsplit]; simp
    · simp only [bracketIteration, List.cons_append, next_L, runeAt_5D, List.take_succ_cons,
        List.take_zero, List.drop_succ_cons, List.drop_zero]
      rw [if_neg (by decide), if_pos (by decide), hrun]
      simp only [List.length_replicate, ne_eq, hr, not_false_eq_true, if_true]
  · obtain ⟨hk, hk1⟩ := runeAt_width_body b x t 0x5D (by norm_num)
    have hrune : (runeAt (b :: (x ++ 0x5D :: t))).1 ≠ 0x5C ∧
        (runeAt (b :: (x ++ 0x5D :: t))).1 ≠ 0x5D := by
      by_cases hlt : b < 0x80
      · rw [runeAt_ascii b _ hlt]
        constructor <;> (simp only [ne_eq]; norm_cast)
      · have := decodeRune_high b (x ++ 0x5D :: t) (by omega)
        simp only [runeAt]
        constructor <;> omega
    refine ⟨pre ++ (b :: x).take (runeAt (b :: (x ++ 0x5D :: t))).2,
      (b :: x).drop (runeAt (b :: (x ++ 0x5D :: t))).2,
      ((runeAt (b :: (x ++ 0x5D :: t))).2 : Int), ?_,
      plainBody_drop n _ (b :: x) (by simp [plainBody, hb5C, hb, hx']), ?_, ?_⟩
    · simp only [List.length_drop]; omega
    · rw [List.append_assoc, List.take_append_drop]
    · simp only [bracketIteration, List.cons_append, next_L, if_neg hrune.1, if_neg hrune.2]
      have htake : List.take (runeAt (b :: (x ++ 0x5D :: t))).2 (b :: (x ++ 0x5D :: t)) =
          List.take (runeAt (b :: (x ++ 0x5D :: t))).2 (b :: x) :=
        (List.take_append_of_le_length hk :
          List.take (runeAt (b :: (x ++ 0x5D :: t))).2 ((b :: x) ++ 0x5D :: t) = _)
      have hdrop : List.drop (runeAt (b :: (x ++ 0x5D :: t))).2 (b :: (x ++ 0x5D :: t)) =
          List.drop (runeAt (b :: (x ++ 0x5D :: t))).2 (b :: x) ++ 0x5D :: t :=
        (List.drop_append_of_le_length hk :
          List.drop (runeAt (b :: (x ++ 0x5D :: t))).2 ((b :: x) ++ 0x5D :: t) = _)
      rw [htake, hdrop]


theorem closing_append (n : Nat) (tail : List Nat) :
    closing n ++ tail = 0x5D :: (List.replicate n 0x3D ++ 0x5D :: tail) := by
  simp [closing]

/-- The `for` loop of a long-bracket state runs through a plain body and its
closing bracket, then does what the state does on closing. -/
theorem bracketLoop_run (n : Nat) (st : State) (close : Lexer → Option Lexer)
    (hst : ∀ l, stateFn st l = bracketIteration n st close l)
    (tail : List Nat) (s : Int) (it : List Item) :
    ∀ (m : Nat) (x pre : List Nat) (w : Int) (lf : Lexer), x.length ≤ m →
      plainBody n x = true →
      close (L (pre ++ x ++ closing n) tail s ((1 : Nat) : Int) it) = some lf →
      ∃ k, run k ⟨L pre (x ++ (closing n ++ tail)) s w it, st⟩ = ⟨lf, .lexText⟩ := by
  intro m
  induction m with
  | zero =>
    intro x pre w lf hm _ hclose
    obtain rfl : x = [] := List.length_eq_zero.1 (Nat.le_zero.1 hm)
    have h1 : stateFn st (L pre ([] ++ (closing n ++ tail)) s w it) = some (lf, .lexText) := by
      rw [hst, List.nil_append, bracketIteration_close]
      simp only [List.append_nil] at hclose
      rw [hclose]; rfl
    exact ⟨1, by rw [run_step st 0 h1]; rfl⟩
  | succ m ih =>
    intro x pre w lf hm hx hclose
    cases x with
    | nil =>
      have h1 : stateFn st (L pre ([] ++ (closing n ++ tail)) s w it) = some (lf, .lexText) := by
        rw [hst, List.nil_append, bracketIteration_close]
        simp only [List.append_nil] at hclose
        rw [hclose]; rfl
      exact ⟨1, by rw [run_step st 0 h1]; rfl⟩
    | cons b x =>
      obtain ⟨pre1, x1, w1, hlen, hx1, hpre, hit⟩ :=
        bracketIteration_body n st close pre b x (List.replicate n 0x3D ++ 0x5D :: tail) s w it hx
      have hclose1 : close (L (pre1 ++ x1 ++ closing n) tail s ((1 : Nat) : Int) it) = some lf := by
        rw [hpre]; exact hclose
      obtain ⟨k, hk⟩ := ih x1 pre1 w1 lf (by simp only [List.length_cons] at hlen hm; omega)
        hx1 hclose1
      refine ⟨k + 1, ?_⟩
      rw [closing_append] at hk ⊢
      rw [run_step st k (by rw [hst]; exact hit)]
      exact hk


theorem runeAt_5B (r : List Nat) : runeAt (0x5B :: r) = (((0x5B : Nat) : Int), 1) :=
  runeAt_ascii 0x5B r (by norm_num)

theorem runeAt_2D (r : List Nat) : runeAt (0x2D :: r) = (((0x2D : Nat) : Int), 1) :=
  runeAt_ascii 0x2D r (by norm_num)

theorem lexText_bracket (p r : List Nat) (wd : Int) (it : List Item) :
    lexText (L p (0x5B :: r) (p.length : Int) wd it) =
      some (L p (0x5B :: r) (p.length : Int) ((1 : Nat) : Int) it,
        .lexDoubleBracketStringLiteral) := by
  have h1 := lexText_L_other [] (0x5B :: r) p (p.length : Int) wd it (by simp)
    (by rw [runeAt_5B]; decide) (by rw [runeAt_5B]; decide) (by rw [runeAt_5B]; decide)
  simp only [List.nil_append, List.append_nil] at h1
  rw [h1, lexTextComments_L, lexTextTail_L, runeAt_5B]
  rw [if_neg (by simp [ascii, List.isPrefixOf]), if_neg (by simp [ascii, List.isPrefixOf]),
    if_neg (by decide), if_neg (by decide), if_neg (by decide), if_pos (by decide)]

theorem lexText_blockComment (p r : List Nat) (wd : Int) (it : List Item) :
    lexText (L p (0x2D :: 0x2D :: 0x5B :: r) (p.length : Int) wd it) =
      some (L p (0x2D :: 0x2D :: 0x5B :: r) (p.length : Int) ((1 : Nat) : Int) it,
        .lexBlockComment) := by
  have h1 := lexText_L_other [] (0x2D :: 0x2D :: 0x5B :: r) p (p.length : Int) wd it (by simp)
    (by rw [runeAt_2D]; decide) (by rw [runeAt_2D]; decide) (by rw [runeAt_2D]; decide)
  simp only [List.nil_append, List.append_nil] at h1
  rw [h1, lexTextComments_L, runeAt_2D]
  rw [if_pos (by simp [ascii, List.isPrefixOf])]

/-- The entry of `lexDoubleBracketStringLiteral` on an opening bracket followed
by a plain body: the loop starts inside the body, after a leading newline. -/
theorem lexDoubleBracket_entry (n : Nat) (p body t : List Nat) (s w : Int) (it : List Item)
    (hbody : plainBody n body = true) :
    ∃ (pre1 x1 : List Nat) (w1 : Int), pre1 ++ x1 = p ++ opening n ++ body ∧
      plainBody n x1 = true ∧
      lexDoubleBracketStringLiteral (L p (opening n ++ body ++ 0x5D :: t) s w it) =
        some (L pre1 (x1 ++ 0x5D :: t) s w1 it, .doubleBracketLoop n) := by
  have hrun := acceptRun_L (ascii "=") (List.replicate n 0x3D) (0x5B :: (body ++ 0x5D :: t))
    (p ++ [0x5B]) s ((1 : Nat) : Int) it
    (by intro b hb; rw [List.eq_of_mem_replicate hb]; decide) (by rw [runeAt_5B]; decide)
  have hc : containsRune (ascii "[") (((0x5B : Nat) : Int)) = true := by decide
  have hopen : opening n ++ body ++ 0x5D :: t =
      0x5B :: (List.replicate n 0x3D ++ 0x5B :: (body ++ 0x5D :: t)) := by
    simp [opening]
  have hstart : lexDoubleBracketStringLiteral (L p (opening n ++ body ++ 0x5D :: t) s w it) =
      (accept (ascii "\n") (L (p ++ opening n) (body ++ 0x5D :: t) s ((1 : Nat) : Int) it)).map
        (fun q => (q.2, State.doubleBracketLoop n)) := by
    rw [hopen]
    simp only [lexDoubleBracketStringLiteral, next_L, runeAt_5B, List.take_succ_cons,
      List.take_zero, List.drop_succ_cons, List.drop_zero, hrun, accept_L, hc, if_true,
      opening, List.append_assoc, List.singleton_append, List.cons_append, List.nil_append,
      List.length_replicate]
  rw [hstart, accept_L]
  cases body with
  | nil =>
    refine ⟨p ++ opening n, [], ((runeAt (0x5D :: t)).2 : Int), by simp, rfl, ?_⟩
    rw [List.nil_append, containsRune_runeAt_cons _ (by decide), if_neg (by decide)]
    rfl
  | cons b x =>
    rw [List.cons_append, containsRune_runeAt_cons _ (by decide)]
    by_cases hb : b = 0x0A
    · subst hb
      refine ⟨p ++ opening n ++ [0x0A], x, ((1 : Nat) : Int), by simp, plainBody_drop n 1 _ hbody, ?_⟩
      rw [if_pos (by decide), runeAt_ascii 0x0A _ (by norm_num)]
      rfl
    · refine ⟨p ++ opening n, b :: x, ((runeAt (b :: (x ++ 0x5D :: t))).2 : Int), rfl, hbody, ?_⟩
      rw [if_neg (by simpa [ascii] using hb)]
      rfl

/-- The entry of `lexBlockComment` on `--` and an opening bracket. -/
theorem lexBlockComment_entry (n : Nat) (p r : List Nat) (s w : Int) (it : List Item) :
    lexBlockComment (L p (0x2D :: 0x2D :: (opening n ++ r)) s w it) =
      some (L (p ++ 0x2D :: 0x2D :: opening n) r s ((1 : Nat) : Int) it,
        .blockCommentLoop n) := by
  have hdash := acceptRun_L (ascii "-") [0x2D, 0x2D] (opening n ++ r) p s w it
    (by decide) (by rw [opening, List.cons_append, runeAt_5B]; decide)
  have hrun := acceptRun_L (ascii "=") (List.replicate n 0x3D) (0x5B :: r)
    (p ++ [0x2D, 0x2D] ++ [0x5B]) s ((1 : Nat) : Int) it
    (by intro b hb; rw [List.eq_of_mem_replicate hb]; decide) (by rw [runeAt_5B]; decide)
  have hc : containsRune (ascii "[") (((0x5B : Nat) : Int)) = true := by decide
  have h0 : (0x2D :: 0x2D :: (opening n ++ r)) = [0x2D, 0x2D] ++ (opening n ++ r) := rfl
  simp only [List.append_assoc, List.cons_append, List.nil_append, Nat.cast_one,
    List.length_replicate] at hrun
  rw [h0, lexBlockComment, hdash]
  simp only [opening, List.cons_append, next_L, runeAt_5B, List.take_succ_cons,
    List.take_zero, List.drop_succ_cons, List.drop_zero, List.append_assoc, Nat.cast_one,
    List.singleton_append, List.nil_append, hrun, accept_L, hc, if_true]


theorem step_halted (l : Lexer) : step ⟨l, .halted⟩ = ⟨l, .halted⟩ := rfl

theorem run_halted (n : Nat) (l : Lexer) : run n ⟨l, .halted⟩ = ⟨l, .halted⟩ := by
  induction n with
  | zero => rfl
  | succ n ih => rw [run_succ, step_halted, ih]

theorem run_halted_le {c : Config} {n m : Nat} (h : (run n c).state = .halted) (hnm : n ≤ m) :
    run m c = run n c := by
  obtain ⟨d, rfl⟩ := Nat.exists_eq_add_of_le hnm
  rw [run_add]
  generalize run n c = c1 at h ⊢
  obtain ⟨l, st⟩ := c1
  simp only at h
  subst h
  exact run_halted d l

/-- The Items a halting scan sends are determined by the input. -/
theorem Yields_unique {input : List Nat} {a b : List Item} (ha : Yields input a)
    (hb : Yields input b) : a = b := by
  obtain ⟨n, hn, rfl⟩ := ha
  obtain ⟨m, hm, rfl⟩ := hb
  rcases Nat.le_total n m with h | h
  · rw [run_halted_le hn h]
  · rw [run_halted_le hm h]

/-- A long-bracket string with a plain body is one StringLiteral spanning the
whole input, followed by EOF. -/
theorem longString_yields (n : Nat) (body : List Nat) (hbody : plainBody n body = true) :
    Yields (opening n ++ body ++ closing n)
      [⟨.StringLiteral, 0, opening n ++ body ++ closing n⟩,
        ⟨.EOF, ((opening n ++ body ++ closing n).length : Int), []⟩] := by
  have hin : opening n ++ body ++ closing n =
      0x5B :: (List.replicate n 0x3D ++ 0x5B :: (body ++ closing n)) := by simp [opening]
  have h1 := lexText_bracket [] (List.replicate n 0x3D ++ 0x5B :: (body ++ closing n)) 0 []
  rw [← hin] at h1
  simp only [List.length_nil, Nat.cast_zero] at h1
  obtain ⟨pre1, x1, w1, hpre, hx1, h2⟩ := lexDoubleBracket_entry n [] body
    (List.replicate n 0x3D ++ [0x5D]) 0 ((1 : Nat) : Int) [] hbody
  have hemit := emit_L [] (pre1 ++ x1 ++ closing n) [] ((1 : Nat) : Int) [] .StringLiteral
  simp only [List.nil_append, List.length_nil, Nat.cast_zero] at hemit hpre
  obtain ⟨k, hk⟩ := bracketLoop_run n (.doubleBracketLoop n) (fun l1 => emit l1 .StringLiteral)
    (fun _ => rfl) [] 0 [] x1.length x1 pre1 w1 _ le_rfl hx1 hemit
  have h3 := lexText_eof (pre1 ++ x1 ++ closing n) ((pre1 ++ x1 ++ closing n).length : Int)
    ((1 : Nat) : Int) [⟨.StringLiteral, 0, pre1 ++ x1 ++ closing n⟩]
  have hc : closing n ++ [] = 0x5D :: (List.replicate n 0x3D ++ [0x5D]) := by simp [closing]
  rw [hc] at hk
  have hc2 : opening n ++ body ++ 0x5D :: (List.replicate n 0x3D ++ [0x5D]) =
      opening n ++ body ++ closing n := by simp [closing]
  rw [hc2] at h2
  have e1 : run (k + 1 + 1 + 1) ⟨L [] (opening n ++ body ++ closing n) 0 0 [], .lexText⟩ = _ :=
    run_step .lexText (k + 1 + 1) h1
  have e2 : run (k + 1 + 1) ⟨L [] (opening n ++ body ++ closing n) 0 ((1 : Nat) : Int) [],
      .lexDoubleBracketStringLiteral⟩ = _ :=
    run_step .lexDoubleBracketStringLiteral (k + 1) h2
  have e3 := run_add k 1 ⟨L pre1 (x1 ++ 0x5D :: (List.replicate n 0x3D ++ [0x5D])) 0 w1 [],
    .doubleBracketLoop n⟩
  have e4 : run 1 ⟨_, .lexText⟩ = _ := step_of_stateFn .lexText h3
  refine ⟨k + 1 + 1 + 1, ?_⟩
  rw [NewLexer_eq, e1, e2, e3, hk, e4, hpre]
  exact ⟨rfl, rfl⟩


/-- A block comment with a plain body is skipped: the only Item is EOF. -/
theorem blockComment_yields (n : Nat) (body : List Nat) (hbody : plainBody n body = true) :
    Yields (0x2D :: 0x2D :: (opening n ++ body ++ closing n))
      [⟨.EOF, ((0x2D :: 0x2D :: (opening n ++ body ++ closing n)).length : Int), []⟩] := by
  have hin : (0x2D :: 0x2D :: (opening n ++ body ++ closing n)) =
      0x2D :: 0x2D :: 0x5B :: (List.replicate n 0x3D ++ 0x5B :: (body ++ closing n)) := by
    simp [opening]
  have h1 := lexText_blockComment [] (List.replicate n 0x3D ++ 0x5B :: (body ++ closing n)) 0 []
  rw [← hin] at h1
  simp only [List.length_nil, Nat.cast_zero] at h1
  have h2 := lexBlockComment_entry n [] (body ++ closing n) 0 ((1 : Nat) : Int) []
  rw [← List.append_assoc] at h2
  simp only [List.nil_append] at h2
  obtain ⟨k, hk⟩ := bracketLoop_run n (.blockCommentLoop n) (fun l1 => some (ignore l1))
    (fun _ => rfl) [] 0 [] body.length body (0x2D :: 0x2D :: opening n) ((1 : Nat) : Int) _
    le_rfl hbody rfl
  rw [ignore_L] at hk
  have h3 := lexText_eof (0x2D :: 0x2D :: opening n ++ body ++ closing n)
    ((0x2D :: 0x2D :: opening n ++ body ++ closing n).length : Int) ((1 : Nat) : Int) []
  have e1 : run (k + 1 + 1 + 1)
      ⟨L [] (0x2D :: 0x2D :: (opening n ++ body ++ closing n)) 0 0 [], .lexText⟩ = _ :=
    run_step .lexText (k + 1 + 1) h1
  have e2 : run (k + 1 + 1)
      ⟨L [] (0x2D :: 0x2D :: (opening n ++ body ++ closing n)) 0 ((1 : Nat) : Int) [],
        .lexBlockComment⟩ = _ :=
    run_step .lexBlockComment (k + 1) h2
  have e3 := run_add k 1 ⟨L (0x2D :: 0x2D :: opening n) (body ++ closing n) 0
    ((1 : Nat) : Int) [], .blockCommentLoop n⟩
  have e4 : run 1 ⟨_, .lexText⟩ = _ := step_of_stateFn .lexText h3
  simp only [List.append_nil] at hk
  refine ⟨k + 1 + 1 + 1, ?_⟩
  rw [NewLexer_eq, e1, e2, e3, hk, e4]
  exact ⟨rfl, rfl⟩

theorem plainBody_of_no_bracket (n : Nat) : ∀ body : List Nat,
    (∀ b ∈ body, b ≠ 0x5D ∧ b ≠ 0x5C) → plainBody n body = true
  | [], _ => rfl
  | b :: x, h => by
    have hb := h b (List.mem_cons_self _ _)
    simp only [plainBody, Bool.and_eq_true, bne_iff_ne, ne_eq, Bool.or_eq_true]
    exact ⟨⟨hb.2, Or.inl hb.1⟩,
      plainBody_of_no_bracket n x (fun c hc => h c (List.mem_cons_of_mem _ hc))⟩

/-- C4 (counterexample): in `[[a]b]]` the body `a]b` has no backslash and the
closing `]]` occurs only at the end, yet the scan ends with the Error
"didn't find closing bracket" instead of a StringLiteral and EOF. -/
theorem C4_counterexample :
    Yields (ascii "[[a]b]]") [⟨.Error, 0, ascii "didn't find closing bracket"⟩] ∧
      ¬ Yields (ascii "[[a]b]]")
        [⟨.StringLiteral, 0, ascii "[[a]b]]"⟩, ⟨.EOF, 7, []⟩] := by
  have h : Yields (ascii "[[a]b]]") [⟨.Error, 0, ascii "didn't find closing bracket"⟩] :=
    ⟨4, by decide⟩
  refine ⟨h, fun h2 => ?_⟩
  have := Yields_unique h h2
  revert this
  decide

/-- C5: for every level `n` and every body containing neither `]` nor a
backslash, the long-bracket string yields exactly two Items: StringLiteral with
Begin 0 and the whole input as text, then EOF. -/
theorem C5_long_bracket_exact_span (n : Nat) (body : List Nat)
    (hbody : ∀ b ∈ body, b ≠ 0x5D ∧ b ≠ 0x5C) :
    Yields (opening n ++ body ++ closing n)
      [⟨.StringLiteral, 0, opening n ++ body ++ closing n⟩,
        ⟨.EOF, ((opening n ++ body ++ closing n).length : Int), []⟩] :=
  longString_yields n body (plainBody_of_no_bracket n body hbody)

theorem C5_long_bracket_exact_span_witness :
    Yields (ascii "[==[hi]==]") [⟨.StringLiteral, 0, ascii "[==[hi]==]"⟩, ⟨.EOF, 10, []⟩] :=
  C5_long_bracket_exact_span 2 (ascii "hi") (by decide)

/-! ## Quoted strings -/

theorem unitsBody_tail (q b : Nat) (x : List Nat) (hb : b ≠ 0x5C)
    (h : unitsBody q (b :: x) = true) : b ≠ q ∧ unitsBody q x = true := by
  cases x with
  | nil => simp only [unitsBody, Bool.and_eq_true, bne_iff_ne] at h; exact ⟨h.1, rfl⟩
  | cons c r =>
    simp only [unitsBody, hb, if_false, Bool.and_eq_true, bne_iff_ne] at h
    exact h

theorem unitsBody_drop_high (q : Nat) : ∀ (j : Nat) (x : List Nat),
    (∀ c ∈ x.take j, 0x80 ≤ c) → unitsBody q x = true → unitsBody q (x.drop j) = true
  | 0, x, _, h => by simpa using h
  | j + 1, [], _, _ => by simp [unitsBody]
  | j + 1, c :: x, hc, h => by
    have hc0 : 0x80 ≤ c := hc c (by simp)
    have := unitsBody_tail q c x (by omega) h
    simpa using unitsBody_drop_high q j x
      (fun d hd => hc d (by rw [List.take_succ_cons]; exact List.mem_cons_of_mem _ hd)) this.2

theorem runeAt_body (b : Nat) (x t : List Nat) (stop : Nat) (hstop : stop < 0x80) :
    (runeAt (b :: (x ++ stop :: t))).2 - 1 ≤ x.length ∧
      (∀ c ∈ x.take ((runeAt (b :: (x ++ stop :: t))).2 - 1), 0x80 ≤ c) ∧
      1 ≤ (runeAt (b :: (x ++ stop :: t))).2 := by
  obtain ⟨h1, h2⟩ := runeAt_width_body b x t stop hstop
  have hc := decodeRune_cont b (x ++ stop :: t)
  simp only [List.length_cons] at h1
  refine ⟨by omega, ?_, h2⟩
  intro c hcm
  apply hc c
  change c ∈ List.take ((runeAt (b :: (x ++ stop :: t))).2 - 1) (x ++ stop :: t)
  rw [List.take_append_of_le_length (by omega)]
  exact hcm


theorem runeAt_stop_ne (b : Nat) (r : List Nat) (c : Nat) (hc : c < 0x80) (hbc : b ≠ c) :
    (runeAt (b :: r)).1 ≠ (c : Int) := by
  by_cases hlt : b < 0x80
  · rw [runeAt_ascii b r hlt]
    simp only [ne_eq, Nat.cast_inj]
    exact hbc
  · have := decodeRune_high b r (by omega)
    simp only [runeAt]
    omega

theorem take_drop_body (k : Nat) (b : Nat) (x rest : List Nat) (hk : k - 1 ≤ x.length)
    (hk1 : 1 ≤ k) :
    List.take k (b :: (x ++ rest)) = b :: x.take (k - 1) ∧
      List.drop k (b :: (x ++ rest)) = x.drop (k - 1) ++ rest := by
  obtain ⟨j, rfl⟩ : ∃ j, k = j + 1 := ⟨k - 1, by omega⟩
  simp only [Nat.add_sub_cancel] at hk
  simp [List.take_append_of_le_length hk, List.drop_append_of_le_length hk]

theorem quotedIteration_close (q : Nat) (hq : q < 0x80) (hq5C : q ≠ 0x5C) (st : State)
    (pre t : List Nat) (s w : Int) (it : List Item) :
    quotedIteration (q : Int) st (L pre (q :: t) s w it) =
      (emit (L (pre ++ [q]) t s ((1 : Nat) : Int) it) .StringLiteral).map
        (fun l2 => (l2, State.lexText)) := by
  have h5C : ¬ ((q : Int) = 0x5C) := by exact_mod_cast hq5C
  simp only [quotedIteration, next_L, runeAt_ascii q t hq, List.take_succ_cons, List.take_zero,
    List.drop_succ_cons, List.drop_zero, h5C, if_false, if_true]

theorem quotedIteration_unit (q : Nat) (hq : q < 0x80) (st : State)
    (pre : List Nat) (b : Nat) (x t : List Nat) (s w : Int) (it : List Item)
    (hx : unitsBody q (b :: x) = true) :
    ∃ (pre1 x1 : List Nat) (w1 : Int), x1.length < (b :: x).length ∧
      unitsBody q x1 = true ∧ pre1 ++ x1 = pre ++ b :: x ∧
      quotedIteration (q : Int) st (L pre (b :: x ++ q :: t) s w it) =
        some (L pre1 (x1 ++ q :: t) s w1 it, st) := by
  by_cases hb : b = 0x5C
  · subst hb
    cases x with
    | nil => simp [unitsBody] at hx
    | cons c y =>
      simp only [unitsBody, if_true] at hx
      obtain ⟨hk, hcont, hk1⟩ := runeAt_body c y t q hq
      obtain ⟨htake, hdrop⟩ := take_drop_body _ c y (q :: t) hk hk1
      refine ⟨pre ++ [0x5C] ++ c :: y.take ((runeAt (c :: (y ++ q :: t))).2 - 1),
        y.drop ((runeAt (c :: (y ++ q :: t))).2 - 1),
        ((runeAt (c :: (y ++ q :: t))).2 : Int), ?_, unitsBody_drop_high q _ y hcont hx, ?_, ?_⟩
      · simp only [List.length_drop, List.length_cons]; omega
      · simp
      · simp only [quotedIteration, List.cons_append, next_L,
          runeAt_ascii 0x5C _ (show 0x5C < 0x80 by norm_num), List.take_succ_cons,
          List.take_zero, List.drop_succ_cons, List.drop_zero]
        rw [if_pos (by norm_num), htake, hdrop]
        rfl
  · obtain ⟨hbq, hx'⟩ := unitsBody_tail q b x hb hx
    obtain ⟨hk, hcont, hk1⟩ := runeAt_body b x t q hq
    obtain ⟨htake, hdrop⟩ := take_drop_body _ b x (q :: t) hk hk1
    refine ⟨pre ++ b :: x.take ((runeAt (b :: (x ++ q :: t))).2 - 1),
      x.drop ((runeAt (b :: (x ++ q :: t))).2 - 1),
      ((runeAt (b :: (x ++ q :: t))).2 : Int), ?_, unitsBody_drop_high q _ x hcont hx', ?_, ?_⟩
    · simp only [List.length_drop, List.length_cons]; omega
    · simp
    · simp only [quotedIteration, List.cons_append, next_L]
      have h5C : ¬ ((runeAt (b :: (x ++ q :: t))).1 = 0x5C) := by
        simpa using runeAt_stop_ne b (x ++ q :: t) 0x5C (by norm_num) hb
      rw [if_neg h5C, if_neg (runeAt_stop_ne b _ q hq hbq), htake, hdrop]

/-- The `for` loop of a quoted-string state runs through a body of units and
emits the StringLiteral at the closing quote. -/
theorem quotedLoop_run (q : Nat) (hq : q < 0x80) (hq5C : q ≠ 0x5C) (st : State)
    (hst : ∀ l, stateFn st l = quotedIteration (q : Int) st l)
    (t : List Nat) (s : Int) (it : List Item) :
    ∀ (m : Nat) (x pre : List Nat) (w : Int) (lf : Lexer), x.length ≤ m →
      unitsBody q x = true →
      emit (L (pre ++ x ++ [q]) t s ((1 : Nat) : Int) it) .StringLiteral = some lf →
      ∃ k, run k ⟨L pre (x ++ q :: t) s w it, st⟩ = ⟨lf, .lexText⟩ := by
  intro m
  induction m with
  | zero =>
    intro x pre w lf hm _ hclose
    obtain rfl : x = [] := List.length_eq_zero.1 (Nat.le_zero.1 hm)
    have h1 : stateFn st (L pre ([] ++ q :: t) s w it) = some (lf, .lexText) := by
      rw [hst, List.nil_append, quotedIteration_close q hq hq5C]
      simp only [List.append_nil] at hclose
      rw [hclose]; rfl
    exact ⟨1, by rw [run_step st 0 h1]; rfl⟩
  | succ m ih =>
    intro x pre w lf hm hx hclose
    cases x with
    | nil =>
      have h1 : stateFn st (L pre ([] ++ q :: t) s w it) = some (lf, .lexText) := by
        rw [hst, List.nil_append, quotedIteration_close q hq hq5C]
        simp only [List.append_nil] at hclose
        rw [hclose]; rfl
      exact ⟨1, by rw [run_step st 0 h1]; rfl⟩
    | cons b x =>
      obtain ⟨pre1, x1, w1, hlen, hx1, hpre, hit⟩ :=
        quotedIteration_unit q hq st pre b x t s w it hx
      have hclose1 : emit (L (pre1 ++ x1 ++ [q]) t s ((1 : Nat) : Int) it) .StringLiteral
          = some lf := by
        rw [hpre]; exact hclose
      obtain ⟨k, hk⟩ := ih x1 pre1 w1 lf (by simp only [List.length_cons] at hlen hm; omega)
        hx1 hclose1
      exact ⟨k + 1, by rw [run_step st k (by rw [hst]; exact hit)]; exact hk⟩


/-- The dispatch state on a quote character. -/
theorem lexText_quote (q : Nat) (hq : q = 0x27 ∨ q = 0x22) (p r : List Nat) (wd : Int)
    (it : List Item) :
    lexText (L p (q :: r) (p.length : Int) wd it) =
      some (L p (q :: r) (p.length : Int) ((1 : Nat) : Int) it,
        if q = 0x27 then .lexSingleQuotedStringLiteral else .lexDoubleQuotedStringLiteral) := by
  have hr : runeAt (q :: r) = ((q : Int), 1) := runeAt_ascii q r (by omega)
  have h1 := lexText_L_other [] (q :: r) p (p.length : Int) wd it (by simp)
    (by rw [hr]; rcases hq with rfl | rfl <;> decide)
    (by rw [hr]; rcases hq with rfl | rfl <;> decide)
    (by rw [hr]; rcases hq with rfl | rfl <;> decide)
  simp only [List.nil_append, List.append_nil] at h1
  rw [h1, lexTextComments_L, lexTextTail_L, hr]
  rcases hq with rfl | rfl
  · rw [if_neg (by simp [ascii, List.isPrefixOf]), if_neg (by simp [ascii, List.isPrefixOf]),
      if_neg (by decide), if_pos (by decide), if_pos rfl]
  · rw [if_neg (by simp [ascii, List.isPrefixOf]), if_neg (by simp [ascii, List.isPrefixOf]),
      if_neg (by decide), if_neg (by decide), if_pos (by decide), if_neg (by decide)]

/-- C6: for each quote character `q` and every body that is a concatenation of
units (one byte other than `q` and backslash, or a backslash followed by any one
byte), the input `q + body + q` yields exactly the StringLiteral of the whole
input at Begin 0, then EOF. -/
theorem C6_quoted_string_escape_skip (q : Nat) (hq : q = 0x27 ∨ q = 0x22) (body : List Nat)
    (hbody : unitsBody q body = true) :
    Yields (q :: (body ++ [q]))
      [⟨.StringLiteral, 0, q :: (body ++ [q])⟩,
        ⟨.EOF, ((q :: (body ++ [q])).length : Int), []⟩] := by
  have hq80 : q < 0x80 := by omega
  have hq5C : q ≠ 0x5C := by omega
  have h1 := lexText_quote q hq [] (body ++ [q]) 0 []
  simp only [List.length_nil, Nat.cast_zero] at h1
  have hemit := emit_L [] ([q] ++ body ++ [q]) [] ((1 : Nat) : Int) [] .StringLiteral
  simp only [List.nil_append, List.length_nil, Nat.cast_zero] at hemit
  have h3 := lexText_eof ([q] ++ body ++ [q]) (([q] ++ body ++ [q]).length : Int)
    ((1 : Nat) : Int) [⟨.StringLiteral, 0, [q] ++ body ++ [q]⟩]
  have e4 : run 1 ⟨_, .lexText⟩ = _ := step_of_stateFn .lexText h3
  have hnext : next (L [] (q :: (body ++ [q])) 0 ((1 : Nat) : Int) []) =
      some ((q : Int), L [q] (body ++ [q]) 0 ((1 : Nat) : Int) []) := by
    rw [next_L, runeAt_ascii q _ hq80]; rfl
  rcases hq with rfl | rfl
  · obtain ⟨k, hk⟩ := quotedLoop_run 0x27 hq80 hq5C .singleQuotedLoop (fun _ => rfl) [] 0 []
      body.length body [0x27] ((1 : Nat) : Int) _ le_rfl hbody hemit
    have h2 : stateFn .lexSingleQuotedStringLiteral
        (L [] (0x27 :: (body ++ [0x27])) 0 ((1 : Nat) : Int) []) =
        some (L [0x27] (body ++ [0x27]) 0 ((1 : Nat) : Int) [], .singleQuotedLoop) := by
      simp only [stateFn, lexSingleQuotedStringLiteral, hnext]; rfl
    have e1 : run (k + 1 + 1 + 1) ⟨L [] (0x27 :: (body ++ [0x27])) 0 0 [], .lexText⟩ = _ :=
      run_step .lexText (k + 1 + 1) h1
    have e2 := run_step .lexSingleQuotedStringLiteral (k + 1) h2
    have e3 := run_add k 1 ⟨L [0x27] (body ++ [0x27]) 0 ((1 : Nat) : Int) [], .singleQuotedLoop⟩
    refine ⟨k + 1 + 1 + 1, ?_⟩
    rw [NewLexer_eq, e1, if_pos rfl, e2, e3, hk, e4]
    exact ⟨rfl, rfl⟩
  · obtain ⟨k, hk⟩ := quotedLoop_run 0x22 hq80 hq5C .doubleQuotedLoop (fun _ => rfl) [] 0 []
      body.length body [0x22] ((1 : Nat) : Int) _ le_rfl hbody hemit
    have h2 : stateFn .lexDoubleQuotedStringLiteral
        (L [] (0x22 :: (body ++ [0x22])) 0 ((1 : Nat) : Int) []) =
        some (L [0x22] (body ++ [0x22]) 0 ((1 : Nat) : Int) [], .doubleQuotedLoop) := by
      simp only [stateFn, lexDoubleQuotedStringLiteral, hnext]; rfl
    have e1 : run (k + 1 + 1 + 1) ⟨L [] (0x22 :: (body ++ [0x22])) 0 0 [], .lexText⟩ = _ :=
      run_step .lexText (k + 1 + 1) h1
    have e2 := run_step .lexDoubleQuotedStringLiteral (k + 1) h2
    have e3 := run_add k 1 ⟨L [0x22] (body ++ [0x22]) 0 ((1 : Nat) : Int) [], .doubleQuotedLoop⟩
    refine ⟨k + 1 + 1 + 1, ?_⟩
    rw [NewLexer_eq, e1, if_neg (by decide), e2, e3, hk, e4]
    exact ⟨rfl, rfl⟩

theorem C6_quoted_string_escape_skip_witness :
    Yields (ascii "'a\\'b'") [⟨.StringLiteral, 0, ascii "'a\\'b'"⟩, ⟨.EOF, 6, []⟩] :=
  C6_quoted_string_escape_skip 0x27 (Or.inl rfl) (ascii "a\\'b") (by decide)


theorem noUnescapedQuote_tail (q b : Nat) (x : List Nat) (hb : b ≠ 0x5C)
    (h : noUnescapedQuote q (b :: x) = true) : b ≠ q ∧ noUnescapedQuote q x = true := by
  cases x with
  | nil => simp only [noUnescapedQuote, bne_iff_ne] at h; exact ⟨h, rfl⟩
  | cons c r =>
    simp only [noUnescapedQuote, hb, if_false, Bool.and_eq_true, bne_iff_ne] at h
    exact h

theorem noUnescapedQuote_drop_high (q : Nat) : ∀ (j : Nat) (x : List Nat),
    (∀ c ∈ x.take j, 0x80 ≤ c) → noUnescapedQuote q x = true →
      noUnescapedQuote q (x.drop j) = true
  | 0, x, _, h => by simpa using h
  | j + 1, [], _, _ => by simp [noUnescapedQuote]
  | j + 1, c :: x, hc, h => by
    have hc0 : 0x80 ≤ c := hc c (by simp)
    have := noUnescapedQuote_tail q c x (by omega) h
    simpa using noUnescapedQuote_drop_high q j x
      (fun d hd => hc d (by rw [List.take_succ_cons]; exact List.mem_cons_of_mem _ hd)) this.2

/-- What `next` leaves of a text without an unescaped quote again has none. -/
theorem noUnescapedQuote_next (q : Nat) (x : List Nat) (h : noUnescapedQuote q x = true)
    (hx : ∀ b r, x = b :: r → b ≠ 0x5C) :
    noUnescapedQuote q (x.drop (runeAt x).2) = true := by
  cases x with
  | nil => simp [noUnescapedQuote]
  | cons b r =>
    have hb := hx b r rfl
    have h1 := decodeRune_width_pos b r
    have hc := decodeRune_cont b r
    obtain ⟨j, hj⟩ : ∃ j, (runeAt (b :: r)).2 = j + 1 := ⟨(decodeRune (b :: r)).2 - 1, by
      simp only [runeAt]; omega⟩
    rw [hj, List.drop_succ_cons]
    apply noUnescapedQuote_drop_high q j r _ (noUnescapedQuote_tail q b r hb h).2
    intro c hcm
    apply hc c
    have : (decodeRune (b :: r)).2 - 1 = j := by simp only [runeAt] at hj; omega
    rw [this]; exact hcm

theorem quotedIteration_open (q : Nat) (hq : q < 0x80) (st : State) (pre x : List Nat)
    (s w : Int) (it : List Item) (hx : noUnescapedQuote q x = true) :
    ∃ (pre1 x1 : List Nat) (w1 : Int), noUnescapedQuote q x1 = true ∧
      quotedIteration (q : Int) st (L pre x s w it) = some (L pre1 x1 s w1 it, st) := by
  cases x with
  | nil =>
    refine ⟨pre, [], 0, rfl, ?_⟩
    simp only [quotedIteration, next_L, runeAt_nil, List.take_nil, List.drop_nil,
      List.append_nil, Nat.cast_zero]
    rw [if_neg (by decide), if_neg (by simp only [eof]; omega)]
  | cons b r =>
    by_cases hb : b = 0x5C
    · subst hb
      have hr : noUnescapedQuote q r = true ∧ True ∨ ∃ c y, r = c :: y ∧
          noUnescapedQuote q y = true := by
        cases r with
        | nil => exact Or.inl ⟨rfl, trivial⟩
        | cons c y =>
          simp only [noUnescapedQuote, if_true] at hx
          exact Or.inr ⟨c, y, rfl, hx⟩
      have hk := runeAt_width_le r
      refine ⟨pre ++ [0x5C] ++ r.take (runeAt r).2, r.drop (runeAt r).2,
        ((runeAt r).2 : Int), ?_, ?_⟩
      · rcases hr with ⟨hr, _⟩ | ⟨c, y, rfl, hy⟩
        · cases r with
          | nil => simp [noUnescapedQuote]
          | cons c y =>
            simp only [noUnescapedQuote, if_true] at hx
            have h1 := decodeRune_width_pos c y
            obtain ⟨j, hj⟩ : ∃ j, (runeAt (c :: y)).2 = j + 1 :=
              ⟨(decodeRune (c :: y)).2 - 1, by simp only [runeAt]; omega⟩
            rw [hj, List.drop_succ_cons]
            apply noUnescapedQuote_drop_high q j y _ hx
            intro d hd
            apply decodeRune_cont c y d
            have : (decodeRune (c :: y)).2 - 1 = j := by simp only [runeAt] at hj; omega
            rw [this]; exact hd
        · have h1 := decodeRune_width_pos c y
          obtain ⟨j, hj⟩ : ∃ j, (runeAt (c :: y)).2 = j + 1 :=
            ⟨(decodeRune (c :: y)).2 - 1, by simp only [runeAt]; omega⟩
          rw [hj, List.drop_succ_cons]
          apply noUnescapedQuote_drop_high q j y _ hy
          intro d hd
          apply decodeRune_cont c y d
          have : (decodeRune (c :: y)).2 - 1 = j := by simp only [runeAt] at hj; omega
          rw [this]; exact hd
      · simp only [quotedIteration, next_L, runeAt_ascii 0x5C _ (show 0x5C < 0x80 by norm_num),
          List.take_succ_cons, List.take_zero, List.drop_succ_cons, List.drop_zero]
        rw [if_pos (by norm_num)]
        rfl
    · obtain ⟨hbq, _⟩ := noUnescapedQuote_tail q b r hb hx
      have h5C : ¬ ((runeAt (b :: r)).1 = 0x5C) := by
        simpa using runeAt_stop_ne b r 0x5C (by norm_num) hb
      refine ⟨pre ++ (b :: r).take (runeAt (b :: r)).2, (b :: r).drop (runeAt (b :: r)).2,
        ((runeAt (b :: r)).2 : Int),
        noUnescapedQuote_next q (b :: r) hx (fun c y h => by cases h; exact hb), ?_⟩
      simp only [quotedIteration, next_L]
      rw [if_neg h5C, if_neg (runeAt_stop_ne b _ q hq hbq)]

/-- Inside the loop of a quoted-string state, a text without an unescaped quote
keeps the scanner in the loop for ever, sending nothing. -/
theorem quotedOpen_run (q : Nat) (hq : q < 0x80) (st : State)
    (hst : ∀ l, stateFn st l = quotedIteration (q : Int) st l) (s : Int) (it : List Item) :
    ∀ (n : Nat) (pre x : List Nat) (w : Int), noUnescapedQuote q x = true →
      ∃ (pre1 x1 : List Nat) (w1 : Int), noUnescapedQuote q x1 = true ∧
        run n ⟨L pre x s w it, st⟩ = ⟨L pre1 x1 s w1 it, st⟩ := by
  intro n
  induction n with
  | zero => intro pre x w hx; exact ⟨pre, x, w, hx, rfl⟩
  | succ n ih =>
    intro pre x w hx
    obtain ⟨pre1, x1, w1, hx1, hit⟩ := quotedIteration_open q hq st pre x s w it hx
    obtain ⟨pre2, x2, w2, hx2, hrun⟩ := ih pre1 x1 w1 hx1
    exact ⟨pre2, x2, w2, hx2, by rw [run_step st n (by rw [hst]; exact hit)]; exact hrun⟩

/-! ## What a step sends -/

theorem Same.refl (l : Lexer) : Same l l := ⟨rfl, rfl⟩

theorem Same.trans {a b c : Lexer} (h1 : Same a b) (h2 : Same b c) : Same a c :=
  ⟨h2.1.trans h1.1, h2.2.trans h1.2⟩

theorem next_same {l l1 : Lexer} {r : Int} (h : next l = some (r, l1)) : Same l l1 := by
  unfold next at h
  split_ifs at h
  · cases h; exact ⟨rfl, rfl⟩
  · split at h
    · cases h
    · cases h; exact ⟨rfl, rfl⟩

theorem backup_same (l : Lexer) : Same l (backup l) := ⟨rfl, rfl⟩

theorem ignore_same (l : Lexer) : Same l (ignore l) := ⟨rfl, rfl⟩

theorem peek_same {l l1 : Lexer} {r : Int} (h : peek l = some (r, l1)) : Same l l1 := by
  unfold peek at h
  split at h
  · cases h
  · rename_i r0 l0 hn
    cases h
    exact (next_same hn).trans (backup_same _)

theorem accept_same {valid : List Nat} {l l1 : Lexer} {b : Bool}
    (h : accept valid l = some (b, l1)) : Same l l1 := by
  unfold accept at h
  split at h
  · cases h
  · rename_i r0 l0 hn
    split_ifs at h
    · cases h; exact next_same hn
    · cases h; exact (next_same hn).trans (backup_same _)

theorem acceptRunLoop_same (valid : List Nat) : ∀ (clock n : Nat) (l l1 : Lexer) (m : Nat),
    acceptRunLoop valid clock n l = some (m, l1) → Same l l1
  | 0, n, l, l1, m, h => by
    simp only [acceptRunLoop] at h; cases h; exact Same.refl _
  | clock + 1, n, l, l1, m, h => by
    simp only [acceptRunLoop] at h
    split at h
    · cases h
    · rename_i r0 l0 hn
      split_ifs at h
      · exact (next_same hn).trans (acceptRunLoop_same valid clock _ _ _ _ h)
      · cases h; exact next_same hn

theorem acceptRun_same {valid : List Nat} {l l1 : Lexer} {m : Nat}
    (h : acceptRun valid l = some (m, l1)) : Same l l1 := by
  unfold acceptRun at h
  split at h
  · cases h
  · rename_i n0 l0 hn
    cases h
    exact (acceptRunLoop_same valid _ _ _ _ _ hn).trans (backup_same _)

theorem skipSpaceLoop_same : ∀ (clock : Nat) (r : Int) (l l1 : Lexer) (r1 : Int),
    skipSpaceLoop clock r l = some (r1, l1) → Same l l1
  | 0, r, l, l1, r1, h => by
    simp only [skipSpaceLoop] at h; cases h; exact Same.refl _
  | clock + 1, r, l, l1, r1, h => by
    simp only [skipSpaceLoop] at h
    split_ifs at h
    · split at h
      · cases h
      · rename_i r0 l0 hn
        exact (next_same hn).trans (skipSpaceLoop_same clock _ _ _ _ h)
    · cases h; exact Same.refl _

theorem skipSpace_same {l l1 : Lexer} (h : skipSpace l = some l1) : Same l l1 := by
  unfold skipSpace at h
  split at h
  · cases h
  · rename_i r0 l0 hn
    split at h
    · cases h
    · rename_i r2 l2 hs
      cases h
      exact ((next_same hn).trans (skipSpaceLoop_same _ _ _ _ _ hs)).trans
        ((backup_same _).trans (ignore_same _))

theorem emit_items {l l1 : Lexer} {t : Token} (h : emit l t = some l1) :
    l1.input = l.input ∧ ∃ i : Item, i.Typ = t ∧ l1.items = l.items ++ [i] := by
  unfold emit at h
  split at h
  · cases h
  · rename_i v hv
    cases h
    exact ⟨rfl, _, rfl, rfl⟩


theorem Outcome.silent {l l1 : Lexer} {st1 : State} (h : Same l l1) (h1 : st1 ≠ .halted)
    (h2 : st1 ≠ .panicked) : Outcome l l1 st1 :=
  ⟨h.1, Or.inr ⟨h1, h2, [], by simp [h.2], by simp⟩⟩

theorem Outcome.emitted {l l0 l1 : Lexer} {t : Token} {st1 : State} (h : Same l l0)
    (he : emit l0 t = some l1) (ht : t ≠ .EOF ∧ t ≠ .Error) (h1 : st1 ≠ .halted)
    (h2 : st1 ≠ .panicked) : Outcome l l1 st1 := by
  obtain ⟨hi, i, hit, hitems⟩ := emit_items he
  refine ⟨hi.trans h.1, Or.inr ⟨h1, h2, [i], by rw [hitems, h.2], ?_⟩⟩
  intro j hj
  rw [List.mem_singleton] at hj
  subst hj
  simp [terminal, hit, ht.1, ht.2]

theorem Outcome.errorf {l l0 : Lexer} (msg : String) (h : Same l l0) :
    Outcome l (errorf l0 msg).1 (errorf l0 msg).2 :=
  ⟨h.1, Or.inl ⟨rfl, ⟨.Error, l0.start, ascii msg⟩, rfl, by
    show l0.items ++ [_] = l.items ++ [_]
    rw [h.2]⟩⟩

theorem Outcome.eof {l l0 l1 : Lexer} (h : Same l l0) (he : emit l0 .EOF = some l1) :
    Outcome l l1 .halted := by
  obtain ⟨hi, i, hit, hitems⟩ := emit_items he
  exact ⟨hi.trans h.1, Or.inl ⟨rfl, i, by simp [terminal, hit], by rw [hitems, h.2]⟩⟩

theorem TokenList_kinds : ∀ t ∈ TokenList, tokenMapGet t ≠ .EOF ∧ tokenMapGet t ≠ .Error := by
  decide!

theorem matchTokens_outcome : ∀ (ts : List (List Nat)) (l : Lexer) (r : Matched),
    (∀ t ∈ ts, tokenMapGet t ≠ .EOF ∧ tokenMapGet t ≠ .Error) →
    matchTokens ts l = some r →
    match r with
    | .emitted l1 => Outcome l l1 .lexText
    | .fallThrough l1 => Same l l1
  | [], l, r, _, h => by
    simp only [matchTokens] at h; cases h; exact Same.refl _
  | t :: more, l, r, hts, h => by
    simp only [matchTokens] at h
    split at h
    · cases h
    · rename_i rest hrest
      have hl1 : Same l { l with pos := l.pos + (t.length : Int) } := ⟨rfl, rfl⟩
      by_cases hm : lowerHasPrefix
          (if rest.length > t.length then rest.take t.length else rest) t = true
      · rw [if_pos hm] at h
        by_cases hk : IsKeyword (tokenMapGet t) t = true
        · rw [if_pos hk] at h
          split at h
          · cases h
          · rename_i l2 ha
            cases h
            exact ⟨(accept_same ha).1, (accept_same ha).2⟩
          · rename_i l2 ha
            cases he : emit l2 (tokenMapGet t) with
            | none => rw [he] at h; cases h
            | some l3 =>
              rw [he] at h; cases h
              exact Outcome.emitted (hl1.trans (accept_same ha)) he
                (hts t (List.mem_cons_self _ _)) (by decide) (by decide)
        · rw [if_neg hk] at h
          cases he : emit { l with pos := l.pos + (t.length : Int) } (tokenMapGet t) with
          | none => rw [he] at h; cases h
          | some l3 =>
            rw [he] at h; cases h
            exact Outcome.emitted hl1 he (hts t (List.mem_cons_self _ _)) (by decide)
              (by decide)
      · rw [if_neg hm] at h
        exact matchTokens_outcome more l r (fun x hx => hts x (List.mem_cons_of_mem _ hx)) h


theorem lexTextTail_outcome {l l1 : Lexer} {st1 : State} (h : lexTextTail l = some (l1, st1)) :
    Outcome l l1 st1 := by
  unfold lexTextTail at h
  split at h
  · cases h
  · rename_i r1 l2 hp1
    have s1 := peek_same hp1
    split_ifs at h
    · cases h; exact Outcome.silent s1 (by decide) (by decide)
    · split at h
      · cases h
      · rename_i r2 l3 hp2
        have s2 := s1.trans (peek_same hp2)
        split_ifs at h
        · cases h; exact Outcome.silent s2 (by decide) (by decide)
        · split at h
          · cases h
          · rename_i r3 l4 hp3
            have s3 := s2.trans (peek_same hp3)
            split_ifs at h
            · cases h; exact Outcome.silent s3 (by decide) (by decide)
            · split at h
              · cases h
              · rename_i l5 hm
                cases h
                have := matchTokens_outcome TokenList _ _ TokenList_kinds hm
                simp only at this
                exact ⟨this.1.trans s3.1, by rw [s3.2.symm]; exact this.2⟩
              · rename_i l5 hm
                have hs := matchTokens_outcome TokenList _ _ TokenList_kinds hm
                simp only at hs
                split at h
                · cases h
                · rename_i n6 l6 ha
                  cases he : emit l6 .Identifier with
                  | none => rw [he] at h; cases h
                  | some l7 =>
                    rw [he] at h; cases h
                    exact Outcome.emitted ((s3.trans hs).trans (acceptRun_same ha)) he
                      ⟨by decide, by decide⟩ (by decide) (by decide)

theorem lexTextComments_outcome {l l1 : Lexer} {st1 : State}
    (h : lexTextComments l = some (l1, st1)) : Outcome l l1 st1 := by
  unfold lexTextComments at h
  split at h
  · cases h
  · split_ifs at h
    · cases h; exact Outcome.silent (Same.refl _) (by decide) (by decide)
    · cases h; exact Outcome.silent (Same.refl _) (by decide) (by decide)
    · split at h
      · cases h
      · rename_i r l2 hp
        have s1 := peek_same hp
        split_ifs at h
        · cases he : emit l2 .EOF with
          | none => rw [he] at h; cases h
          | some l3 => rw [he] at h; cases h; exact Outcome.eof s1 he
        · have := lexTextTail_outcome h
          exact ⟨this.1.trans s1.1, by rw [s1.2.symm]; exact this.2⟩

theorem lexText_outcome {l l1 : Lexer} {st1 : State} (h : lexText l = some (l1, st1)) :
    Outcome l l1 st1 := by
  unfold lexText at h
  split at h
  · cases h
  · rename_i l2 hs
    have s1 := skipSpace_same hs
    split at h
    · cases h
    · rename_i r l3 hp
      have s2 := s1.trans (peek_same hp)
      split_ifs at h
      · cases h; exact Outcome.silent s2 (by decide) (by decide)
      · split at h
        · cases h
        · rename_i r4 l4 hn
          split at h
          · cases h
          · rename_i r5 l5 hp5
            have s3 := ((s2.trans (next_same hn)).trans (peek_same hp5)).trans (backup_same _)
            split_ifs at h
            · cases h; exact Outcome.silent s3 (by decide) (by decide)
            · have := lexTextComments_outcome h
              exact ⟨this.1.trans s3.1, by rw [s3.2.symm]; exact this.2⟩
      · have := lexTextComments_outcome h
        exact ⟨this.1.trans s2.1, by rw [s2.2.symm]; exact this.2⟩


theorem lexNumberLiteral_outcome {l l1 : Lexer} {st1 : State}
    (h : lexNumberLiteral l = some (l1, st1)) : Outcome l l1 st1 := by
  unfold lexNumberLiteral at h
  split at h
  · cases h
  · rename_i z l2 ha
    have s1 := accept_same ha
    have hx : ∀ (b : Bool) (lx : Lexer),
        (if z then accept (ascii "xX") l2 else some (false, l2)) = some (b, lx) → Same l lx := by
      intro b lx hb
      cases z with
      | true => exact s1.trans (accept_same hb)
      | false => simp only [Bool.false_eq_true, if_false] at hb; cases hb; exact s1
    split at h
    · cases h
    · rename_i l3 hx3
      have s2 := hx _ _ hx3
      split at h
      · cases h
      · rename_i n4 l4 hr
        cases he : emit l4 .NumberLiteral with
        | none => rw [he] at h; cases h
        | some l5 =>
          rw [he] at h; cases h
          exact Outcome.emitted (s2.trans (acceptRun_same hr)) he ⟨by decide, by decide⟩
            (by decide) (by decide)
    · rename_i l3 hx3
      have s2 := hx _ _ hx3
      split at h
      · cases h
      · rename_i n4 l4 hr
        have s3 := s2.trans (acceptRun_same hr)
        split at h
        · cases h
        · rename_i dot l5 hd
          have s4 := s3.trans (accept_same hd)
          split at h
          · cases h
          · rename_i l6 h6
            have s5 : Same l l6 := by
              cases dot with
              | true =>
                simp only [if_true] at h6
                cases hr2 : acceptRun digits l5 with
                | none => rw [hr2] at h6; cases h6
                | some p => rw [hr2] at h6; cases h6; exact s4.trans (acceptRun_same hr2)
              | false => simp only [Bool.false_eq_true, if_false] at h6; cases h6; exact s4
            split at h
            · cases h
            · rename_i e l7 h7
              have s6 := s5.trans (accept_same h7)
              split at h
              · cases h
              · rename_i l8 h8
                have s7 : Same l l8 := by
                  cases e with
                  | true =>
                    simp only [if_true] at h8
                    cases hr2 : acceptRun digits l7 with
                    | none => rw [hr2] at h8; cases h8
                    | some p => rw [hr2] at h8; cases h8; exact s6.trans (acceptRun_same hr2)
                  | false => simp only [Bool.false_eq_true, if_false] at h8; cases h8; exact s6
                cases he : emit l8 .NumberLiteral with
                | none => rw [he] at h; cases h
                | some l9 =>
                  rw [he] at h; cases h
                  exact Outcome.emitted s7 he ⟨by decide, by decide⟩ (by decide) (by decide)


theorem lexBlockComment_outcome {l l1 : Lexer} {st1 : State}
    (h : lexBlockComment l = some (l1, st1)) : Outcome l l1 st1 := by
  unfold lexBlockComment at h
  split at h
  · cases h
  · rename_i n2 l2 h2
    split at h
    · cases h
    · rename_i r3 l3 h3
      split at h
      · cases h
      · rename_i n4 l4 h4
        have s := ((acceptRun_same h2).trans (next_same h3)).trans (acceptRun_same h4)
        split at h
        · cases h
        · rename_i l5 h5
          cases h
          exact Outcome.errorf _ (s.trans (accept_same h5))
        · rename_i l5 h5
          cases h
          exact Outcome.silent (s.trans (accept_same h5)) (by simp) (by simp)

theorem lexDoubleBracket_outcome {l l1 : Lexer} {st1 : State}
    (h : lexDoubleBracketStringLiteral l = some (l1, st1)) : Outcome l l1 st1 := by
  unfold lexDoubleBracketStringLiteral at h
  split at h
  · cases h
  · rename_i r2 l2 h2
    split at h
    · cases h
    · rename_i n3 l3 h3
      have s := (next_same h2).trans (acceptRun_same h3)
      split at h
      · cases h
      · rename_i l4 h4
        cases h
        exact Outcome.errorf _ (s.trans (accept_same h4))
      · rename_i l4 h4
        cases h5 : accept (ascii "\n") l4 with
        | none => rw [h5] at h; cases h
        | some p =>
          rw [h5] at h; cases h
          exact Outcome.silent ((s.trans (accept_same h4)).trans (accept_same h5)) (by simp)
            (by simp)

theorem bracketIteration_outcome (n : Nat) (again : State) (close : Lexer → Option Lexer)
    (hagain : again ≠ .halted ∧ again ≠ .panicked)
    (hclose : ∀ l0 l1, close l0 = some l1 → Outcome l0 l1 .lexText)
    {l l1 : Lexer} {st1 : State} (h : bracketIteration n again close l = some (l1, st1)) :
    Outcome l l1 st1 := by
  unfold bracketIteration at h
  split at h
  · cases h
  · rename_i r2 l2 h2
    have s1 := next_same h2
    split_ifs at h
    · cases h3 : next l2 with
      | none => rw [h3] at h; cases h
      | some p =>
        rw [h3] at h; cases h
        exact Outcome.silent (s1.trans (next_same h3)) hagain.1 hagain.2
    · split at h
      · cases h
      · rename_i m l3 h3
        have s2 := s1.trans (acceptRun_same h3)
        split_ifs at h
        · cases h; exact Outcome.silent s2 hagain.1 hagain.2
        · split at h
          · cases h
          · rename_i l4 h4
            cases h
            exact Outcome.errorf _ (s2.trans (accept_same h4))
          · rename_i l4 h4
            have s3 := s2.trans (accept_same h4)
            cases h5 : close l4 with
            | none => rw [h5] at h; cases h
            | some l5 =>
              rw [h5] at h; cases h
              have := hclose _ _ h5
              exact ⟨this.1.trans s3.1, by rw [s3.2.symm]; exact this.2⟩
    · cases h; exact Outcome.silent s1 hagain.1 hagain.2

theorem lexLineComment_outcome {l l1 : Lexer} {st1 : State}
    (h : lexLineComment l = some (l1, st1)) : Outcome l l1 st1 := by
  unfold lexLineComment at h
  split at h
  · cases h
  · cases h; exact Outcome.silent ⟨rfl, rfl⟩ (by decide) (by decide)

theorem quotedIteration_outcome (q : Int) (again : State)
    (hagain : again ≠ .halted ∧ again ≠ .panicked)
    {l l1 : Lexer} {st1 : State} (h : quotedIteration q again l = some (l1, st1)) :
    Outcome l l1 st1 := by
  unfold quotedIteration at h
  split at h
  · cases h
  · rename_i r2 l2 h2
    have s1 := next_same h2
    split_ifs at h
    · cases h3 : next l2 with
      | none => rw [h3] at h; cases h
      | some p =>
        rw [h3] at h; cases h
        exact Outcome.silent (s1.trans (next_same h3)) hagain.1 hagain.2
    · cases he : emit l2 .StringLiteral with
      | none => rw [he] at h; cases h
      | some l3 =>
        rw [he] at h; cases h
        exact Outcome.emitted s1 he ⟨by decide, by decide⟩ (by decide) (by decide)
    · cases h; exact Outcome.silent s1 hagain.1 hagain.2

theorem quotedEntry_outcome (again : State) (hagain : again ≠ .halted ∧ again ≠ .panicked)
    {l l1 : Lexer} {st1 : State}
    (h : (next l).map (fun p => (p.2, again)) = some (l1, st1)) : Outcome l l1 st1 := by
  cases h3 : next l with
  | none => rw [h3] at h; cases h
  | some p =>
    rw [h3] at h; cases h
    exact Outcome.silent (next_same h3) hagain.1 hagain.2

/-- Every step from a running control point keeps the input and either halts on
one terminal Item or goes on after Items that are not terminal. -/
theorem stateFn_outcome {st : State} (hst : st ≠ .halted ∧ st ≠ .panicked) {l l1 : Lexer}
    {st1 : State} (h : stateFn st l = some (l1, st1)) : Outcome l l1 st1 := by
  cases st with
  | lexText => exact lexText_outcome h
  | lexNumberLiteral => exact lexNumberLiteral_outcome h
  | lexBlockComment => exact lexBlockComment_outcome h
  | lexLineComment => exact lexLineComment_outcome h
  | lexSingleQuotedStringLiteral =>
    exact quotedEntry_outcome .singleQuotedLoop ⟨by decide, by decide⟩ h
  | lexDoubleQuotedStringLiteral =>
    exact quotedEntry_outcome .doubleQuotedLoop ⟨by decide, by decide⟩ h
  | lexDoubleBracketStringLiteral => exact lexDoubleBracket_outcome h
  | blockCommentLoop n =>
    exact bracketIteration_outcome n _ _ ⟨by simp, by simp⟩
      (fun l0 l1 hc => by cases hc; exact Outcome.silent (ignore_same _) (by decide) (by decide)) h
  | singleQuotedLoop => exact quotedIteration_outcome _ _ ⟨by decide, by decide⟩ h
  | doubleQuotedLoop => exact quotedIteration_outcome _ _ ⟨by decide, by decide⟩ h
  | doubleBracketLoop n =>
    exact bracketIteration_outcome n _ _ ⟨by simp, by simp⟩
      (fun l0 l1 hc => Outcome.emitted (Same.refl _) hc ⟨by decide, by decide⟩ (by decide)
        (by decide)) h
  | halted => exact absurd rfl hst.1
  | panicked => exact absurd rfl hst.2


theorem step_panicked (l : Lexer) : step ⟨l, .panicked⟩ = ⟨l, .panicked⟩ := rfl

/-- One step of the machine: nothing from a halted or panicked configuration, a
panic that sends nothing, or an `Outcome`. -/
theorem step_cases (c : Config) :
    step c = c ∧ (c.state = .halted ∨ c.state = .panicked) ∨
    (step c = ⟨c.l, .panicked⟩ ∧ c.state ≠ .halted) ∨
    (c.state ≠ .halted ∧ c.state ≠ .panicked ∧ Outcome c.l (step c).l (step c).state) := by
  obtain ⟨l, st⟩ := c
  by_cases h1 : st = .halted
  · subst h1; exact Or.inl ⟨rfl, Or.inl rfl⟩
  by_cases h2 : st = .panicked
  · subst h2; exact Or.inl ⟨rfl, Or.inr rfl⟩
  cases h : stateFn st l with
  | none => exact Or.inr (Or.inl ⟨by simp [step, h], h1⟩)
  | some p =>
    obtain ⟨l1, st1⟩ := p
    refine Or.inr (Or.inr ⟨h1, h2, ?_⟩)
    rw [step_of_stateFn st h]
    exact stateFn_outcome ⟨h1, h2⟩ h

/-- The invariant of `run`: the input is kept; a halted machine has sent exactly
one terminal Item, the last one; a machine that has not halted has sent none. -/
theorem run_invariant (input : List Nat) : ∀ n : Nat,
    (run n (NewLexer input)).l.input = input ∧
    ((run n (NewLexer input)).state = .halted →
      ∃ (init : List Item) (last : Item), (run n (NewLexer input)).l.items = init ++ [last] ∧
        terminal last = true ∧ ∀ i ∈ init, terminal i = false) ∧
    ((run n (NewLexer input)).state ≠ .halted →
      ∀ i ∈ (run n (NewLexer input)).l.items, terminal i = false) := by
  have hgen : ∀ (n : Nat) (c : Config),
      (c.l.input = input ∧
        (c.state = .halted → ∃ (init : List Item) (last : Item), c.l.items = init ++ [last] ∧
          terminal last = true ∧ ∀ i ∈ init, terminal i = false) ∧
        (c.state ≠ .halted → ∀ i ∈ c.l.items, terminal i = false)) →
      ((run n c).l.input = input ∧
        ((run n c).state = .halted → ∃ (init : List Item) (last : Item),
          (run n c).l.items = init ++ [last] ∧
          terminal last = true ∧ ∀ i ∈ init, terminal i = false) ∧
        ((run n c).state ≠ .halted → ∀ i ∈ (run n c).l.items, terminal i = false)) := by
    intro n
    induction n with
    | zero => intro c hc; exact hc
    | succ n ih =>
      intro c hc
      rw [run_succ]
      apply ih
      obtain ⟨hin, hh, hr⟩ := hc
      rcases step_cases c with ⟨hs, _⟩ | ⟨hs, hnh⟩ | ⟨hnh, _, ho⟩
      · rw [hs]; exact ⟨hin, hh, hr⟩
      · rw [hs]
        refine ⟨hin, ?_, ?_⟩
        · intro h; simp at h
        · intro _; exact hr hnh
      · obtain ⟨hi, ho⟩ := ho
        refine ⟨hi.trans hin, ?_, ?_⟩
        · intro hst
          rcases ho with ⟨_, i, hit, hitems⟩ | ⟨hne, _, _⟩
          · exact ⟨c.l.items, i, hitems, hit, hr hnh⟩
          · exact absurd hst hne
        · intro hst
          rcases ho with ⟨he, _⟩ | ⟨_, _, new, hitems, hnew⟩
          · exact absurd he hst
          · intro i hi2
            rw [hitems, List.mem_append] at hi2
            rcases hi2 with h | h
            · exact hr hnh i h
            · exact hnew i h
  intro n
  refine hgen n (NewLexer input) ⟨rfl, ?_, ?_⟩
  · intro h; simp [NewLexer] at h
  · intro _ i hi; simp [NewLexer] at hi


/-- At the end of the input, an iteration of a quoted-string loop only resets
`width`. -/
theorem quotedIteration_at_end (q : Int) (hq : q ≠ eof) (st : State) (l : Lexer)
    (h : l.pos ≥ l.input.length) :
    quotedIteration q st l = some ({ l with width := 0 }, st) := by
  simp only [quotedIteration, next, h, if_true]
  rw [if_neg (by decide), if_neg (fun e => hq e.symm)]

/-- On an unterminated quoted string the machine sends nothing and neither
halts nor panics, whatever the number of steps. -/
theorem unterminated_quote_run (q : Nat) (hq : q = 0x27 ∨ q = 0x22) (body : List Nat)
    (hbody : noUnescapedQuote q body = true) (n : Nat) :
    (run n (NewLexer (q :: body))).l.items = [] ∧
      (run n (NewLexer (q :: body))).state ≠ .halted ∧
      (run n (NewLexer (q :: body))).state ≠ .panicked := by
  have hq80 : q < 0x80 := by omega
  have h1 := lexText_quote q hq [] body 0 []
  simp only [List.length_nil, Nat.cast_zero] at h1
  have hnext : next (L [] (q :: body) 0 ((1 : Nat) : Int) []) =
      some ((q : Int), L [q] body 0 ((1 : Nat) : Int) []) := by
    rw [next_L, runeAt_ascii q _ hq80]; rfl
  rcases n with _ | _ | n
  · exact ⟨rfl, by simp [run, NewLexer], by simp [run, NewLexer]⟩
  · rw [NewLexer_eq, run_step .lexText 0 h1]
    rcases hq with rfl | rfl
    · exact ⟨rfl, by simp [run], by simp [run]⟩
    · exact ⟨rfl, by simp [run], by simp [run]⟩
  · rw [NewLexer_eq, run_step .lexText (n + 1) h1]
    rcases hq with rfl | rfl
    · have h2 : stateFn .lexSingleQuotedStringLiteral
          (L [] (0x27 :: body) 0 ((1 : Nat) : Int) []) =
          some (L [0x27] body 0 ((1 : Nat) : Int) [], .singleQuotedLoop) := by
        simp only [stateFn, lexSingleQuotedStringLiteral, hnext]; rfl
      rw [if_pos rfl, run_step _ n h2]
      obtain ⟨pre1, x1, w1, _, hrun⟩ := quotedOpen_run 0x27 hq80 .singleQuotedLoop
        (fun _ => rfl) 0 [] n [0x27] body ((1 : Nat) : Int) hbody
      rw [hrun]
      exact ⟨rfl, by simp, by simp⟩
    · have h2 : stateFn .lexDoubleQuotedStringLiteral
          (L [] (0x22 :: body) 0 ((1 : Nat) : Int) []) =
          some (L [0x22] body 0 ((1 : Nat) : Int) [], .doubleQuotedLoop) := by
        simp only [stateFn, lexDoubleQuotedStringLiteral, hnext]; rfl
      rw [if_neg (by decide), run_step _ n h2]
      obtain ⟨pre1, x1, w1, _, hrun⟩ := quotedOpen_run 0x22 hq80 .doubleQuotedLoop
        (fun _ => rfl) 0 [] n [0x22] body ((1 : Nat) : Int) hbody
      rw [hrun]
      exact ⟨rfl, by simp, by simp⟩

theorem run_succ_right (n : Nat) (c : Config) : run (n + 1) c = step (run n c) := by
  rw [run_add]; rfl

/-- In the loop of a quoted-string state with the cursor at the end of the
input, a step only resets `width`, and a second step changes nothing. -/
theorem quotedLoop_at_end (c : Config)
    (hst : c.state = .singleQuotedLoop ∨ c.state = .doubleQuotedLoop)
    (hpos : c.l.pos ≥ c.l.input.length) :
    step c = ⟨{ c.l with width := 0 }, c.state⟩ ∧ step (step c) = step c := by
  obtain ⟨l, st⟩ := c
  simp only at hst hpos
  rcases hst with rfl | rfl
  · have h1 := quotedIteration_at_end 0x27 (by decide) .singleQuotedLoop l hpos
    have h2 := quotedIteration_at_end 0x27 (by decide) .singleQuotedLoop { l with width := 0 } hpos
    exact ⟨step_of_stateFn .singleQuotedLoop h1, by
      rw [step_of_stateFn .singleQuotedLoop h1, step_of_stateFn .singleQuotedLoop h2]⟩
  · have h1 := quotedIteration_at_end 0x22 (by decide) .doubleQuotedLoop l hpos
    have h2 := quotedIteration_at_end 0x22 (by decide) .doubleQuotedLoop { l with width := 0 } hpos
    exact ⟨step_of_stateFn .doubleQuotedLoop h1, by
      rw [step_of_stateFn .doubleQuotedLoop h1, step_of_stateFn .doubleQuotedLoop h2]⟩

/-- C7 (amended): for each quote character `q` and every input `q + body` in
which `body` has no unescaped `q`, no Item is ever sent and the machine neither
halts nor panics, after any number of steps; and once the cursor has reached the
end of the input inside the loop of the quoted-string state, a further step
leaves input, position, start, Items and control point unchanged and sets
`width` to 0, after which a step no longer changes the state. -/
theorem C7_unterminated_quote_blocks (q : Nat) (hq : q = 0x27 ∨ q = 0x22) (body : List Nat)
    (hbody : noUnescapedQuote q body = true) :
    (∀ n, (run n (NewLexer (q :: body))).l.items = [] ∧
        (run n (NewLexer (q :: body))).state ≠ .halted ∧
        (run n (NewLexer (q :: body))).state ≠ .panicked) ∧
      (∀ n, ((run n (NewLexer (q :: body))).state = .singleQuotedLoop ∨
          (run n (NewLexer (q :: body))).state = .doubleQuotedLoop) →
        (run n (NewLexer (q :: body))).l.pos ≥ (q :: body).length →
        run (n + 1) (NewLexer (q :: body)) =
            ⟨{ (run n (NewLexer (q :: body))).l with width := 0 },
              (run n (NewLexer (q :: body))).state⟩ ∧
          run (n + 1 + 1) (NewLexer (q :: body)) = run (n + 1) (NewLexer (q :: body))) := by
  refine ⟨unterminated_quote_run q hq body hbody, fun n hst hpos => ?_⟩
  have hin := (run_invariant (q :: body) n).1
  have hpos2 : (run n (NewLexer (q :: body))).l.pos ≥
      ((run n (NewLexer (q :: body))).l.input.length : Int) := by
    rw [hin]; exact hpos
  rw [run_succ_right (n + 1), run_succ_right n]
  exact quotedLoop_at_end _ hst hpos2

theorem C7_unterminated_quote_blocks_witness :
    (run 7 (NewLexer (ascii "\"abc"))).l.items = [] ∧
      (run 7 (NewLexer (ascii "\"abc"))).state ≠ .halted ∧
      (run 7 (NewLexer (ascii "\"abc"))).state ≠ .panicked :=
  (C7_unterminated_quote_blocks 0x22 (Or.inr rfl) (ascii "abc") (by decide)).1 7

/-- C7 (counterexample): on the input `"a`, after three steps the scanner is in
the loop of the double-quoted state with the cursor at the end of the input, and
the next step changes the scanner state (it resets `width` from 1 to 0). -/
theorem C7_counterexample :
    (run 3 (NewLexer (ascii "\"a"))).state = .doubleQuotedLoop ∧
      (run 3 (NewLexer (ascii "\"a"))).l.pos = ((ascii "\"a").length : Int) ∧
      (run 3 (NewLexer (ascii "\"a"))).l.width = 1 ∧
      (step (run 3 (NewLexer (ascii "\"a")))).l.width = 0 ∧
      step (run 3 (NewLexer (ascii "\"a"))) ≠ run 3 (NewLexer (ascii "\"a")) := by
  decide


/-- C1 (amended): at every point of the run, a halted scanner has sent exactly
one terminal Item (EOF or Error), as its last Item, and stays as it is for ever;
a scanner that has not halted has sent no terminal Item.  (Halting itself does
not hold for every input.) -/
theorem C1_terminal_item_only_on_halt (input : List Nat) (n : Nat) :
    ((run n (NewLexer input)).state = .halted →
      (∃ (init : List Item) (last : Item),
        (run n (NewLexer input)).l.items = init ++ [last] ∧ terminal last = true ∧
          ∀ i ∈ init, terminal i = false) ∧
      ∀ k, run (n + k) (NewLexer input) = run n (NewLexer input)) ∧
    ((run n (NewLexer input)).state ≠ .halted →
      ∀ i ∈ (run n (NewLexer input)).l.items, terminal i = false) := by
  obtain ⟨_, h1, h2⟩ := run_invariant input n
  exact ⟨fun h => ⟨h1 h, fun k => run_halted_le h (Nat.le_add_right n k)⟩, h2⟩

theorem C1_terminal_item_only_on_halt_witness :
    (run 5 (NewLexer (ascii "x = 1"))).state = .halted ∧
      ∃ (init : List Item) (last : Item),
        (run 5 (NewLexer (ascii "x = 1"))).l.items = init ++ [last] ∧ terminal last = true ∧
          ∀ i ∈ init, terminal i = false :=
  ⟨by decide, ((C1_terminal_item_only_on_halt (ascii "x = 1") 5).1 (by decide)).1⟩

/-- C1 (counterexample): on the input consisting of one double quote the scanner
never halts, so it yields no finite sequence of Items at all. -/
theorem C1_counterexample : ¬ ∃ items : List Item, Yields (ascii "\"") items := by
  rintro ⟨items, n, hn, _⟩
  exact (unterminated_quote_run 0x22 (Or.inr rfl) [] rfl n).2.1 hn

/-! ## Number literals -/

/-- An ASCII decimal digit. -/
theorem digits_mem (b : Nat) : b ∈ digits ↔ 0x30 ≤ b ∧ b ≤ 0x39 := by
  constructor
  · intro h
    have : ∀ x ∈ digits, 0x30 ≤ x ∧ x ≤ 0x39 := by decide
    exact this b h
  · rintro ⟨h1, h2⟩
    have : ∀ x < 0x3A, 0x30 ≤ x → x ∈ digits := by decide
    exact this b (by omega) h1

theorem hexDigits_mem (b : Nat) : b ∈ digits ++ ascii "abcdefABCDEF" ↔
    (0x30 ≤ b ∧ b ≤ 0x39) ∨ (0x61 ≤ b ∧ b ≤ 0x66) ∨ (0x41 ≤ b ∧ b ≤ 0x46) := by
  constructor
  · intro h
    have : ∀ x ∈ digits ++ ascii "abcdefABCDEF",
        (0x30 ≤ x ∧ x ≤ 0x39) ∨ (0x61 ≤ x ∧ x ≤ 0x66) ∨ (0x41 ≤ x ∧ x ≤ 0x46) := by decide
    exact this b h
  · intro h
    have : ∀ x < 0x67, ((0x30 ≤ x ∧ x ≤ 0x39) ∨ (0x61 ≤ x ∧ x ≤ 0x66) ∨ (0x41 ≤ x ∧ x ≤ 0x46)) →
        x ∈ digits ++ ascii "abcdefABCDEF" := by decide
    exact this b (by omega) h


theorem lexNumberLiteral_eq (l : Lexer) :
    lexNumberLiteral l =
      match accept (ascii "0") l with
      | none => none
      | some (z, l1) =>
        match (if z then accept (ascii "xX") l1 else some (false, l1)) with
        | none => none
        | some (true, l2) =>
          match acceptRun (digits ++ ascii "abcdefABCDEF") l2 with
          | none => none
          | some (_, l3) => (emit l3 .NumberLiteral).map (fun l4 => (l4, State.lexText))
        | some (false, l2) => lexNumberDecimal l2 := rfl

theorem accept_L_nil (valid pre : List Nat) (s w : Int) (it : List Item) :
    accept valid (L pre [] s w it) = some (false, L pre [] s 0 it) := by
  rw [accept_L, runeAt_nil, containsRune_eof]; rfl

theorem accept_L_cons (valid pre : List Nat) (b : Nat) (r : List Nat) (s w : Int)
    (it : List Item) (hb : b < 0x80) :
    accept valid (L pre (b :: r) s w it) =
      some (if b ∈ valid then (true, L (pre ++ [b]) r s ((1 : Nat) : Int) it)
        else (false, L pre (b :: r) s ((1 : Nat) : Int) it)) := by
  rw [accept_L, runeAt_ascii b r hb, containsRune_natCast]
  by_cases h : b ∈ valid <;> simp [h]

theorem stops_digits (rest : List Nat)
    (h : ∀ b r, rest = b :: r → ¬ (0x30 ≤ b ∧ b ≤ 0x39)) :
    containsRune digits (runeAt rest).1 = false := by
  cases rest with
  | nil => exact containsRune_eof _
  | cons b r =>
    rw [containsRune_runeAt_cons digits (by decide)]
    simpa [digits_mem] using h b r rfl

theorem acceptRun_digits (ds rest pre : List Nat) (s w : Int) (it : List Item)
    (hds : ds.all isDigitByte = true)
    (hrest : ∀ b r, rest = b :: r → ¬ (0x30 ≤ b ∧ b ≤ 0x39)) :
    acceptRun digits (L pre (ds ++ rest) s w it) =
      some (ds.length, L (pre ++ ds) rest s ((runeAt rest).2 : Int) it) := by
  apply acceptRun_L digits ds rest pre s w it _ (stops_digits rest hrest)
  intro b hb
  have := List.all_eq_true.1 hds b hb
  simp only [isDigitByte, Bool.and_eq_true, decide_eq_true_eq] at this
  exact ⟨by omega, (digits_mem b).2 this⟩


theorem exponent_head (ex : List Nat) (h : isExponent ex = true) :
    ∀ b r, ex = b :: r → ¬ (0x30 ≤ b ∧ b ≤ 0x39) := by
  intro b r hb
  subst hb
  simp only [isExponent, Bool.and_eq_true, Bool.or_eq_true, beq_iff_eq] at h
  omega

theorem fraction_head (fr ex : List Nat) (h : isFraction fr = true) (he : isExponent ex = true) :
    ∀ b r, fr ++ ex = b :: r → ¬ (0x30 ≤ b ∧ b ≤ 0x39) := by
  intro b r hb
  cases fr with
  | nil => exact exponent_head ex he b r hb
  | cons c cs =>
    simp only [isFraction, Bool.and_eq_true, beq_iff_eq] at h
    simp only [List.cons_append, List.cons.injEq] at hb
    omega

/-- The exponent part of `lexNumberLiteral`, then the emission. -/
theorem lexNumber_exponent (p v ex : List Nat) (w : Int) (it : List Item)
    (he : isExponent ex = true) :
    (match accept (ascii "eE") (L (p ++ v) ex (p.length : Int) w it) with
      | none => none
      | some (e, l6) =>
        match (if e then (acceptRun digits l6).map Prod.snd else some l6) with
        | none => none
        | some l7 => (emit l7 .NumberLiteral).map (fun l8 => (l8, State.lexText))) =
      some (L (p ++ (v ++ ex)) [] ((p ++ (v ++ ex)).length : Int) 0
        (it ++ [⟨.NumberLiteral, (p.length : Int), v ++ ex⟩]), .lexText) := by
  cases ex with
  | nil =>
    rw [accept_L_nil]
    simp only [Bool.false_eq_true, if_false, List.append_nil]
    rw [emit_L]
    rfl
  | cons b ds =>
    simp only [isExponent, Bool.and_eq_true, Bool.or_eq_true, beq_iff_eq] at he
    have hb : b ∈ ascii "eE" := by
      rcases he.1 with rfl | rfl <;> decide
    have hrun := acceptRun_digits ds [] (p ++ v ++ [b]) (p.length : Int) ((1 : Nat) : Int) it
      he.2 (by intro c r h; cases h)
    rw [accept_L_cons _ _ _ _ _ _ _ (by rcases he.1 with rfl | rfl <;> norm_num), if_pos hb]
    simp only [if_true]
    simp only [List.append_nil] at hrun
    rw [hrun]
    simp only [Option.map_some', runeAt_nil, Nat.cast_zero]
    have hem := emit_L p (v ++ b :: ds) [] 0 it .NumberLiteral
    simp only [List.append_assoc, List.singleton_append] at hem ⊢
    rw [hem]
    rfl

/-- The decimal part of `lexNumberLiteral` on digits, an optional fraction and
an optional exponent that end the input. -/
theorem lexNumberDecimal_L (p v ds fr ex : List Nat) (w : Int) (it : List Item)
    (hds : ds.all isDigitByte = true) (hfr : isFraction fr = true)
    (hex : isExponent ex = true) :
    lexNumberDecimal (L (p ++ v) (ds ++ (fr ++ ex)) (p.length : Int) w it) =
      some (L (p ++ (v ++ (ds ++ (fr ++ ex)))) [] ((p ++ (v ++ (ds ++ (fr ++ ex)))).length : Int) 0
        (it ++ [⟨.NumberLiteral, (p.length : Int), v ++ (ds ++ (fr ++ ex))⟩]), .lexText) := by
  unfold lexNumberDecimal
  rw [acceptRun_digits ds (fr ++ ex) (p ++ v) _ w it hds (fraction_head fr ex hfr hex)]
  simp only
  cases fr with
  | nil =>
    have hacc : accept (ascii ".") (L (p ++ v ++ ds) ([] ++ ex) (p.length : Int)
        ((runeAt ([] ++ ex)).2 : Int) it) =
        some (false, L (p ++ v ++ ds) ex (p.length : Int) ((runeAt ex).2 : Int) it) := by
      cases ex with
      | nil => rw [List.nil_append, accept_L_nil]; rfl
      | cons b r =>
        simp only [isExponent, Bool.and_eq_true, Bool.or_eq_true, beq_iff_eq] at hex
        have hb80 : b < 0x80 := by omega
        have hb : b ∉ ascii "." := by
          rcases hex.1 with rfl | rfl <;> decide
        rw [List.nil_append, accept_L_cons _ _ _ _ _ _ _ hb80, if_neg hb, runeAt_ascii b r hb80]
    rw [hacc]
    simp only [Bool.false_eq_true, if_false]
    have := lexNumber_exponent p (v ++ ds) ex ((runeAt ex).2 : Int) it hex
    simp only [List.append_assoc, List.nil_append] at this ⊢
    exact this
  | cons c cs =>
    simp only [isFraction, Bool.and_eq_true, beq_iff_eq] at hfr
    obtain ⟨rfl, hcs⟩ := hfr
    have hrun := acceptRun_digits cs ex (p ++ v ++ ds ++ [0x2E]) (p.length : Int)
      ((1 : Nat) : Int) it hcs (exponent_head ex hex)
    rw [List.cons_append, accept_L_cons _ _ _ _ _ _ _ (by norm_num), if_pos (by decide)]
    simp only [if_true, hrun, Option.map_some']
    have := lexNumber_exponent p (v ++ ds ++ 0x2E :: cs) ex ((runeAt ex).2 : Int) it hex
    simp only [List.append_assoc, List.singleton_append, List.cons_append] at this ⊢
    exact this


theorem accept_L_reject (valid : List Nat) (hv : ∀ v ∈ valid, v < 0x80) (pre rest : List Nat)
    (s w : Int) (it : List Item) (h : ∀ b r, rest = b :: r → b ∉ valid) :
    accept valid (L pre rest s w it) = some (false, L pre rest s ((runeAt rest).2 : Int) it) := by
  rw [accept_L]
  cases rest with
  | nil => rw [runeAt_nil, containsRune_eof]; rfl
  | cons b r =>
    rw [containsRune_runeAt_cons valid hv, decide_eq_false (h b r rfl)]
    rfl

theorem decimal_head (ds fr ex : List Nat) (hds : ds.all isDigitByte = true)
    (hfr : isFraction fr = true) (hex : isExponent ex = true) :
    ∀ b r, ds ++ (fr ++ ex) = b :: r →
      (0x30 ≤ b ∧ b ≤ 0x39) ∨ b = 0x2E ∨ b = 0x65 ∨ b = 0x45 := by
  intro b r h
  cases ds with
  | cons d ds' =>
    simp only [List.cons_append, List.cons.injEq] at h
    simp only [List.all_cons, Bool.and_eq_true, isDigitByte, decide_eq_true_eq] at hds
    rw [← h.1]; exact Or.inl hds.1
  | nil =>
    cases fr with
    | cons c cs =>
      simp only [isFraction, Bool.and_eq_true, beq_iff_eq] at hfr
      simp only [List.nil_append, List.cons_append, List.cons.injEq] at h
      rw [← h.1]; exact Or.inr (Or.inl hfr.1)
    | nil =>
      cases ex with
      | nil => simp at h
      | cons c cs =>
        simp only [isExponent, Bool.and_eq_true, Bool.or_eq_true, beq_iff_eq] at hex
        simp only [List.nil_append, List.cons.injEq] at h
        rw [← h.1]; exact Or.inr (Or.inr hex.1)

/-- The state `lexNumberLiteral` on a decimal literal that ends the input. -/
theorem lexNumberLiteral_decimal (p ds fr ex : List Nat) (w : Int) (it : List Item)
    (hds : ds.all isDigitByte = true) (hfr : isFraction fr = true)
    (hex : isExponent ex = true) :
    lexNumberLiteral (L p (ds ++ (fr ++ ex)) (p.length : Int) w it) =
      some (L (p ++ (ds ++ (fr ++ ex))) [] ((p ++ (ds ++ (fr ++ ex))).length : Int) 0
        (it ++ [⟨.NumberLiteral, (p.length : Int), ds ++ (fr ++ ex)⟩]), .lexText) := by
  rw [lexNumberLiteral_eq]
  by_cases h0 : ∃ ds', ds = 0x30 :: ds'
  · obtain ⟨ds', rfl⟩ := h0
    have hds' : ds'.all isDigitByte = true := by
      simp only [List.all_cons, Bool.and_eq_true] at hds; exact hds.2
    rw [List.cons_append, accept_L_cons _ _ _ _ _ _ _ (by norm_num), if_pos (by decide)]
    simp only [if_true]
    rw [accept_L_reject (ascii "xX") (by decide) _ _ _ _ _ (by
      intro b r h
      have := decimal_head ds' fr ex hds' hfr hex b r h
      simp only [ascii]
      intro hm
      simp at hm
      omega)]
    simp only
    have := lexNumberDecimal_L p [0x30] ds' fr ex ((runeAt (ds' ++ (fr ++ ex))).2 : Int) it
      hds' hfr hex
    simp only [List.singleton_append] at this
    exact this
  · have hrej : ∀ b r, ds ++ (fr ++ ex) = b :: r → b ∉ ascii "0" := by
      intro b r h hm
      have hb : b = 0x30 := by simpa [ascii] using hm
      subst hb
      cases ds with
      | cons d ds' =>
        simp only [List.cons_append, List.cons.injEq] at h
        exact h0 ⟨ds', by rw [h.1]⟩
      | nil =>
        have := decimal_head [] fr ex rfl hfr hex _ r h
        cases fr with
        | cons c cs =>
          simp only [isFraction, Bool.and_eq_true, beq_iff_eq] at hfr
          simp only [List.nil_append, List.cons_append, List.cons.injEq] at h
          omega
        | nil =>
          cases ex with
          | nil => simp at h
          | cons c cs =>
            simp only [isExponent, Bool.and_eq_true, Bool.or_eq_true, beq_iff_eq] at hex
            simp only [List.nil_append, List.cons.injEq] at h
            omega
    rw [accept_L_reject (ascii "0") (by decide) _ _ _ _ _ hrej]
    simp only [Bool.false_eq_true, if_false]
    have := lexNumberDecimal_L p [] ds fr ex ((runeAt (ds ++ (fr ++ ex))).2 : Int) it
      hds hfr hex
    simp only [List.append_nil, List.nil_append] at this
    exact this

/-- The state `lexNumberLiteral` on a hexadecimal literal that ends the input. -/
theorem lexNumberLiteral_hex (p : List Nat) (x : Nat) (hs : List Nat) (w : Int)
    (it : List Item) (hx : x = 0x78 ∨ x = 0x58) (hhs : hs.all isHexByte = true) :
    lexNumberLiteral (L p (0x30 :: x :: hs) (p.length : Int) w it) =
      some (L (p ++ 0x30 :: x :: hs) [] ((p ++ 0x30 :: x :: hs).length : Int) 0
        (it ++ [⟨.NumberLiteral, (p.length : Int), 0x30 :: x :: hs⟩]), .lexText) := by
  have hrun := acceptRun_L (digits ++ ascii "abcdefABCDEF") hs [] (p ++ [0x30] ++ [x])
    (p.length : Int) ((1 : Nat) : Int) it
    (by
      intro b hb
      have := List.all_eq_true.1 hhs b hb
      simp only [isHexByte, isDigitByte, Bool.or_eq_true, Bool.and_eq_true,
        decide_eq_true_eq] at this
      exact ⟨by omega, (hexDigits_mem b).2 (by omega)⟩)
    (containsRune_eof _)
  have hem := emit_L p (0x30 :: x :: hs) [] 0 it .NumberLiteral
  rw [lexNumberLiteral_eq, accept_L_cons _ _ _ _ _ _ _ (by norm_num), if_pos (by decide)]
  simp only [if_true]
  rw [accept_L_cons _ _ _ _ _ _ _ (by omega), if_pos (by rcases hx with rfl | rfl <;> decide)]
  simp only [List.append_nil, runeAt_nil, Nat.cast_zero] at hrun
  simp only [hrun]
  simp only [List.append_assoc, List.singleton_append, List.cons_append, List.nil_append] at hem ⊢
  rw [hem]
  rfl

/-! ## Numeric literals -/

/-- A scan that dispatches to `lexNumberLiteral`, emits the whole input there and
then meets the end of input. -/
theorem number_yields (s : List Nat) (w : Int)
    (h1 : lexText (L [] s 0 0 []) = some (L [] s 0 w [], .lexNumberLiteral))
    (h2 : lexNumberLiteral (L [] s 0 w []) =
      some (L s [] (s.length : Int) 0 [⟨.NumberLiteral, 0, s⟩], .lexText)) :
    Yields s [⟨.NumberLiteral, 0, s⟩, ⟨.EOF, (s.length : Int), []⟩] := by
  have h3 := lexText_eof s (s.length : Int) 0 [⟨.NumberLiteral, 0, s⟩]
  have e1 : run (1 + 1 + 1) ⟨L [] s 0 0 [], .lexText⟩ = _ := run_step .lexText (1 + 1) h1
  have e2 : run (1 + 1) ⟨L [] s 0 w [], .lexNumberLiteral⟩ = _ :=
    run_step .lexNumberLiteral 1 h2
  have e3 : run 1 ⟨_, .lexText⟩ = _ := step_of_stateFn .lexText h3
  refine ⟨1 + 1 + 1, ?_⟩
  rw [NewLexer_eq, e1, e2, e3]
  exact ⟨rfl, rfl⟩

theorem digitByte_facts : ∀ b < 128, isDigitByte b = true →
    isSpace (b : Int) = false ∧ unicodeIsDigit (b : Int) = true := by
  decide!

theorem digitByte_lt {b : Nat} (h : isDigitByte b = true) : b < 128 := by
  simp only [isDigitByte, Bool.and_eq_true, decide_eq_true_eq] at h
  omega

/-- C8: every input of one of the three numeric forms, hexadecimal
`0 (x|X) H*`, decimal `D+ (. D*)? ((e|E) D*)?` or leading-dot `. D+ ((e|E) D*)?`,
yields exactly one NumberLiteral spanning the whole input at Begin 0,
followed by EOF. -/
theorem C8_numeric_literal_forms (s : List Nat)
    (h : (∃ x hs, (x = 0x78 ∨ x = 0x58) ∧ hs.all isHexByte = true ∧ s = 0x30 :: x :: hs) ∨
      (∃ d ds fr ex, isDigitByte d = true ∧ ds.all isDigitByte = true ∧
        isFraction fr = true ∧ isExponent ex = true ∧ s = (d :: ds) ++ (fr ++ ex)) ∨
      (∃ d ds ex, isDigitByte d = true ∧ ds.all isDigitByte = true ∧
        isExponent ex = true ∧ s = 0x2E :: (d :: ds) ++ ex)) :
    Yields s [⟨.NumberLiteral, 0, s⟩, ⟨.EOF, (s.length : Int), []⟩] := by
  rcases h with ⟨x, hs, hx, hhs, rfl⟩ | ⟨d, ds, fr, ex, hd, hds, hfr, hex, rfl⟩ |
    ⟨d, ds, ex, hd, hds, hex, rfl⟩
  · have hr : runeAt (0x30 :: x :: hs) = (((0x30 : Nat) : Int), 1) :=
      runeAt_ascii 0x30 _ (by norm_num)
    have h1 := lexText_L_digit [] (0x30 :: x :: hs) [] 0 0 [] (by simp)
      (by rw [hr]; decide) (by rw [hr]; decide)
    have h2 := lexNumberLiteral_hex [] x hs ((1 : Nat) : Int) [] hx hhs
    simp only [List.nil_append, List.length_nil, Nat.cast_zero, hr] at h1 h2
    exact number_yields _ _ h1 h2
  · have hlt := digitByte_lt hd
    have hf := digitByte_facts d hlt hd
    have hr : runeAt ((d :: ds) ++ (fr ++ ex)) = ((d : Int), 1) := runeAt_ascii d _ hlt
    have h1 := lexText_L_digit [] ((d :: ds) ++ (fr ++ ex)) [] 0 0 [] (by simp)
      (by rw [hr]; exact hf.1) (by rw [hr]; exact hf.2)
    have h2 := lexNumberLiteral_decimal [] (d :: ds) fr ex ((1 : Nat) : Int) []
      (by simp only [List.all_cons, hd, hds]; rfl) hfr hex
    simp only [List.nil_append, List.length_nil, Nat.cast_zero, hr] at h1 h2
    exact number_yields _ _ h1 h2
  · have hlt := digitByte_lt hd
    have hf := digitByte_facts d hlt hd
    have h1 := lexText_L_dot [] (ds ++ ex) [] d 0 0 [] (by simp) hlt
    have h2 := lexNumberLiteral_decimal [] [] (0x2E :: d :: ds) ex 1 [] rfl
      (by simp only [isFraction, List.all_cons, hd, hds]; rfl) hex
    simp only [List.nil_append, List.length_nil, Nat.cast_zero, hf.2, if_true,
      List.cons_append] at h1 h2
    exact number_yields _ _ h1 h2

/-- C8 at the inputs `0x1F` and `3.14e2`: each is a single NumberLiteral. -/
theorem C8_numeric_literal_forms_witness :
    Yields (ascii "0x1F") [⟨.NumberLiteral, 0, ascii "0x1F"⟩, ⟨.EOF, 4, []⟩] ∧
    Yields (ascii "3.14e2") [⟨.NumberLiteral, 0, ascii "3.14e2"⟩, ⟨.EOF, 6, []⟩] :=
  ⟨C8_numeric_literal_forms (ascii "0x1F")
      (Or.inl ⟨0x78, ascii "1F", Or.inl rfl, by decide, by decide⟩),
    C8_numeric_literal_forms (ascii "3.14e2")
      (Or.inr (Or.inl ⟨0x33, [], ascii ".14", ascii "e2", by decide, by decide, by decide,
        by decide, by decide⟩))⟩

/-! ## Line comments -/

theorem indexNewline_none : ∀ t : List Nat, 0x0A ∉ t → indexNewline t = -1
  | [], _ => rfl
  | b :: t, h => by
    have hb : b ≠ 0x0A := fun e => h (by rw [e]; exact List.mem_cons_self _ _)
    have ht : 0x0A ∉ t := fun e => h (List.mem_cons_of_mem _ e)
    simp [indexNewline, hb, indexNewline_none t ht]

theorem indexNewline_at : ∀ (t r : List Nat), 0x0A ∉ t →
    indexNewline (t ++ 0x0A :: r) = (t.length : Int)
  | [], _, _ => by simp [indexNewline]
  | b :: t, r, h => by
    have hb : b ≠ 0x0A := fun e => h (by rw [e]; exact List.mem_cons_self _ _)
    have ht : 0x0A ∉ t := fun e => h (List.mem_cons_of_mem _ e)
    have ih := indexNewline_at t r ht
    have e : indexNewline (b :: (t ++ 0x0A :: r)) =
        if indexNewline (t ++ 0x0A :: r) < 0 then -1 else indexNewline (t ++ 0x0A :: r) + 1 := by
      simp [indexNewline, hb]
    rw [List.cons_append, e, ih, if_neg (by omega), List.length_cons]
    push_cast
    rfl

/-- The dispatch state at `--` not followed by `[`: on to `lexLineComment`, the
cursor still before the comment. -/
theorem lexText_lineComment (p t : List Nat) (s w : Int) (it : List Item)
    (hb : ∀ r, t ≠ 0x5B :: r) :
    lexText (L p (0x2D :: 0x2D :: t) s w it) =
      some (L p (0x2D :: 0x2D :: t) (p.length : Int) 1 it, .lexLineComment) := by
  have hr : runeAt (0x2D :: 0x2D :: t) = (((0x2D : Nat) : Int), 1) :=
    runeAt_ascii 0x2D _ (by norm_num)
  have h := lexText_L_other [] (0x2D :: 0x2D :: t) p s w it (by simp)
    (by rw [hr]; decide) (by rw [hr]; decide) (by rw [hr]; decide)
  simp only [List.nil_append, List.append_nil, hr] at h
  rw [h, lexTextComments_L]
  have h1 : (ascii "--[").isPrefixOf (0x2D :: 0x2D :: t) = false := by
    cases t with
    | nil => rfl
    | cons b r =>
      have : b ≠ 0x5B := fun e => hb r (by rw [e])
      simp [ascii, List.isPrefixOf, this]
      exact fun e => this e.symm
  have h2 : (ascii "--").isPrefixOf (0x2D :: 0x2D :: t) = true := by
    simp [ascii, List.isPrefixOf]
  rw [h1, h2]
  simp


/-- The state `lexLineComment` on a comment that runs to the end of the input:
`strings.Index` returns `-1`, which is added to the cursor. -/
theorem lexLineComment_at_end (p c : List Nat) (s w : Int) (it : List Item) (hnl : 0x0A ∉ c) :
    lexLineComment (L p c s w it) =
      some (⟨p ++ c, (p.length : Int) - 1, (p.length : Int) - 1, w, it⟩, .lexText) := by
  simp only [lexLineComment, sliceFrom_L, indexNewline_none c hnl]
  rw [if_neg (by decide)]
  rfl

/-- The state `lexLineComment` on a comment followed by a newline: the cursor
moves to the newline. -/
theorem lexLineComment_newline (p c r : List Nat) (s w : Int) (it : List Item)
    (hnl : 0x0A ∉ c) (hc : c ≠ []) :
    lexLineComment (L p (c ++ 0x0A :: r) s w it) =
      some (L (p ++ c) (0x0A :: r) ((p ++ c).length : Int) w it, .lexText) := by
  have hlen : (c.length : Int) ≠ 0 := by
    cases c with
    | nil => exact absurd rfl hc
    | cons b t => simp only [List.length_cons]; omega
  have ha := advance_L p (c ++ 0x0A :: r) s w it c.length (by simp)
  simp only [List.take_left, List.drop_left] at ha
  simp only [lexLineComment, sliceFrom_L, indexNewline_at c r hnl]
  rw [if_neg hlen, ha, ignore_L]

theorem run_panicked (n : Nat) (l : Lexer) : run n ⟨l, .panicked⟩ = ⟨l, .panicked⟩ := by
  induction n with
  | zero => rfl
  | succ n ih => rw [run_succ, step_panicked, ih]

/-- The dispatch state with the cursor at `-1` panics: `next` slices
`l.input[-1:]`. -/
theorem lexText_negative (input : List Nat) (s w : Int) (it : List Item) :
    lexText ⟨input, -1, s, w, it⟩ = none := by
  have h1 : ¬ ((-1 : Int) ≥ (input.length : Int)) := by omega
  simp [lexText, skipSpace, next, sliceFrom, h1]

/-- C9 (as the code behaves): on `--` + t, where t contains no newline and does
not begin with `[`, the line-comment state moves the cursor to `-1`, the next
read of the input is out of range, and the scanner stops in a panic without
having sent any Item; in particular it never yields EOF. -/
theorem C9_line_comment_at_end_panics (t : List Nat) (hnl : 0x0A ∉ t)
    (hb : ∀ r, t ≠ 0x5B :: r) :
    (∀ n, 3 ≤ n → run n (NewLexer (0x2D :: 0x2D :: t)) =
      ⟨⟨0x2D :: 0x2D :: t, -1, -1, 1, []⟩, .panicked⟩) ∧
    ∀ items, ¬ Yields (0x2D :: 0x2D :: t) items := by
  have h1 := lexText_lineComment [] t 0 0 [] hb
  have h2 := lexLineComment_at_end [] (0x2D :: 0x2D :: t) 0 1 [] (by
    intro h
    simp only [List.mem_cons] at h
    rcases h with h | h | h
    · exact absurd h (by decide)
    · exact absurd h (by decide)
    · exact hnl h)
  simp only [List.nil_append, List.length_nil, Nat.cast_zero, zero_sub] at h1 h2
  have h3 := lexText_negative (0x2D :: 0x2D :: t) (-1) 1 []
  have hrun : ∀ k, run (k + 1 + 1 + 1) (NewLexer (0x2D :: 0x2D :: t)) =
      ⟨⟨0x2D :: 0x2D :: t, -1, -1, 1, []⟩, .panicked⟩ := by
    intro k
    have e1 : run (k + 1 + 1 + 1) ⟨L [] (0x2D :: 0x2D :: t) 0 0 [], .lexText⟩ = _ :=
      run_step .lexText (k + 1 + 1) h1
    have e2 : run (k + 1 + 1) ⟨L [] (0x2D :: 0x2D :: t) 0 1 [], .lexLineComment⟩ = _ :=
      run_step .lexLineComment (k + 1) h2
    have e3 : step ⟨⟨0x2D :: 0x2D :: t, -1, -1, 1, []⟩, .lexText⟩ =
        ⟨⟨0x2D :: 0x2D :: t, -1, -1, 1, []⟩, .panicked⟩ := by
      simp only [step, stateFn, h3]
    rw [NewLexer_eq, e1, e2, run_succ, e3, run_panicked]
  have hge : ∀ n, 3 ≤ n → run n (NewLexer (0x2D :: 0x2D :: t)) =
      ⟨⟨0x2D :: 0x2D :: t, -1, -1, 1, []⟩, .panicked⟩ := by
    intro n hn
    obtain ⟨k, rfl⟩ := Nat.exists_eq_add_of_le hn
    have := hrun k
    rwa [show k + 1 + 1 + 1 = 3 + k by omega] at this
  refine ⟨hge, ?_⟩
  rintro items ⟨n, hst, -⟩
  have hm := run_halted_le hst (Nat.le_add_right n 3)
  rw [hge (n + 3) (by omega)] at hm
  rw [← hm] at hst
  exact State.noConfusion hst

/-- C9 at the input `--x`: the scanner panics and yields nothing. -/
theorem C9_line_comment_at_end_panics_witness :
    (0x0A ∉ ascii "x" ∧ ∀ r, ascii "x" ≠ 0x5B :: r) ∧
    ((∀ n, 3 ≤ n → run n (NewLexer (ascii "--x")) =
      ⟨⟨ascii "--x", -1, -1, 1, []⟩, .panicked⟩) ∧
    ∀ items, ¬ Yields (ascii "--x") items) :=
  ⟨⟨by decide, fun r h => absurd (congrArg List.head? h) (by simp [ascii])⟩,
    C9_line_comment_at_end_panics (ascii "x") (by decide) (fun r h => absurd (congrArg List.head? h) (by simp [ascii]))⟩


theorem firstMatch_return : firstMatch TokenList (ascii "return 1") = some (ascii "return") := by
  decide!

/-- The dispatch state at a newline followed by `return 1`: the newline is
skipped and `return`, not followed by a word character, is sent as Return. -/
theorem lexText_return (p : List Nat) (s w : Int) (it : List Item) :
    lexText (L p (0x0A :: ascii "return 1") s w it) =
      some (L (p ++ [0x0A] ++ ascii "return") (ascii " 1")
        ((p ++ [0x0A] ++ ascii "return").length : Int) 1
        (it ++ [⟨.Return, ((p ++ [0x0A]).length : Int), ascii "return"⟩]), .lexText) := by
  have h := lexText_L_other [0x0A] (ascii "return 1") p s w it (by decide!)
    (by decide!) (by decide!) (by decide!)
  have hem := emit_L (p ++ [0x0A]) (ascii "return") (ascii " 1") 1 it .Return
  have hr : runeAt (ascii "return 1") = (0x72, 1) := by decide!
  have hd : List.drop (ascii "return").length (ascii "return 1") = ascii " 1" := by decide!
  have ht : List.take (ascii "return").length (ascii "return 1") = ascii "return" := by decide!
  have hk : IsKeyword (tokenMapGet (ascii "return")) (ascii "return") = true := by decide!
  have hg : tokenMapGet (ascii "return") = .Return := by decide!
  have hc : containsRune (alphabet ++ underscore ++ digits) (runeAt (ascii " 1")).1 = false := by
    decide!
  have hw : (runeAt (ascii " 1")).2 = 1 := by decide!
  rw [List.singleton_append] at h
  rw [h, lexTextComments_L, if_neg (by decide!), if_neg (by decide!), if_neg (by rw [hr]; decide),
    lexTextTail_L, if_neg (by rw [hr]; decide), if_neg (by rw [hr]; decide),
    if_neg (by rw [hr]; decide), matchTokens_L, firstMatch_return]
  simp only [hk, hc, hd, ht, hg, hw, if_true, Bool.false_eq_true, if_false, Nat.cast_one, hem]
  rfl


/-- C10: for every comment text t without a newline that does not begin with
`[`, the input `--` + t + newline + `return 1` yields exactly Return at Begin
len(t)+3, NumberLiteral `1` at Begin len(t)+10 and EOF at Begin len(t)+11: the
comment produces no Item. -/
theorem C10_line_comment_then_code (t : List Nat) (hnl : 0x0A ∉ t)
    (hb : ∀ r, t ≠ 0x5B :: r) :
    Yields (ascii "--" ++ t ++ ascii "\nreturn 1")
      [⟨.Return, (t.length : Int) + 3, ascii "return"⟩,
        ⟨.NumberLiteral, (t.length : Int) + 10, ascii "1"⟩,
        ⟨.EOF, (t.length : Int) + 11, []⟩] := by
  have hin : ascii "--" ++ t ++ ascii "\nreturn 1" =
      0x2D :: 0x2D :: (t ++ 0x0A :: ascii "return 1") := by
    have e1 : ascii "--" = [0x2D, 0x2D] := by decide
    have e2 : ascii "\nreturn 1" = 0x0A :: ascii "return 1" := by decide
    rw [e1, e2]; simp
  have hc : 0x2D :: 0x2D :: (t ++ 0x0A :: ascii "return 1") =
      (0x2D :: 0x2D :: t) ++ 0x0A :: ascii "return 1" := by simp
  have h1 := lexText_lineComment [] (t ++ 0x0A :: ascii "return 1") 0 0 [] (by
    intro r h
    cases t with
    | nil =>
      simp only [List.nil_append, List.cons.injEq] at h
      exact absurd h.1 (by decide)
    | cons b t1 =>
      simp only [List.cons_append, List.cons.injEq] at h
      exact hb t1 (by rw [h.1]))
  have h2 := lexLineComment_newline [] (0x2D :: 0x2D :: t) (ascii "return 1") 0 1 [] (by
    intro h
    simp only [List.mem_cons] at h
    rcases h with h | h | h
    · exact absurd h (by decide)
    · exact absurd h (by decide)
    · exact hnl h) (by simp)
  have h3 := lexText_return (0x2D :: 0x2D :: t) ((0x2D :: 0x2D :: t).length : Int) 1 []
  have h4 := lexText_L_digit [0x20] [0x31] ((0x2D :: 0x2D :: t) ++ [0x0A] ++ ascii "return")
    (((0x2D :: 0x2D :: t) ++ [0x0A] ++ ascii "return").length : Int) 1
    [⟨.Return, (((0x2D :: 0x2D :: t) ++ [0x0A]).length : Int), ascii "return"⟩]
    (by decide!) (by decide!) (by decide!)
  have h5 := lexNumberLiteral_decimal
    ((0x2D :: 0x2D :: t) ++ [0x0A] ++ ascii "return" ++ [0x20]) [0x31] [] [] 1
    [⟨.Return, (((0x2D :: 0x2D :: t) ++ [0x0A]).length : Int), ascii "return"⟩] rfl rfl rfl
  have h6 := lexText_eof ((0x2D :: 0x2D :: t) ++ [0x0A] ++ ascii "return" ++ [0x20] ++ [0x31])
    (((0x2D :: 0x2D :: t) ++ [0x0A] ++ ascii "return" ++ [0x20] ++ [0x31]).length : Int) 0
    ([⟨.Return, (((0x2D :: 0x2D :: t) ++ [0x0A]).length : Int), ascii "return"⟩] ++
      [⟨.NumberLiteral, (((0x2D :: 0x2D :: t) ++ [0x0A] ++ ascii "return" ++ [0x20]).length : Int),
        [0x31]⟩])
  have hr1 : (runeAt [0x31]).2 = 1 := by decide!
  have h01 : ascii " 1" = [0x20] ++ [0x31] := by decide
  simp only [List.nil_append, List.length_nil, Nat.cast_zero, List.append_nil, hr1,
    Nat.cast_one] at h1 h2 h3 h4 h5 h6
  rw [← hc] at h2
  rw [h01] at h3
  have e1 : run (1 + 1 + 1 + 1 + 1 + 1)
      ⟨L [] (0x2D :: 0x2D :: (t ++ 0x0A :: ascii "return 1")) 0 0 [], .lexText⟩ = _ :=
    run_step .lexText (1 + 1 + 1 + 1 + 1) h1
  have e2 : run (1 + 1 + 1 + 1 + 1)
      ⟨L [] (0x2D :: 0x2D :: (t ++ 0x0A :: ascii "return 1")) 0 1 [], .lexLineComment⟩ = _ :=
    run_step .lexLineComment (1 + 1 + 1 + 1) h2
  have e3 : run (1 + 1 + 1 + 1) ⟨_, .lexText⟩ = _ := run_step .lexText (1 + 1 + 1) h3
  have e4 : run (1 + 1 + 1) ⟨_, .lexText⟩ = _ := run_step .lexText (1 + 1) h4
  have e5 : run (1 + 1) ⟨_, .lexNumberLiteral⟩ = _ := run_step .lexNumberLiteral 1 h5
  have e6 : run 1 ⟨_, .lexText⟩ = _ := step_of_stateFn .lexText h6
  refine ⟨1 + 1 + 1 + 1 + 1 + 1, ?_⟩
  rw [hin, NewLexer_eq, e1, e2, e3, e4, e5, e6]
  refine ⟨rfl, ?_⟩
  have ea : ascii "1" = [0x31] := by decide
  have eb : (ascii "return").length = 6 := by decide
  simp only [L, ea, List.length_append, List.length_cons, List.length_nil, eb,
    List.length_singleton, Nat.cast_add, Nat.cast_one, Nat.cast_ofNat, List.cons.injEq,
    Item.mk.injEq, true_and, and_true, List.cons_append, List.nil_append, Nat.cast_zero]
  omega

/-- C10 at the input `-- comment`, newline, `return 1`. -/
theorem C10_line_comment_then_code_witness :
    (0x0A ∉ ascii " comment" ∧ ∀ r, ascii " comment" ≠ 0x5B :: r) ∧
    Yields (ascii "--" ++ ascii " comment" ++ ascii "\nreturn 1")
      [⟨.Return, ((ascii " comment").length : Int) + 3, ascii "return"⟩,
        ⟨.NumberLiteral, ((ascii " comment").length : Int) + 10, ascii "1"⟩,
        ⟨.EOF, ((ascii " comment").length : Int) + 11, []⟩] :=
  ⟨⟨by decide, fun r h => absurd (congrArg List.head? h) (by simp [ascii])⟩,
    C10_line_comment_then_code (ascii " comment") (by decide)
      (fun r h => absurd (congrArg List.head? h) (by simp [ascii]))⟩

/-! ## The dot branch of lexText -/

/-- The dispatch state at a `.` that ends the input: `next` consumes the dot,
`peek` meets the end of input and sets `width` to 0, so `backup` does not step
back, and the EOF Item is sent with the dot as its text. -/
theorem lexText_final_dot (p : List Nat) (s w : Int) (it : List Item) :
    lexText (L p [0x2E] s w it) =
      some (L (p ++ [0x2E]) [] ((p ++ [0x2E]).length : Int) 0
        (it ++ [⟨.EOF, (p.length : Int), [0x2E]⟩]), .halted) := by
  have h1 : runeAt [0x2E] = (((0x2E : Nat) : Int), 1) := runeAt_ascii 0x2E _ (by norm_num)
  have hs := skipSpace_L [] [0x2E] p s w it (by simp) (by rw [h1]; decide)
  have hb : backup (L (p ++ [0x2E]) [] (p.length : Int) 0 it) =
      L (p ++ [0x2E]) [] (p.length : Int) 0 it := by
    simp [backup, L]
  have hem := emit_L p [0x2E] [] 0 it .EOF
  simp only [List.nil_append, List.append_nil] at hs
  rw [lexText, hs]
  simp only [peek_L, next_L, h1, List.take_succ_cons, List.take_zero, List.drop_succ_cons,
    List.drop_zero, runeAt_nil, Nat.cast_zero]
  rw [if_neg (by decide), if_pos (by norm_num), hb, if_neg (by decide), lexTextComments_L,
    if_neg (by decide), if_neg (by decide), if_pos (by rw [runeAt_nil]), runeAt_nil]
  simp only [Nat.cast_zero, hem]
  rfl

/-- C11 (as the code behaves): when the dispatch state meets a `.` that ends
the input, the EOF Item is sent with Begin at the dot and the dot as its text;
the input `.` yields the single Item EOF with Begin 0 and text `.`, and the
input `x.` yields Identifier `x` and then EOF with Begin 1 and text `.`. -/
theorem C11_eof_swallows_final_dot :
    (∀ (p : List Nat) (w : Int) (it : List Item),
      stateFn .lexText (L p [0x2E] (p.length : Int) w it) =
        some (L (p ++ [0x2E]) [] ((p.length : Int) + 1) 0
          (it ++ [⟨.EOF, (p.length : Int), [0x2E]⟩]), .halted)) ∧
    Yields (ascii ".") [⟨.EOF, 0, ascii "."⟩] ∧
    Yields (ascii "x.") [⟨.Identifier, 0, ascii "x"⟩, ⟨.EOF, 1, ascii "."⟩] := by
  refine ⟨fun p w it => ?_, ⟨1, by decide⟩, ⟨2, by decide⟩⟩
  have := lexText_final_dot p (p.length : Int) w it
  simp only [List.length_append, List.length_singleton, Nat.cast_add, Nat.cast_one] at this
  exact this

/-! ## Identifiers that make no progress -/

/-- The dispatch state where no test and no candidate applies: the run of word
characters at the cursor, which may be empty, is sent as Identifier. -/
theorem lexText_identifier (p wrun rest : List Nat) (s w : Int) (it : List Item)
    (hsp : isSpace (runeAt (wrun ++ rest)).1 = false)
    (hd : unicodeIsDigit (runeAt (wrun ++ rest)).1 = false)
    (hdot : (runeAt (wrun ++ rest)).1 ≠ 0x2E)
    (hcom : (ascii "--").isPrefixOf (wrun ++ rest) = false)
    (heof : (runeAt (wrun ++ rest)).1 ≠ eof)
    (hq1 : (runeAt (wrun ++ rest)).1 ≠ 0x27)
    (hq2 : (runeAt (wrun ++ rest)).1 ≠ 0x22)
    (hbr : (runeAt (wrun ++ rest)).1 ≠ 0x5B)
    (hfm : firstMatch TokenList (wrun ++ rest) = none)
    (hrun : ∀ c ∈ wrun, isWordByte c = true)
    (hrest : containsRune (alphabet ++ underscore ++ digits) (runeAt rest).1 = false) :
    lexText (L p (wrun ++ rest) s w it) =
      some (L (p ++ wrun) rest ((p ++ wrun).length : Int) (runeAt rest).2
        (it ++ [⟨.Identifier, (p.length : Int), wrun⟩]), .lexText) := by
  have h1 := lexText_L_other [] (wrun ++ rest) p s w it (by simp) hsp hd hdot
  simp only [List.nil_append, List.append_nil] at h1
  have hcom3 : (ascii "--[").isPrefixOf (wrun ++ rest) = false := by
    rw [Bool.eq_false_iff] at hcom ⊢
    intro h
    apply hcom
    rw [List.isPrefixOf_iff_prefix] at h ⊢
    exact List.IsPrefix.trans (by decide : ascii "--" <+: ascii "--[") h
  have hacc := acceptRun_L (alphabet ++ underscore ++ digits) wrun rest p (p.length : Int)
    ((runeAt (wrun ++ rest)).2 : Int) it
    (fun c hc => ⟨wordByte_lt c (hrun c hc), (mem_wordChars c).2 (hrun c hc)⟩) hrest
  have hem := emit_L p wrun rest ((runeAt rest).2 : Int) it .Identifier
  rw [h1, lexTextComments_L, hcom3, hcom]
  simp only [Bool.false_eq_true, if_false, if_neg heof, lexTextTail_L, if_neg hq1, if_neg hq2,
    if_neg hbr, matchTokens_L, hfm, hacc, hem]
  rfl

/-! ## Line comment at the end of input: repeated Items -/

/-- Three steps on `x--` from the dispatch state at offset 0: Identifier `x` is
sent, the line comment moves the cursor from 1 back to 0, and the dispatch state
is entered again at offset 0. -/
theorem rewind_cycle (w : Int) (it : List Item) :
    run 3 ⟨L [] (ascii "x--") 0 w it, .lexText⟩ =
      ⟨L [] (ascii "x--") 0 1 (it ++ [⟨.Identifier, 0, ascii "x"⟩]), .lexText⟩ := by
  have h1 := lexText_identifier [] (ascii "x") (ascii "--") 0 w it (by decide!) (by decide!)
    (by decide!) (by decide!) (by decide!) (by decide!) (by decide!) (by decide!) (by decide!)
    (by decide!) (by decide!)
  have h2 := lexText_lineComment (ascii "x") [] ((ascii "x").length : Int) 1
    (it ++ [⟨.Identifier, 0, ascii "x"⟩]) (fun r h => List.noConfusion h)
  have h3 := lexLineComment_at_end (ascii "x") (ascii "--") ((ascii "x").length : Int) 1
    (it ++ [⟨.Identifier, 0, ascii "x"⟩]) (by decide)
  have hw : (runeAt (ascii "--")).2 = 1 := by decide!
  have hx : ascii "x--" = ascii "x" ++ ascii "--" := by decide
  have hd : ascii "--" = [0x2D, 0x2D] := by decide
  simp only [List.nil_append, List.length_nil, Nat.cast_zero, hw, Nat.cast_one] at h1
  rw [← hd] at h2
  have e1 : run (1 + 1 + 1) ⟨L [] (ascii "x" ++ ascii "--") 0 w it, .lexText⟩ = _ :=
    run_step .lexText (1 + 1) h1
  have e2 : run (1 + 1) ⟨L (ascii "x") (ascii "--") ((ascii "x").length : Int) 1
      (it ++ [⟨.Identifier, 0, ascii "x"⟩]), .lexText⟩ = _ := run_step .lexText 1 h2
  have e3 : run (0 + 1) ⟨L (ascii "x") (ascii "--") ((ascii "x").length : Int) 1
      (it ++ [⟨.Identifier, 0, ascii "x"⟩]), .lexLineComment⟩ = _ :=
    run_step .lexLineComment 0 h3
  rw [hx]
  exact e1.trans (e2.trans (e3.trans rfl))

theorem rewind_run : ∀ (k : Nat) (w : Int) (it : List Item),
    ∃ w1 : Int, run (3 * k) ⟨L [] (ascii "x--") 0 w it, .lexText⟩ =
      ⟨L [] (ascii "x--") 0 w1 (it ++ List.replicate k ⟨.Identifier, 0, ascii "x"⟩), .lexText⟩
  | 0, w, it => ⟨w, by simp [run]⟩
  | k + 1, w, it => by
    obtain ⟨w1, h⟩ := rewind_run k 1 (it ++ [⟨.Identifier, 0, ascii "x"⟩])
    refine ⟨w1, ?_⟩
    rw [show 3 * (k + 1) = 3 + 3 * k by ring, run_add, rewind_cycle, h, List.replicate_succ]
    simp

/-- C12 (as the code behaves): on the input `x--` the line-comment state moves
the cursor from offset 1 back to offset 0, so the scanner sends Identifier `x`
with Begin 0 again and again: after 3k steps it has sent k such Items, each
starting where the one before it started, and it never halts. -/
theorem C12_line_comment_rewinds_cursor :
    (∀ k : Nat, (run (3 * k) (NewLexer (ascii "x--"))).l.items =
      List.replicate k ⟨.Identifier, 0, ascii "x"⟩) ∧
    (∀ k : Nat, (run (3 * k) (NewLexer (ascii "x--"))).l.pos = 0) ∧
    ∀ n : Nat, (run n (NewLexer (ascii "x--"))).state ≠ .halted := by
  have hk : ∀ k : Nat, ∃ w1 : Int, run (3 * k) (NewLexer (ascii "x--")) =
      ⟨L [] (ascii "x--") 0 w1 (List.replicate k ⟨.Identifier, 0, ascii "x"⟩), .lexText⟩ := by
    intro k
    obtain ⟨w1, h⟩ := rewind_run k 0 []
    exact ⟨w1, by rw [NewLexer_eq, h]; rfl⟩
  refine ⟨fun k => ?_, fun k => ?_, fun n hn => ?_⟩
  · obtain ⟨w1, h⟩ := hk k
    rw [h]; rfl
  · obtain ⟨w1, h⟩ := hk k
    rw [h]; rfl
  · obtain ⟨w1, h⟩ := hk n
    have hm := run_halted_le hn (show n ≤ 3 * n by omega)
    rw [h] at hm
    rw [← hm] at hn
    exact State.noConfusion hn


/-- C18 (counterexample): on the input `@` the first Item sent is an Identifier
with empty text, and the scanner is back in the dispatch state at offset 0; on a
non-ASCII digit (U+0663) the first Item is a NumberLiteral with empty text. -/
theorem C18_counterexample :
    (run 1 (NewLexer (ascii "@"))).l.items = [⟨.Identifier, 0, []⟩] ∧
    (run 1 (NewLexer (ascii "@"))).l.pos = 0 ∧
    (run 1 (NewLexer (ascii "@"))).state = .lexText ∧
    (run 2 (NewLexer [0xD9, 0xA3])).l.items = [⟨.NumberLiteral, 0, []⟩] := by
  decide

/-! ## A bracket that opens no long bracket -/

/-- The state `lexDoubleBracketStringLiteral` on `[`, a run of `=` and anything
but a second `[`: the Error "didn't find another opening bracket". -/
theorem lexDoubleBracket_unopened (k : Nat) (p rest : List Nat) (s w : Int) (it : List Item)
    (hrest : ∀ b r, rest = b :: r → b ≠ 0x3D ∧ b ≠ 0x5B) :
    lexDoubleBracketStringLiteral (L p (0x5B :: (List.replicate k 0x3D ++ rest)) s w it) =
      some (L (p ++ 0x5B :: List.replicate k 0x3D) rest s ((runeAt rest).2 : Int)
        (it ++ [⟨.Error, s, ascii "didn't find another opening bracket"⟩]), .halted) := by
  have hc : ∀ valid : List Nat, (∀ v ∈ valid, v < 0x80) →
      (∀ b r, rest = b :: r → b ∉ valid) → containsRune valid (runeAt rest).1 = false := by
    intro valid hv hne
    cases rest with
    | nil => rw [runeAt_nil]; exact containsRune_eof _
    | cons b r => rw [containsRune_runeAt_cons valid hv, decide_eq_false (hne b r rfl)]
  have hrun := acceptRun_L (ascii "=") (List.replicate k 0x3D) rest (p ++ [0x5B]) s
    ((1 : Nat) : Int) it
    (by intro b hb; rw [List.eq_of_mem_replicate hb]; decide)
    (hc _ (by decide) (fun b r h hm => (hrest b r h).1 (by simpa [ascii] using hm)))
  have hacc := accept_L_reject (ascii "[") (by decide) (p ++ [0x5B] ++ List.replicate k 0x3D)
    rest s ((runeAt rest).2 : Int) it
    (fun b r h hm => (hrest b r h).2 (by simpa [ascii] using hm))
  simp only [lexDoubleBracketStringLiteral, next_L, runeAt_5B, List.take_succ_cons,
    List.take_zero, List.drop_succ_cons, List.drop_zero, hrun, hacc]
  simp [errorf, L]


/-! ## The registry -/

/-- C13 (amended): `Token.Type` returns one of the category constants for every
declared kind except ComparisonOperator, for which `tokenTypes` has no entry and
the method panics; the keys of TokenMap whose kind has no category are exactly
`>=`, `>`, `<=` and `<`. -/
theorem C13_registry_complete_except_comparison (k : Token) :
    ((k = .ComparisonOperator ∧ k.TypeOf = none ∧ k.IsType OperatorType = none) ∨
      (k ≠ .ComparisonOperator ∧ ∃ c, c ∈ categories ∧ k.TypeOf = some c)) ∧
    (TokenMap.filter (fun e => e.2.TypeOf == none)).map Prod.fst =
      [ascii ">=", ascii ">", ascii "<=", ascii "<"] := by
  refine ⟨?_, by decide⟩
  cases k <;> first
    | exact Or.inl (by decide)
    | exact Or.inr ⟨by decide, _, by decide, rfl⟩

/-- C13 (counterexample): ComparisonOperator is declared between EOF and
Require and is the kind TokenMap gives to `<`, the scanner emits it for the input
`<`, and `Token.Type` panics for it. -/
theorem C13_counterexample :
    Token.TypeOf .ComparisonOperator = none ∧
    Token.EOF.int < Token.ComparisonOperator.int ∧
    Token.ComparisonOperator.int < Token.Require.int ∧
    (ascii "<", Token.ComparisonOperator) ∈ TokenMap ∧
    Yields (ascii "<") [⟨.ComparisonOperator, 0, ascii "<"⟩, ⟨.EOF, 1, []⟩] :=
  ⟨by decide, by decide, by decide, by decide, ⟨2, by decide⟩⟩

/-- C14 (as the code behaves): `CommentType` and `WhitespaceType` both have the
value of `Significant`, the union of the keyword, literal, marker and identifier
masks; so Comment is `IsType(KeywordType)`, Space is `IsType(CommentType)`, and
a keyword such as If is of three of the eight categories; the kinds of exactly
one category are those of `InvalidType` and of `OperatorType`. -/
theorem C14_comment_and_whitespace_masks_overlap :
    CommentType = Significant ∧ WhitespaceType = Significant ∧ Significant = 46 ∧
    InvalidType = 1 ∧ KeywordType = 2 ∧ LiteralType = 4 ∧ MarkerType = 8 ∧
    OperatorType = 16 ∧ IdentifierType = 32 ∧
    CommentType &&& KeywordType ≠ 0 ∧ CommentType &&& WhitespaceType ≠ 0 ∧
    Token.IsType .Comment KeywordType = some true ∧
    Token.IsType .Space CommentType = some true ∧
    categories.filter (fun c => Token.IsType .If c == some true) =
      [KeywordType, CommentType, WhitespaceType] ∧
    categories.filter (fun c => Token.IsType .Comment c == some true) =
      [KeywordType, LiteralType, MarkerType, IdentifierType, CommentType, WhitespaceType] ∧
    tokenTypes.all (fun e =>
      ((categories.filter (fun c => Token.IsType e.1 c == some true)).length == 1) ==
        (e.2 == InvalidType || e.2 == OperatorType)) = true := by
  decide

/-! ## The stream -/

theorem Next_inside (xs : List Item) (k : Nat) (x : Item) (h : xs.get? (k + 1) = some x)
    (hk : k + 1 + 1 ≤ xs.length) :
    ItemList.Next ⟨xs, (k : Int)⟩ = some (x, ⟨xs, ((k + 1 : Nat) : Int)⟩) := by
  have h1 : ¬ ((k : Int) + 1 = (xs.length : Int)) := by omega
  have h2 : (0 : Int) ≤ (k : Int) + 1 := by omega
  have h3 : ((k : Int) + 1).toNat = k + 1 := by omega
  simp only [ItemList.Next, if_neg h1, if_pos h2, h3, h, Option.map_some']
  rfl

theorem Next_at_end (xs : List Item) (n : Nat) (h : n + 1 = xs.length) :
    ItemList.Next ⟨xs, (n : Int)⟩ = some (Item.zero, ⟨xs, (n : Int)⟩) := by
  have h1 : (n : Int) + 1 = (xs.length : Int) := by omega
  simp only [ItemList.Next, if_pos h1]

theorem nextCalls_inside (xs : List Item) : ∀ (k j : Nat), j + k + 1 ≤ xs.length →
    nextCalls k ⟨xs, (j : Int)⟩ = some ((xs.drop (j + 1)).take k, ⟨xs, ((j + k : Nat) : Int)⟩)
  | 0, j, _ => by simp [nextCalls]
  | k + 1, j, h => by
    have hlt : j + 1 < xs.length := by omega
    have hget : xs.get? (j + 1) = some (xs.get ⟨j + 1, hlt⟩) := List.get?_eq_get hlt
    have hd : xs.drop (j + 1) = xs.get ⟨j + 1, hlt⟩ :: xs.drop (j + 1 + 1) := by
      rw [List.drop_eq_getElem_cons hlt]; rfl
    rw [nextCalls, Next_inside xs j _ hget (by omega)]
    simp only
    rw [nextCalls_inside xs k (j + 1) (by omega), hd, List.take_succ_cons]
    simp only [Option.map_some', Option.some.injEq, Prod.mk.injEq, true_and]
    congr 2
    omega

theorem nextCalls_at_end (xs : List Item) (n : Nat) (h : n + 1 = xs.length) : ∀ m : Nat,
    nextCalls m ⟨xs, (n : Int)⟩ = some (List.replicate m Item.zero, ⟨xs, (n : Int)⟩)
  | 0 => rfl
  | m + 1 => by
    rw [nextCalls, Next_at_end xs n h]
    simp only
    rw [nextCalls_at_end xs n h m]
    rfl

theorem nextCalls_add : ∀ (a b : Nat) (s : ItemList) (r1 : List Item) (s1 : ItemList),
    nextCalls a s = some (r1, s1) →
    nextCalls (a + b) s = (nextCalls b s1).map (fun r => (r1 ++ r.1, r.2))
  | 0, b, s, r1, s1, h => by
    simp only [nextCalls, Option.some.injEq, Prod.mk.injEq] at h
    obtain ⟨rfl, rfl⟩ := h
    cases hb : nextCalls b s <;> simp [hb]
  | a + 1, b, s, r1, s1, h => by
    rw [Nat.add_right_comm, nextCalls]
    rw [nextCalls] at h
    cases hn : s.Next with
    | none => rw [hn] at h; cases h
    | some p =>
      obtain ⟨i, s2⟩ := p
      rw [hn] at h
      simp only at h ⊢
      cases ha : nextCalls a s2 with
      | none => rw [ha] at h; cases h
      | some q =>
        obtain ⟨r2, s3⟩ := q
        rw [ha] at h
        simp only [Option.map_some', Option.some.injEq, Prod.mk.injEq] at h
        obtain ⟨rfl, rfl⟩ := h
        rw [nextCalls_add a b s2 r2 s3 ha]
        cases hb : nextCalls b s3 <;> simp [hb]

/-- C20: for a list built by `NewList` from n ≥ 1 Items x0 .. x(n-1), the first
k calls of `Next`, k ≤ n-1, return x1 .. xk in this order and leave `Pos` at k
and `Items` as it was (x0 is skipped); a call made when `Pos` is n-1 returns the
zero Item (kind EOF, Begin 0, empty text) and changes nothing, so every call
after the first n-1 returns the zero Item. -/
theorem C20_item_list_iteration (xs : List Item) (hn : 1 ≤ xs.length) :
    (∀ k : Nat, k ≤ xs.length - 1 →
      nextCalls k (NewList xs) = some ((xs.drop 1).take k, ⟨xs, (k : Int)⟩)) ∧
    ItemList.Next ⟨xs, ((xs.length - 1 : Nat) : Int)⟩ =
      some (⟨.EOF, 0, []⟩, ⟨xs, ((xs.length - 1 : Nat) : Int)⟩) ∧
    ∀ m : Nat, nextCalls (xs.length - 1 + m) (NewList xs) =
      some (xs.drop 1 ++ List.replicate m ⟨.EOF, 0, []⟩,
        ⟨xs, ((xs.length - 1 : Nat) : Int)⟩) := by
  have hin : ∀ k : Nat, k ≤ xs.length - 1 →
      nextCalls k (NewList xs) = some ((xs.drop 1).take k, ⟨xs, (k : Int)⟩) := by
    intro k hk
    have := nextCalls_inside xs k 0 (by omega)
    simpa [NewList] using this
  refine ⟨hin, Next_at_end xs (xs.length - 1) (by omega), fun m => ?_⟩
  have h1 := hin (xs.length - 1) le_rfl
  rw [nextCalls_add _ m _ _ _ h1, nextCalls_at_end xs (xs.length - 1) (by omega) m]
  have ht : (xs.drop 1).take (xs.length - 1) = xs.drop 1 := by
    rw [List.take_of_length_le (by simp)]
  simp only [Option.map_some', ht]
  rfl

/-- C20 on a list of three Items: two calls return the second and the third
Item, and the next two calls return the zero Item. -/
theorem C20_item_list_iteration_witness :
    nextCalls (3 - 1 + 2) (NewList [⟨.If, 0, ascii "if"⟩, ⟨.Then, 3, ascii "then"⟩,
        ⟨.End, 8, ascii "end"⟩]) =
      some ([⟨.Then, 3, ascii "then"⟩, ⟨.End, 8, ascii "end"⟩, ⟨.EOF, 0, []⟩, ⟨.EOF, 0, []⟩],
        ⟨[⟨.If, 0, ascii "if"⟩, ⟨.Then, 3, ascii "then"⟩, ⟨.End, 8, ascii "end"⟩], 2⟩) :=
  (C20_item_list_iteration [⟨.If, 0, ascii "if"⟩, ⟨.Then, 3, ascii "then"⟩,
    ⟨.End, 8, ascii "end"⟩] (by decide)).2.2 2

/-! ## Cursor bounds -/

/-- C19 (as the code behaves): on the input `--` the line-comment state sets
`pos` and `start` to -1 and the next read of the input panics; on a `.` followed
by a two-byte character the `backup` after `peek` takes the width of the
peeked rune, so the cursor, 0 before the `next` that consumed the dot, is -1
after the `backup`, and the slice in the dispatch state panics; on `a=.` followed
by a three-byte character the same `backup` leaves `pos` before `start` and the
slice in `emit` panics. -/
theorem C19_cursor_leaves_bounds :
    (run 2 (NewLexer (ascii "--"))).l.pos = -1 ∧
    (run 2 (NewLexer (ascii "--"))).l.start = -1 ∧
    (run 2 (NewLexer (ascii "--"))).state = .lexText ∧
    (run 3 (NewLexer (ascii "--"))).state = .panicked ∧
    (next (NewLexer [0x2E, 0xC3, 0xA9]).l).map (fun a => a.2.pos) = some 1 ∧
    ((next (NewLexer [0x2E, 0xC3, 0xA9]).l).bind (fun a =>
      (peek a.2).map (fun b => (backup b.2).pos))) = some (-1) ∧
    (run 1 (NewLexer [0x2E, 0xC3, 0xA9])).state = .panicked ∧
    (run 2 (NewLexer [0x61, 0x3D, 0x2E, 0xE2, 0x82, 0xAC])).state = .lexText ∧
    (run 2 (NewLexer [0x61, 0x3D, 0x2E, 0xE2, 0x82, 0xAC])).l.start = 2 ∧
    (run 3 (NewLexer [0x61, 0x3D, 0x2E, 0xE2, 0x82, 0xAC])).state = .panicked := by
  decide


/-! ## Break and continue in the candidate loop -/

theorem TokenList_blocked : laterPrefixesBlocked TokenList = true := by decide!

theorem L_of_sliceFrom {l : Lexer} {rest : List Nat}
    (h : sliceFrom l.input l.pos = some rest) :
    l = L (l.input.take l.pos.toNat) rest l.start l.width l.items := by
  obtain ⟨input, pos, start, width, items⟩ := l
  simp only [sliceFrom] at h
  split_ifs at h with hb
  simp only [Option.some.injEq] at h
  subst h
  have h1 : ((min pos.toNat input.length : Nat) : Int) = pos := by
    have : pos.toNat ≤ input.length := by omega
    rw [Nat.min_eq_left this]; omega
  simp only [L, List.take_append_drop, List.length_take, h1]

theorem matchTokensSpec_cons (t : List Nat) (more : List (List Nat)) (pre rest : List Nat)
    (s w : Int) (it : List Item) :
    matchTokensSpec (t :: more) (L pre rest s w it) =
      if lowerHasPrefix (rest.take t.length) t then
        if IsKeyword (tokenMapGet t) t then
          if containsRune (alphabet ++ underscore ++ digits) (runeAt (rest.drop t.length)).1 then
            matchTokensSpec more (L pre rest s (runeAt (rest.drop t.length)).2 it)
          else
            (emit (L (pre ++ rest.take t.length) (rest.drop t.length) s
              (runeAt (rest.drop t.length)).2 it) (tokenMapGet t)).map Matched.emitted
        else
          (emit (L (pre ++ rest.take t.length) (rest.drop t.length) s w it)
            (tokenMapGet t)).map Matched.emitted
      else matchTokensSpec more (L pre rest s w it) := by
  have hpt : (if rest.length > t.length then rest.take t.length else rest) = rest.take t.length := by
    split_ifs with h
    · rfl
    · rw [List.take_of_length_le (by omega)]
  rw [matchTokensSpec]
  simp only [sliceFrom_L, hpt]
  by_cases hm : lowerHasPrefix (rest.take t.length) t = true
  · have hlen : t.length ≤ rest.length := by
      have := lowerHasPrefix_length hm
      simp only [List.length_take] at this
      omega
    simp only [hm, if_true, advance_L pre rest s w it t.length hlen]
    by_cases hk : IsKeyword (tokenMapGet t) t = true
    · simp only [hk, if_true, accept_L]
      by_cases hc : containsRune (alphabet ++ underscore ++ digits)
          (runeAt (rest.drop t.length)).1 = true
      · have hw := runeAt_width_le (rest.drop t.length)
        have hb := backup_L (pre ++ rest.take t.length)
          ((rest.drop t.length).take (runeAt (rest.drop t.length)).2)
          ((rest.drop t.length).drop (runeAt (rest.drop t.length)).2) s it
        simp only [List.length_take, Nat.min_eq_left hw, List.take_append_drop] at hb
        have hu := unbreak_L pre (rest.take t.length) (rest.drop t.length) s
          (runeAt (rest.drop t.length)).2 it
        simp only [List.length_take, Nat.min_eq_left hlen, List.take_append_drop] at hu
        simp only [hc, if_true, hb, hu]
      · simp only [hc]
        rfl
    · simp only [hk]
      rfl
  · simp only [hm]
    rfl


theorem word_width (x : List Nat)
    (h : containsRune (alphabet ++ underscore ++ digits) (runeAt x).1 = true) :
    (runeAt x).2 = 1 := by
  cases x with
  | nil => rw [runeAt_nil, containsRune_eof] at h; cases h
  | cons b r =>
    have hv : ∀ v ∈ alphabet ++ underscore ++ digits, v < 0x80 := by decide
    rw [containsRune_runeAt_cons _ hv, decide_eq_true_eq] at h
    rw [runeAt_ascii b r (hv b h)]

theorem wordByte_of_lower (c : Nat) (h : isWordByte (lowerByte c) = true) :
    isWordByte c = true := by
  simp only [isWordByte, isAlnum, isLetter, Bool.or_eq_true, Bool.and_eq_true,
    decide_eq_true_eq, beq_iff_eq, lowerByte] at h ⊢
  split_ifs at h <;> omega

/-- Once a keyword-like candidate `t` has matched before a word character, every
later candidate is skipped by the loop of the specification. -/
theorem matchTokensSpec_blocked (t pre rest : List Nat) (s : Int) (it : List Item)
    (ht : t <+: rest.map lowerByte) : ∀ more : List (List Nat),
    more.all (fun u => !t.isPrefixOf u &&
      (!u.isPrefixOf t || (IsKeyword (tokenMapGet u) u && wordAt t u.length))) = true →
    matchTokensSpec more (L pre rest s 1 it) = some (.fallThrough (L pre rest s 1 it))
  | [], _ => rfl
  | u :: more, h => by
    rw [List.all_cons, Bool.and_eq_true] at h
    have ih := matchTokensSpec_blocked t pre rest s it ht more h.2
    rw [matchTokensSpec_cons]
    by_cases hm : lowerHasPrefix (rest.take u.length) u = true
    · have hu : u <+: rest.map lowerByte := lowerHasPrefix_pre hm
      have h1 := h.1
      simp only [Bool.and_eq_true, Bool.not_eq_true', Bool.or_eq_true] at h1
      obtain ⟨hnt, hcase⟩ := h1
      have hut : u <+: t := by
        rcases List.prefix_or_prefix_of_prefix ht hu with h3 | h3
        · have : t.isPrefixOf u = true := List.isPrefixOf_iff_prefix.2 h3
          rw [hnt] at this; cases this
        · exact h3
      rcases hcase with hc | hc
      · have : u.isPrefixOf t = true := List.isPrefixOf_iff_prefix.2 hut
        rw [hc] at this; cases this
      · obtain ⟨hk, hw⟩ := hc
        simp only [wordAt] at hw
        cases hg : t.get? u.length with
        | none => rw [hg] at hw; cases hw
        | some c =>
          rw [hg] at hw
          simp only at hw
          obtain ⟨tl, htl⟩ := ht
          have hg2 : (rest.map lowerByte).get? u.length = some c := by
            rw [← htl]
            have hlt : u.length < t.length := by
              rw [List.get?_eq_some] at hg
              exact hg.1
            rw [List.get?_eq_getElem?, List.getElem?_append_left hlt, ← List.get?_eq_getElem?]
            exact hg
          rw [List.get?_eq_getElem?, List.getElem?_map] at hg2
          cases hr : rest[u.length]? with
          | none => rw [hr] at hg2; cases hg2
          | some c0 =>
            rw [hr] at hg2
            simp only [Option.map_some', Option.some.injEq] at hg2
            have hc0 : isWordByte c0 = true := wordByte_of_lower c0 (by rw [hg2]; exact hw)
            have hlt0 : u.length < rest.length := by
              rw [List.getElem?_eq_some_iff] at hr
              exact hr.1
            have hd : rest.drop u.length = c0 :: rest.drop (u.length + 1) := by
              rw [List.drop_eq_getElem_cons hlt0]
              rw [List.getElem?_eq_getElem hlt0] at hr
              simp only [Option.some.injEq] at hr
              rw [hr]
            have hrune : runeAt (rest.drop u.length) = ((c0 : Int), 1) := by
              rw [hd]; exact runeAt_word c0 _ hc0
            have hcont : containsRune (alphabet ++ underscore ++ digits) (c0 : Int) = true := by
              rw [containsRune_natCast]
              exact decide_eq_true ((mem_wordChars c0).2 hc0)
            rw [if_pos hm, if_pos hk, hrune, if_pos hcont]
            exact ih
    · rw [if_neg hm]
      exact ih

theorem firstMatch_cons (t : List Nat) (more : List (List Nat)) (rest : List Nat) :
    firstMatch (t :: more) rest =
      if lowerHasPrefix (rest.take t.length) t then some t else firstMatch more rest := by
  simp only [firstMatch, List.find?_cons]
  split <;> simp_all

/-- On a candidate list with the property `laterPrefixesBlocked`, the loop of the
specification and the loop of the code have the same result. -/
theorem matchTokensSpec_eq_L : ∀ ts : List (List Nat), laterPrefixesBlocked ts = true →
    ∀ (pre rest : List Nat) (s w : Int) (it : List Item),
    matchTokensSpec ts (L pre rest s w it) = matchTokens ts (L pre rest s w it)
  | [], _, _, _, _, _, _ => rfl
  | t :: more, h, pre, rest, s, w, it => by
    rw [laterPrefixesBlocked, Bool.and_eq_true, Bool.or_eq_true, Bool.not_eq_true'] at h
    have ih := matchTokensSpec_eq_L more h.2
    rw [matchTokensSpec_cons, matchTokens_L, firstMatch_cons]
    by_cases hm : lowerHasPrefix (rest.take t.length) t = true
    · rw [if_pos hm, if_pos hm]
      simp only
      by_cases hk : IsKeyword (tokenMapGet t) t = true
      · rw [if_pos hk, if_pos hk]
        by_cases hc : containsRune (alphabet ++ underscore ++ digits)
            (runeAt (rest.drop t.length)).1 = true
        · rw [if_pos hc, if_pos hc, word_width _ hc]
          rcases h.1 with hk2 | hall
          · rw [hk2] at hk; cases hk
          · exact matchTokensSpec_blocked t pre rest s it (lowerHasPrefix_pre hm) more hall
        · rw [if_neg hc, if_neg hc]
      · rw [if_neg hk, if_neg hk]
    · rw [if_neg hm, if_neg hm, ih, matchTokens_L]

/-- C16: for every scanner state (every input and every cursor position), the
candidate loop as coded, which stops at the first keyword-like candidate that
matches but is followed by an ASCII letter, digit or underscore, has the same
result as the loop of the specification, which undoes that candidate and
continues with the next one: both send the same Item with the same span, or both
fall through to Identifier in the same state, or both panic. -/
theorem C16_break_equals_continue (l : Lexer) :
    matchTokensSpec TokenList l = matchTokens TokenList l := by
  cases h : sliceFrom l.input l.pos with
  | none =>
    have hne : TokenList ≠ [] := by decide!
    obtain ⟨t, more, hT⟩ := List.exists_cons_of_ne_nil hne
    rw [hT, matchTokensSpec, matchTokens]
    simp only [h]
  | some rest =>
    rw [L_of_sliceFrom h]
    exact matchTokensSpec_eq_L TokenList TokenList_blocked _ _ _ _ _


/-! ## No Item of kind TableLookupOperatorLeft -/

theorem Sends.unchanged {l l1 : Lexer} (h : Same l l1) : Sends l l1 :=
  ⟨[], by simp [h.2], by simp⟩

theorem Sends.byEmit {l l0 l1 : Lexer} {t : Token} (h : Same l l0)
    (he : emit l0 t = some l1) (ht : t ≠ .TableLookupOperatorLeft) : Sends l l1 := by
  obtain ⟨_, i, hit, hitems⟩ := emit_items he
  refine ⟨[i], by rw [hitems, h.2], ?_⟩
  intro j hj
  rw [List.mem_singleton] at hj
  subst hj
  rw [hit]; exact ht

theorem Sends.byErrorf {l l0 : Lexer} (msg : String) (h : Same l l0) :
    Sends l (errorf l0 msg).1 :=
  ⟨[⟨.Error, l0.start, ascii msg⟩], by
    show l0.items ++ [_] = l.items ++ [_]
    rw [h.2], by
    intro j hj
    rw [List.mem_singleton] at hj
    subst hj
    show Token.Error ≠ Token.TableLookupOperatorLeft
    decide⟩

theorem Sends.after {l l0 l1 : Lexer} (s : Same l l0) (h : Sends l0 l1) : Sends l l1 := by
  obtain ⟨new, h1, h2⟩ := h
  exact ⟨new, by rw [h1, s.2], h2⟩

/-- The rune `peek` returns is the byte at the cursor when that byte is ASCII. -/
theorem peek_rune {l l1 : Lexer} {r : Int} (h : peek l = some (r, l1)) (b : Nat)
    (rest : List Nat) (hs : sliceFrom l1.input l1.pos = some (b :: rest)) (hb : b < 0x80) :
    r = (b : Int) := by
  obtain ⟨input, pos, start, width, items⟩ := l
  simp only [peek, next] at h
  split_ifs at h with hge
  · simp only [Option.some.injEq, Prod.mk.injEq] at h
    obtain ⟨-, rfl⟩ := h
    simp only [backup, sliceFrom, sub_zero] at hs
    split_ifs at hs with hb2
    simp only [Option.some.injEq] at hs
    have : (input.drop pos.toNat).length = 0 := by
      rw [List.length_drop]; omega
    rw [hs] at this
    simp at this
  · cases hsl : sliceFrom input pos with
    | none => simp [hsl] at h
    | some s =>
      simp only [hsl, Option.some.injEq, Prod.mk.injEq] at h
      obtain ⟨rfl, rfl⟩ := h
      simp only [backup, add_sub_cancel_right] at hs
      rw [hsl] at hs
      simp only [Option.some.injEq] at hs
      subst hs
      rw [decodeRune_ascii b rest hb]

theorem TokenList_left_bracket :
    ∀ t ∈ TokenList, tokenMapGet t = .TableLookupOperatorLeft → t = [0x5B] := by
  decide!

theorem lowerByte_5B (b : Nat) (h : lowerByte b = 0x5B) : b = 0x5B := by
  simp only [lowerByte] at h
  split_ifs at h <;> omega

theorem matchTokens_sends : ∀ (ts : List (List Nat)) (l : Lexer) (r : Matched),
    (∀ t ∈ ts, ∀ rest, sliceFrom l.input l.pos = some rest →
      lowerHasPrefix (if rest.length > t.length then rest.take t.length else rest) t = true →
      tokenMapGet t ≠ .TableLookupOperatorLeft) →
    matchTokens ts l = some r →
    match r with
    | .emitted l1 => Sends l l1
    | .fallThrough l1 => Same l l1
  | [], l, r, _, h => by
    simp only [matchTokens] at h; cases h; exact Same.refl _
  | t :: more, l, r, hts, h => by
    simp only [matchTokens] at h
    split at h
    · cases h
    · rename_i rest hrest
      have hl1 : Same l { l with pos := l.pos + (t.length : Int) } := ⟨rfl, rfl⟩
      by_cases hm : lowerHasPrefix
          (if rest.length > t.length then rest.take t.length else rest) t = true
      · have hkind := hts t (List.mem_cons_self _ _) rest hrest hm
        rw [if_pos hm] at h
        by_cases hk : IsKeyword (tokenMapGet t) t = true
        · rw [if_pos hk] at h
          split at h
          · cases h
          · rename_i l2 ha
            cases h
            exact ⟨(accept_same ha).1, (accept_same ha).2⟩
          · rename_i l2 ha
            cases he : emit l2 (tokenMapGet t) with
            | none => rw [he] at h; cases h
            | some l3 =>
              rw [he] at h; cases h
              exact Sends.byEmit (hl1.trans (accept_same ha)) he hkind
        · rw [if_neg hk] at h
          cases he : emit { l with pos := l.pos + (t.length : Int) } (tokenMapGet t) with
          | none => rw [he] at h; cases h
          | some l3 =>
            rw [he] at h; cases h
            exact Sends.byEmit hl1 he hkind
      · rw [if_neg hm] at h
        exact matchTokens_sends more l r (fun x hx => hts x (List.mem_cons_of_mem _ hx)) h

/-- After `peek` has returned a rune other than `[`, no candidate of kind
TableLookupOperatorLeft matches at the cursor. -/
theorem no_left_bracket {l l1 : Lexer} {r : Int} (hp : peek l = some (r, l1))
    (hr : ¬ r = 0x5B) : ∀ t ∈ TokenList, ∀ rest, sliceFrom l1.input l1.pos = some rest →
      lowerHasPrefix (if rest.length > t.length then rest.take t.length else rest) t = true →
      tokenMapGet t ≠ .TableLookupOperatorLeft := by
  intro t ht rest hrest hm hkind
  have ht5 := TokenList_left_bracket t ht hkind
  subst ht5
  cases rest with
  | nil => simp [lowerHasPrefix] at hm
  | cons b rest1 =>
    have hpt : (if (b :: rest1).length > [0x5B].length then (b :: rest1).take [0x5B].length
        else b :: rest1) = b :: (if rest1.length > 0 then [] else rest1) := by
      by_cases hl : rest1.length > 0
      · simp [hl]
      · simp [hl]
    rw [hpt] at hm
    simp only [lowerHasPrefix, List.all_cons, Bool.and_eq_true, decide_eq_true_eq,
      List.map_cons, List.isPrefixOf, beq_iff_eq] at hm
    have hb5 : b = 0x5B := lowerByte_5B b hm.2.1.symm
    have := peek_rune hp b rest1 hrest hm.1.1
    rw [hb5] at this
    exact hr (by rw [this]; rfl)

theorem lexTextTail_sends {l l1 : Lexer} {st1 : State} (h : lexTextTail l = some (l1, st1)) :
    Sends l l1 := by
  unfold lexTextTail at h
  split at h
  · cases h
  · rename_i r1 l2 hp1
    have s1 := peek_same hp1
    split_ifs at h
    · cases h; exact Sends.unchanged s1
    · split at h
      · cases h
      · rename_i r2 l3 hp2
        have s2 := s1.trans (peek_same hp2)
        split_ifs at h
        · cases h; exact Sends.unchanged s2
        · split at h
          · cases h
          · rename_i r3 l4 hp3
            have s3 := s2.trans (peek_same hp3)
            split_ifs at h with hr3
            · cases h; exact Sends.unchanged s3
            · have hno := no_left_bracket hp3 hr3
              split at h
              · cases h
              · rename_i l5 hm
                cases h
                have := matchTokens_sends TokenList _ _ hno hm
                simp only at this
                exact Sends.after s3 this
              · rename_i l5 hm
                have hs := matchTokens_sends TokenList _ _ hno hm
                simp only at hs
                split at h
                · cases h
                · rename_i n6 l6 ha
                  cases he : emit l6 .Identifier with
                  | none => rw [he] at h; cases h
                  | some l7 =>
                    rw [he] at h; cases h
                    exact Sends.byEmit ((s3.trans hs).trans (acceptRun_same ha)) he
                      (by decide)

theorem lexTextComments_sends {l l1 : Lexer} {st1 : State}
    (h : lexTextComments l = some (l1, st1)) : Sends l l1 := by
  unfold lexTextComments at h
  split at h
  · cases h
  · split_ifs at h
    · cases h; exact Sends.unchanged (Same.refl _)
    · cases h; exact Sends.unchanged (Same.refl _)
    · split at h
      · cases h
      · rename_i r l2 hp
        have s1 := peek_same hp
        split_ifs at h
        · cases he : emit l2 .EOF with
          | none => rw [he] at h; cases h
          | some l3 => rw [he] at h; cases h; exact Sends.byEmit s1 he (by decide)
        · have := lexTextTail_sends h
          exact Sends.after s1 this

theorem lexText_sends {l l1 : Lexer} {st1 : State} (h : lexText l = some (l1, st1)) :
    Sends l l1 := by
  unfold lexText at h
  split at h
  · cases h
  · rename_i l2 hs
    have s1 := skipSpace_same hs
    split at h
    · cases h
    · rename_i r l3 hp
      have s2 := s1.trans (peek_same hp)
      split_ifs at h
      · cases h; exact Sends.unchanged s2
      · split at h
        · cases h
        · rename_i r4 l4 hn
          split at h
          · cases h
          · rename_i r5 l5 hp5
            have s3 := ((s2.trans (next_same hn)).trans (peek_same hp5)).trans (backup_same _)
            split_ifs at h
            · cases h; exact Sends.unchanged s3
            · have := lexTextComments_sends h
              exact Sends.after s3 this
      · have := lexTextComments_sends h
        exact Sends.after s2 this


theorem lexNumberLiteral_sends {l l1 : Lexer} {st1 : State}
    (h : lexNumberLiteral l = some (l1, st1)) : Sends l l1 := by
  unfold lexNumberLiteral at h
  split at h
  · cases h
  · rename_i z l2 ha
    have s1 := accept_same ha
    have hx : ∀ (b : Bool) (lx : Lexer),
        (if z then accept (ascii "xX") l2 else some (false, l2)) = some (b, lx) → Same l lx := by
      intro b lx hb
      cases z with
      | true => exact s1.trans (accept_same hb)
      | false => simp only [Bool.false_eq_true, if_false] at hb; cases hb; exact s1
    split at h
    · cases h
    · rename_i l3 hx3
      have s2 := hx _ _ hx3
      split at h
      · cases h
      · rename_i n4 l4 hr
        cases he : emit l4 .NumberLiteral with
        | none => rw [he] at h; cases h
        | some l5 =>
          rw [he] at h; cases h
          exact Sends.byEmit (s2.trans (acceptRun_same hr)) he (by decide)
    · rename_i l3 hx3
      have s2 := hx _ _ hx3
      split at h
      · cases h
      · rename_i n4 l4 hr
        have s3 := s2.trans (acceptRun_same hr)
        split at h
        · cases h
        · rename_i dot l5 hd
          have s4 := s3.trans (accept_same hd)
          split at h
          · cases h
          · rename_i l6 h6
            have s5 : Same l l6 := by
              cases dot with
              | true =>
                simp only [if_true] at h6
                cases hr2 : acceptRun digits l5 with
                | none => rw [hr2] at h6; cases h6
                | some p => rw [hr2] at h6; cases h6; exact s4.trans (acceptRun_same hr2)
              | false => simp only [Bool.false_eq_true, if_false] at h6; cases h6; exact s4
            split at h
            · cases h
            · rename_i e l7 h7
              have s6 := s5.trans (accept_same h7)
              split at h
              · cases h
              · rename_i l8 h8
                have s7 : Same l l8 := by
                  cases e with
                  | true =>
                    simp only [if_true] at h8
                    cases hr2 : acceptRun digits l7 with
                    | none => rw [hr2] at h8; cases h8
                    | some p => rw [hr2] at h8; cases h8; exact s6.trans (acceptRun_same hr2)
                  | false => simp only [Bool.false_eq_true, if_false] at h8; cases h8; exact s6
                cases he : emit l8 .NumberLiteral with
                | none => rw [he] at h; cases h
                | some l9 =>
                  rw [he] at h; cases h
                  exact Sends.byEmit s7 he (by decide)


theorem lexBlockComment_sends {l l1 : Lexer} {st1 : State}
    (h : lexBlockComment l = some (l1, st1)) : Sends l l1 := by
  unfold lexBlockComment at h
  split at h
  · cases h
  · rename_i n2 l2 h2
    split at h
    · cases h
    · rename_i r3 l3 h3
      split at h
      · cases h
      · rename_i n4 l4 h4
        have s := ((acceptRun_same h2).trans (next_same h3)).trans (acceptRun_same h4)
        split at h
        · cases h
        · rename_i l5 h5
          cases h
          exact Sends.byErrorf _ (s.trans (accept_same h5))
        · rename_i l5 h5
          cases h
          exact Sends.unchanged (s.trans (accept_same h5))

theorem lexDoubleBracket_sends {l l1 : Lexer} {st1 : State}
    (h : lexDoubleBracketStringLiteral l = some (l1, st1)) : Sends l l1 := by
  unfold lexDoubleBracketStringLiteral at h
  split at h
  · cases h
  · rename_i r2 l2 h2
    split at h
    · cases h
    · rename_i n3 l3 h3
      have s := (next_same h2).trans (acceptRun_same h3)
      split at h
      · cases h
      · rename_i l4 h4
        cases h
        exact Sends.byErrorf _ (s.trans (accept_same h4))
      · rename_i l4 h4
        cases h5 : accept (ascii "\n") l4 with
        | none => rw [h5] at h; cases h
        | some p =>
          rw [h5] at h; cases h
          exact Sends.unchanged ((s.trans (accept_same h4)).trans (accept_same h5))

theorem bracketIteration_sends (n : Nat) (again : State) (close : Lexer → Option Lexer)
    (hclose : ∀ l0 l1, close l0 = some l1 → Sends l0 l1)
    {l l1 : Lexer} {st1 : State} (h : bracketIteration n again close l = some (l1, st1)) :
    Sends l l1 := by
  unfold bracketIteration at h
  split at h
  · cases h
  · rename_i r2 l2 h2
    have s1 := next_same h2
    split_ifs at h
    · cases h3 : next l2 with
      | none => rw [h3] at h; cases h
      | some p =>
        rw [h3] at h; cases h
        exact Sends.unchanged (s1.trans (next_same h3))
    · split at h
      · cases h
      · rename_i m l3 h3
        have s2 := s1.trans (acceptRun_same h3)
        split_ifs at h
        · cases h; exact Sends.unchanged s2
        · split at h
          · cases h
          · rename_i l4 h4
            cases h
            exact Sends.byErrorf _ (s2.trans (accept_same h4))
          · rename_i l4 h4
            have s3 := s2.trans (accept_same h4)
            cases h5 : close l4 with
            | none => rw [h5] at h; cases h
            | some l5 =>
              rw [h5] at h; cases h
              have := hclose _ _ h5
              exact Sends.after s3 this
    · cases h; exact Sends.unchanged s1

theorem lexLineComment_sends {l l1 : Lexer} {st1 : State}
    (h : lexLineComment l = some (l1, st1)) : Sends l l1 := by
  unfold lexLineComment at h
  split at h
  · cases h
  · cases h; exact Sends.unchanged ⟨rfl, rfl⟩

theorem quotedIteration_sends (q : Int) (again : State)
    {l l1 : Lexer} {st1 : State} (h : quotedIteration q again l = some (l1, st1)) :
    Sends l l1 := by
  unfold quotedIteration at h
  split at h
  · cases h
  · rename_i r2 l2 h2
    have s1 := next_same h2
    split_ifs at h
    · cases h3 : next l2 with
      | none => rw [h3] at h; cases h
      | some p =>
        rw [h3] at h; cases h
        exact Sends.unchanged (s1.trans (next_same h3))
    · cases he : emit l2 .StringLiteral with
      | none => rw [he] at h; cases h
      | some l3 =>
        rw [he] at h; cases h
        exact Sends.byEmit s1 he (by decide)
    · cases h; exact Sends.unchanged s1

theorem quotedEntry_sends (again : State)
    {l l1 : Lexer} {st1 : State}
    (h : (next l).map (fun p => (p.2, again)) = some (l1, st1)) : Sends l l1 := by
  cases h3 : next l with
  | none => rw [h3] at h; cases h
  | some p =>
    rw [h3] at h; cases h
    exact Sends.unchanged (next_same h3)

/-- No step sends an Item of kind TableLookupOperatorLeft. -/
theorem stateFn_sends {st : State} {l l1 : Lexer}
    {st1 : State} (h : stateFn st l = some (l1, st1)) : Sends l l1 := by
  cases st with
  | lexText => exact lexText_sends h
  | lexNumberLiteral => exact lexNumberLiteral_sends h
  | lexBlockComment => exact lexBlockComment_sends h
  | lexLineComment => exact lexLineComment_sends h
  | lexSingleQuotedStringLiteral =>
    exact quotedEntry_sends .singleQuotedLoop h
  | lexDoubleQuotedStringLiteral =>
    exact quotedEntry_sends .doubleQuotedLoop h
  | lexDoubleBracketStringLiteral => exact lexDoubleBracket_sends h
  | blockCommentLoop n =>
    exact bracketIteration_sends n _ _
      (fun l0 l1 hc => by cases hc; exact Sends.unchanged (ignore_same _)) h
  | singleQuotedLoop => exact quotedIteration_sends _ _ h
  | doubleQuotedLoop => exact quotedIteration_sends _ _ h
  | doubleBracketLoop n =>
    exact bracketIteration_sends n _ _
      (fun l0 l1 hc => Sends.byEmit (Same.refl _) hc (by decide)) h
  | halted => cases h; exact Sends.unchanged (Same.refl _)
  | panicked => cases h; exact Sends.unchanged (Same.refl _)



theorem run_sends (input : List Nat) : ∀ (n : Nat) (c : Config),
    (∀ i ∈ c.l.items, i.Typ ≠ .TableLookupOperatorLeft) →
    ∀ i ∈ (run n c).l.items, i.Typ ≠ .TableLookupOperatorLeft
  | 0, _, hc => hc
  | n + 1, c, hc => by
    rw [run_succ]
    apply run_sends input n
    cases h : stateFn c.state c.l with
    | none =>
      have : step c = ⟨c.l, .panicked⟩ := by simp [step, h]
      rw [this]; exact hc
    | some p =>
      obtain ⟨l1, st1⟩ := p
      have hs : step c = ⟨l1, st1⟩ := by simp [step, h]
      obtain ⟨new, h1, h2⟩ := stateFn_sends h
      rw [hs]
      intro i hi
      simp only [h1, List.mem_append] at hi
      rcases hi with hi | hi
      · exact hc i hi
      · exact h2 i hi


/-- C17: for every input made of `[`, k characters `=` and a rest that is empty
or begins with a byte other than `=` and `[`, the scanner halts having sent
exactly one Item: Error "didn't find another opening bracket" with Begin 0; and
for every input, at every point of the run, no Item sent has the kind
TableLookupOperatorLeft. -/
theorem C17_bracket_always_long_opener (k : Nat) (rest : List Nat)
    (hrest : ∀ b r, rest = b :: r → b ≠ 0x3D ∧ b ≠ 0x5B) (input : List Nat) (n : Nat) :
    Yields (0x5B :: (List.replicate k 0x3D ++ rest))
      [⟨.Error, 0, ascii "didn't find another opening bracket"⟩] ∧
    ∀ i ∈ (run n (NewLexer input)).l.items, i.Typ ≠ .TableLookupOperatorLeft := by
  refine ⟨?_, run_sends input n (NewLexer input) (by simp [NewLexer])⟩
  have h1 := lexText_bracket [] (List.replicate k 0x3D ++ rest) 0 []
  have h2 := lexDoubleBracket_unopened k [] rest 0 ((1 : Nat) : Int) [] hrest
  simp only [List.length_nil, Nat.cast_zero] at h1
  have e1 : run (1 + 1) ⟨L [] (0x5B :: (List.replicate k 0x3D ++ rest)) 0 0 [], .lexText⟩ = _ :=
    run_step .lexText 1 h1
  have e2 : run (0 + 1) ⟨L [] (0x5B :: (List.replicate k 0x3D ++ rest)) 0 ((1 : Nat) : Int) [],
      .lexDoubleBracketStringLiteral⟩ = _ := run_step .lexDoubleBracketStringLiteral 0 h2
  refine ⟨1 + 1, ?_⟩
  rw [NewLexer_eq, e1, e2]
  exact ⟨rfl, rfl⟩

/-- C17 at the inputs `[=x` and `a[1]`: the first yields the one Error Item; on
the second, after Identifier `a`, the `[` leads to the same Error with Begin 1. -/
theorem C17_bracket_always_long_opener_witness :
    (∀ b r, ascii "x" = b :: r → b ≠ 0x3D ∧ b ≠ 0x5B) ∧
    (Yields (0x5B :: (List.replicate 1 0x3D ++ ascii "x"))
      [⟨.Error, 0, ascii "didn't find another opening bracket"⟩] ∧
    ∀ i ∈ (run 3 (NewLexer (ascii "a[1]"))).l.items, i.Typ ≠ .TableLookupOperatorLeft) ∧
    Yields (ascii "a[1]") [⟨.Identifier, 0, ascii "a"⟩,
      ⟨.Error, 1, ascii "didn't find another opening bracket"⟩] :=
  ⟨fun b r h => by
      have hb : b = 0x78 := by
        have := congrArg List.head? h
        simpa [ascii] using this.symm
      subst hb; decide,
    C17_bracket_always_long_opener 1 (ascii "x") (fun b r h => by
      have hb : b = 0x78 := by
        have := congrArg List.head? h
        simpa [ascii] using this.symm
      subst hb; decide) (ascii "a[1]") 3,
    ⟨3, by decide⟩⟩


/-! ## A closing run that is not followed by a bracket -/

/-- One iteration of a long-bracket loop at `]`, a run of exactly `n` characters
`=` and anything but `]`: the Error "didn't find closing bracket". -/
theorem bracketIteration_error (n : Nat) (st : State) (close : Lexer → Option Lexer)
    (pre t : List Nat) (s w : Int) (it : List Item)
    (ht : ∀ b r, t = b :: r → b ≠ 0x3D ∧ b ≠ 0x5D) :
    bracketIteration n st close (L pre (0x5D :: (List.replicate n 0x3D ++ t)) s w it) =
      some (L (pre ++ 0x5D :: List.replicate n 0x3D) t s ((runeAt t).2 : Int)
        (it ++ [⟨.Error, s, ascii "didn't find closing bracket"⟩]), .halted) := by
  have hc : containsRune (ascii "=") (runeAt t).1 = false := by
    cases t with
    | nil => rw [runeAt_nil]; exact containsRune_eof _
    | cons b r =>
      rw [containsRune_runeAt_cons _ (by decide),
        decide_eq_false (fun hm => (ht b r rfl).1 (by simpa [ascii] using hm))]
  have hrun := acceptRun_L (ascii "=") (List.replicate n 0x3D) t (pre ++ [0x5D]) s
    ((1 : Nat) : Int) it (by intro b hb; rw [List.eq_of_mem_replicate hb]; decide) hc
  have hacc := accept_L_reject (ascii "]") (by decide) (pre ++ [0x5D] ++ List.replicate n 0x3D)
    t s ((runeAt t).2 : Int) it
    (fun b r h hm => (ht b r h).2 (by simpa [ascii] using hm))
  simp only [bracketIteration, next_L, runeAt_5D, List.take_succ_cons, List.take_zero,
    List.drop_succ_cons, List.drop_zero]
  rw [if_neg (by decide), if_pos (by decide), hrun]
  simp only [List.length_replicate, ne_eq, not_true_eq_false, if_false, hacc]
  simp [errorf, L]

/-- The `for` loop of a long-bracket state runs through a plain body; at a `]`
with a run of exactly `n` characters `=` that no `]` follows it halts with the
Error "didn't find closing bracket". -/
theorem bracketLoop_error (n : Nat) (st : State) (close : Lexer → Option Lexer)
    (hst : ∀ l, stateFn st l = bracketIteration n st close l)
    (t : List Nat) (ht : ∀ b r, t = b :: r → b ≠ 0x3D ∧ b ≠ 0x5D) (s : Int) (it : List Item) :
    ∀ (m : Nat) (x pre : List Nat) (w : Int), x.length ≤ m → plainBody n x = true →
      ∃ (k : Nat) (w1 : Int),
        run k ⟨L pre (x ++ 0x5D :: (List.replicate n 0x3D ++ t)) s w it, st⟩ =
          ⟨L (pre ++ x ++ 0x5D :: List.replicate n 0x3D) t s w1
            (it ++ [⟨.Error, s, ascii "didn't find closing bracket"⟩]), .halted⟩ := by
  have hbase : ∀ (pre : List Nat) (w : Int), ∃ (k : Nat) (w1 : Int),
      run k ⟨L pre ([] ++ 0x5D :: (List.replicate n 0x3D ++ t)) s w it, st⟩ =
        ⟨L (pre ++ [] ++ 0x5D :: List.replicate n 0x3D) t s w1
          (it ++ [⟨.Error, s, ascii "didn't find closing bracket"⟩]), .halted⟩ := by
    intro pre w
    have h1 : stateFn st (L pre ([] ++ 0x5D :: (List.replicate n 0x3D ++ t)) s w it) =
        some (L (pre ++ 0x5D :: List.replicate n 0x3D) t s ((runeAt t).2 : Int)
          (it ++ [⟨.Error, s, ascii "didn't find closing bracket"⟩]), .halted) := by
      rw [hst, List.nil_append]; exact bracketIteration_error n st close pre t s w it ht
    refine ⟨1, ((runeAt t).2 : Int), ?_⟩
    rw [run_step st 0 h1, List.append_nil]
    rfl
  intro m
  induction m with
  | zero =>
    intro x pre w hm _
    obtain rfl : x = [] := List.length_eq_zero.1 (Nat.le_zero.1 hm)
    exact hbase pre w
  | succ m ih =>
    intro x pre w hm hx
    cases x with
    | nil => exact hbase pre w
    | cons b x =>
      obtain ⟨pre1, x1, w1, hlen, hx1, hpre, hit⟩ :=
        bracketIteration_body n st close pre b x (List.replicate n 0x3D ++ t) s w it hx
      obtain ⟨k, w2, hk⟩ := ih x1 pre1 w1 (by simp only [List.length_cons] at hlen hm; omega) hx1
      refine ⟨k + 1, w2, ?_⟩
      rw [run_step st k (by rw [hst]; exact hit), hk, hpre]

/-- A long-bracket string whose plain body is followed by `]` and exactly `n`
characters `=`, but not by a second `]`, yields the one Error Item. -/
theorem longString_error (n : Nat) (body t : List Nat) (hbody : plainBody n body = true)
    (ht : ∀ b r, t = b :: r → b ≠ 0x3D ∧ b ≠ 0x5D) :
    Yields (opening n ++ body ++ 0x5D :: (List.replicate n 0x3D ++ t))
      [⟨.Error, 0, ascii "didn't find closing bracket"⟩] := by
  have hin : opening n ++ body ++ 0x5D :: (List.replicate n 0x3D ++ t) =
      0x5B :: (List.replicate n 0x3D ++ 0x5B :: (body ++ 0x5D :: (List.replicate n 0x3D ++ t))) := by
    simp [opening]
  have h1 := lexText_bracket []
    (List.replicate n 0x3D ++ 0x5B :: (body ++ 0x5D :: (List.replicate n 0x3D ++ t))) 0 []
  rw [← hin] at h1
  simp only [List.length_nil, Nat.cast_zero] at h1
  obtain ⟨pre1, x1, w1, hpre, hx1, h2⟩ := lexDoubleBracket_entry n [] body
    (List.replicate n 0x3D ++ t) 0 ((1 : Nat) : Int) [] hbody
  obtain ⟨k, w2, hk⟩ := bracketLoop_error n (.doubleBracketLoop n)
    (fun l1 => emit l1 .StringLiteral) (fun _ => rfl) t ht 0 [] x1.length x1 pre1 w1 le_rfl hx1
  simp only [List.nil_append] at h2
  have e1 : run (k + 1 + 1)
      ⟨L [] (opening n ++ body ++ 0x5D :: (List.replicate n 0x3D ++ t)) 0 0 [], .lexText⟩ = _ :=
    run_step .lexText (k + 1) h1
  have e2 : run (k + 1)
      ⟨L [] (opening n ++ body ++ 0x5D :: (List.replicate n 0x3D ++ t)) 0 ((1 : Nat) : Int) [],
        .lexDoubleBracketStringLiteral⟩ = _ :=
    run_step .lexDoubleBracketStringLiteral k h2
  refine ⟨k + 1 + 1, ?_⟩
  rw [NewLexer_eq, e1, e2, hk]
  exact ⟨rfl, rfl⟩

/-- A block comment whose plain body is followed by `]` and exactly `n`
characters `=`, but not by a second `]`, yields the one Error Item. -/
theorem blockComment_error (n : Nat) (body t : List Nat) (hbody : plainBody n body = true)
    (ht : ∀ b r, t = b :: r → b ≠ 0x3D ∧ b ≠ 0x5D) :
    Yields (0x2D :: 0x2D :: (opening n ++ body ++ 0x5D :: (List.replicate n 0x3D ++ t)))
      [⟨.Error, 0, ascii "didn't find closing bracket"⟩] := by
  have hin : (0x2D :: 0x2D :: (opening n ++ body ++ 0x5D :: (List.replicate n 0x3D ++ t))) =
      0x2D :: 0x2D :: 0x5B ::
        (List.replicate n 0x3D ++ 0x5B :: (body ++ 0x5D :: (List.replicate n 0x3D ++ t))) := by
    simp [opening]
  have h1 := lexText_blockComment []
    (List.replicate n 0x3D ++ 0x5B :: (body ++ 0x5D :: (List.replicate n 0x3D ++ t))) 0 []
  rw [← hin] at h1
  simp only [List.length_nil, Nat.cast_zero] at h1
  have h2 := lexBlockComment_entry n [] (body ++ 0x5D :: (List.replicate n 0x3D ++ t)) 0
    ((1 : Nat) : Int) []
  rw [← List.append_assoc] at h2
  simp only [List.nil_append] at h2
  obtain ⟨k, w2, hk⟩ := bracketLoop_error n (.blockCommentLoop n) (fun l1 => some (ignore l1))
    (fun _ => rfl) t ht 0 [] body.length body (0x2D :: 0x2D :: opening n) ((1 : Nat) : Int)
    le_rfl hbody
  have e1 : run (k + 1 + 1)
      ⟨L [] (0x2D :: 0x2D :: (opening n ++ body ++ 0x5D :: (List.replicate n 0x3D ++ t))) 0 0 [],
        .lexText⟩ = _ :=
    run_step .lexText (k + 1) h1
  have e2 : run (k + 1)
      ⟨L [] (0x2D :: 0x2D :: (opening n ++ body ++ 0x5D :: (List.replicate n 0x3D ++ t))) 0
        ((1 : Nat) : Int) [], .lexBlockComment⟩ = _ :=
    run_step .lexBlockComment k h2
  refine ⟨k + 1 + 1, ?_⟩
  rw [NewLexer_eq, e1, e2, hk]
  exact ⟨rfl, rfl⟩


/-- C4 (amended): for every level `n` and every body without a backslash in which
no `]` is followed by a run of exactly `n` characters `=`, the long-bracket string
is one StringLiteral spanning the whole input followed by EOF, and the same input
prefixed with `--` yields EOF alone; when the body is followed by `]`, exactly `n`
characters `=` and a rest `t` that is empty or begins with a byte other than `=`
and `]`, the scan of the string, and of the same input prefixed with `--`, ends
with the single Item Error "didn't find closing bracket" with Begin 0. -/
theorem C4_unmatched_bracket_is_content (n : Nat) (body t : List Nat)
    (hbody : plainBody n body = true)
    (ht : ∀ b r, t = b :: r → b ≠ 0x3D ∧ b ≠ 0x5D) :
    Yields (opening n ++ body ++ closing n)
        [⟨.StringLiteral, 0, opening n ++ body ++ closing n⟩,
          ⟨.EOF, ((opening n ++ body ++ closing n).length : Int), []⟩] ∧
      Yields (0x2D :: 0x2D :: (opening n ++ body ++ closing n))
        [⟨.EOF, ((opening n ++ body ++ closing n).length + 2 : Int), []⟩] ∧
      Yields (opening n ++ body ++ 0x5D :: (List.replicate n 0x3D ++ t))
        [⟨.Error, 0, ascii "didn't find closing bracket"⟩] ∧
      Yields (0x2D :: 0x2D :: (opening n ++ body ++ 0x5D :: (List.replicate n 0x3D ++ t)))
        [⟨.Error, 0, ascii "didn't find closing bracket"⟩] := by
  refine ⟨longString_yields n body hbody, ?_, longString_error n body t hbody ht,
    blockComment_error n body t hbody ht⟩
  have := blockComment_yields n body hbody
  simpa [add_assoc] using this

/-- C4 at level 1 with the body `a]b`: the string and the comment are scanned to
their closing bracket; with `x` in place of the last `]` they end in the Error. -/
theorem C4_unmatched_bracket_is_content_witness :
    (plainBody 1 (ascii "a]b") = true ∧
      ∀ b r, ascii "x" = b :: r → b ≠ 0x3D ∧ b ≠ 0x5D) ∧
    (Yields (ascii "[=[a]b]=]")
        [⟨.StringLiteral, 0, ascii "[=[a]b]=]"⟩, ⟨.EOF, 9, []⟩] ∧
      Yields (ascii "--[=[a]b]=]") [⟨.EOF, 11, []⟩] ∧
      Yields (ascii "[=[a]b]=x") [⟨.Error, 0, ascii "didn't find closing bracket"⟩] ∧
      Yields (ascii "--[=[a]b]=x") [⟨.Error, 0, ascii "didn't find closing bracket"⟩]) :=
  ⟨⟨by decide, fun b r h => by
      have hb : b = 0x78 := by
        have := congrArg List.head? h
        simpa [ascii] using this.symm
      subst hb; decide⟩,
    C4_unmatched_bracket_is_content 1 (ascii "a]b") (ascii "x") (by decide) (fun b r h => by
      have hb : b = 0x78 := by
        have := congrArg List.head? h
        simpa [ascii] using this.symm
      subst hb; decide)⟩

/-! ## Identifiers that make no progress: the claim -/

/-- C18 (amended): at a cursor position where the remaining input is
`unrecognised` (it begins with a Latin-1 rune at which no rule of the dispatch
state applies, for example `@`), the dispatch state sends an Identifier with
empty text, leaves the cursor where it is and is entered again; after k steps k
empty Identifiers have been sent, and the scanner never halts. -/
theorem C18_unrecognised_rune_no_progress (p rest : List Nat) (s w : Int) (it : List Item)
    (h : unrecognised rest = true) (k : Nat) :
    (run k ⟨L p rest s w it, .lexText⟩).l.items =
        it ++ List.replicate k ⟨.Identifier, (p.length : Int), []⟩ ∧
      (run k ⟨L p rest s w it, .lexText⟩).l.pos = (p.length : Int) ∧
      (run k ⟨L p rest s w it, .lexText⟩).state = .lexText := by
  simp only [unrecognised, Bool.and_eq_true, Bool.not_eq_true', bne_iff_ne, ne_eq,
    Option.isNone_iff_eq_none] at h
  obtain ⟨⟨⟨⟨⟨⟨⟨⟨⟨⟨_, h1⟩, h2⟩, h3⟩, h4⟩, h5⟩, h6⟩, h7⟩, h8⟩, h9⟩, h10⟩ := h
  have hstep : ∀ (s1 w1 : Int) (it1 : List Item),
      lexText (L p rest s1 w1 it1) =
        some (L p rest (p.length : Int) (runeAt rest).2
          (it1 ++ [⟨.Identifier, (p.length : Int), []⟩]), .lexText) := by
    intro s1 w1 it1
    have := lexText_identifier p [] rest s1 w1 it1 h1 h2 h3 h8 h4 h5 h6 h7 h9
      (by simp) h10
    simpa using this
  have hrun : ∀ (k : Nat) (s1 w1 : Int) (it1 : List Item), ∃ (s2 w2 : Int),
      run k ⟨L p rest s1 w1 it1, .lexText⟩ =
        ⟨L p rest s2 w2
          (it1 ++ List.replicate k ⟨.Identifier, (p.length : Int), []⟩), .lexText⟩ := by
    intro k
    induction k with
    | zero => intro s1 w1 it1; exact ⟨s1, w1, by simp [run]⟩
    | succ k ih =>
      intro s1 w1 it1
      obtain ⟨s2, w2, h⟩ := ih (p.length : Int) (runeAt rest).2
        (it1 ++ [⟨.Identifier, (p.length : Int), []⟩])
      refine ⟨s2, w2, ?_⟩
      rw [run_step .lexText k (hstep s1 w1 it1), h, List.replicate_succ]
      simp
  obtain ⟨s2, w2, h⟩ := hrun k s w it
  rw [h]
  exact ⟨rfl, rfl, rfl⟩

/-- C18 at the input `@`: after 5 steps five empty Identifiers have been sent. -/
theorem C18_unrecognised_rune_no_progress_witness :
    unrecognised (ascii "@") = true ∧
    (run 5 ⟨L [] (ascii "@") 0 0 [], .lexText⟩).l.items =
      [] ++ List.replicate 5 ⟨.Identifier, (([] : List Nat).length : Int), []⟩ :=
  ⟨by decide, (C18_unrecognised_rune_no_progress [] (ascii "@") 0 0 [] (by decide) 5).1⟩


/-! ## Rendering of Items -/

/-- On a text of printable ASCII characters without `"` and backslash,
`strconv.Quote` writes the text between two double quotes. -/
theorem quoteASCII_plain (v : List Nat)
    (h : ∀ b ∈ v, 0x20 ≤ b ∧ b < 0x7F ∧ b ≠ 0x22 ∧ b ≠ 0x5C) :
    quoteASCII v = some ([0x22] ++ v ++ [0x22]) := by
  have hb : ∀ v : List Nat, (∀ b ∈ v, 0x20 ≤ b ∧ b < 0x7F ∧ b ≠ 0x22 ∧ b ≠ 0x5C) →
      v.flatMap quoteByte = v := by
    intro v
    induction v with
    | nil => intro _; rfl
    | cons b t ih =>
      intro h
      have hb := h b (List.mem_cons_self _ _)
      have ht := ih (fun c hc => h c (List.mem_cons_of_mem _ hc))
      rw [List.flatMap_cons, ht, quoteByte, if_neg (by omega), if_pos ⟨hb.1, hb.2.1⟩]
      rfl
  have ha : v.all (fun b => decide (b < 0x80)) = true := by
    rw [List.all_eq_true]
    intro b hbv
    have := h b hbv
    simp only [decide_eq_true_eq]
    omega
  rw [quoteASCII, if_pos ha, hb v h]

/-- Every declared kind other than EOF, Error and ComparisonOperator has a
non-empty name in the table, which is what `Token.String` returns. -/
theorem tokens_named (k : Token) :
    k = .EOF ∨ k = .Error ∨ k = .ComparisonOperator ∨
      ((k, tokensAt k) ∈ tokens ∧ tokensAt k ≠ [] ∧ k.String = tokensAt k) := by
  cases k <;> decide

/-- C15 (amended): let `quote` be the verb `%q`, a function that on ASCII text
writes what `strconv.Quote` writes.  For every Item of a declared kind,
`Item.String` is `EOF` for the kind EOF and the raw text for the kind Error; for
ComparisonOperator, which has no entry in the name table, it is the decimal
number 42 of the kind, `:` and the quoted text; for every other kind it is the
kind's non-empty name from the name table, `:` and the quoted text.  The quoted
text of a string of printable ASCII characters without `"` and backslash is that
string between two `"`. -/
theorem C15_item_rendering (quote : List Nat → List Nat)
    (hq : ∀ v out : List Nat, quoteASCII v = some out → quote v = out) (i : Item) :
    ((i.Typ = .EOF ∧ i.String quote = ascii "EOF") ∨
      (i.Typ = .Error ∧ i.String quote = i.Val) ∨
      (i.Typ = .ComparisonOperator ∧ tokensAt i.Typ = [] ∧
        i.String quote = ascii "42" ++ ascii ":" ++ quote i.Val) ∨
      (∃ name : List Nat, (i.Typ, name) ∈ tokens ∧ name ≠ [] ∧
        i.String quote = name ++ ascii ":" ++ quote i.Val)) ∧
    ((∀ b ∈ i.Val, 0x20 ≤ b ∧ b < 0x7F ∧ b ≠ 0x22 ∧ b ≠ 0x5C) →
      quote i.Val = [0x22] ++ i.Val ++ [0x22]) := by
  refine ⟨?_, fun hp => hq _ _ (quoteASCII_plain i.Val hp)⟩
  obtain ⟨k, b, v⟩ := i
  have hk := tokens_named k
  by_cases h1 : k = .EOF
  · subst h1; exact Or.inl ⟨rfl, rfl⟩
  by_cases h2 : k = .Error
  · subst h2; exact Or.inr (Or.inl ⟨rfl, rfl⟩)
  by_cases h3 : k = .ComparisonOperator
  · subst h3
    have hs : Token.String .ComparisonOperator = ascii "42" := by decide
    refine Or.inr (Or.inr (Or.inl ⟨rfl, rfl, ?_⟩))
    simp only [Item.String, if_neg h1, if_neg h2, hs]
  rcases hk with hk | hk | hk | ⟨hm, hne, hs⟩
  · exact absurd hk h1
  · exact absurd hk h2
  · exact absurd hk h3
  · refine Or.inr (Or.inr (Or.inr ⟨tokensAt k, hm, hne, ?_⟩))
    simp only [Item.String, if_neg h1, if_neg h2, hs]

/-- C15 with `strconv.Quote` on ASCII text for `%q`, at Identifier `x` and
NumberLiteral `1`: they render as `identifier:"x"` and `number-literal:"1"`. -/
theorem C15_item_rendering_witness :
    (∀ v out : List Nat, quoteASCII v = some out → (quoteASCII v).getD [] = out) ∧
    (∀ b ∈ ascii "x", 0x20 ≤ b ∧ b < 0x7F ∧ b ≠ 0x22 ∧ b ≠ 0x5C) ∧
    (quoteASCII (ascii "x")).getD [] = [0x22] ++ ascii "x" ++ [0x22] ∧
    Item.String (fun v => (quoteASCII v).getD []) ⟨.Identifier, 0, ascii "x"⟩ =
      ascii "identifier:\"x\"" ∧
    Item.String (fun v => (quoteASCII v).getD []) ⟨.NumberLiteral, 0, ascii "1"⟩ =
      ascii "number-literal:\"1\"" :=
  ⟨fun v out h => by rw [h]; rfl, by decide,
    (C15_item_rendering (fun v => (quoteASCII v).getD [])
      (fun v out h => by simp only [h]; rfl) ⟨.Identifier, 0, ascii "x"⟩).2 (by decide),
    by decide, by decide⟩

/-- C15 (counterexample): ComparisonOperator has no name in the name table, and
an Item of that kind with text `<` renders as `42:"<"`, the number of the kind
standing where the claim has the name. -/
theorem C15_counterexample :
    tokensAt .ComparisonOperator = [] ∧
    (∀ name, (Token.ComparisonOperator, name) ∉ tokens) ∧
    Item.String (fun v => (quoteASCII v).getD []) ⟨.ComparisonOperator, 0, ascii "<"⟩ =
      ascii "42:\"<\"" := by
  refine ⟨by decide, ?_, by decide⟩
  intro name h
  have : ∀ e ∈ tokens, e.1 ≠ Token.ComparisonOperator := by decide
  exact this _ h rfl

end Lua
